import Mathlib

set_option linter.unusedVariables false
set_option linter.unusedSectionVars false

/-!
Shallow embedding of the cgrates action-execution engine (engine/action.go)
and verification of its specification claims.

Numeric float64 fields of the source are modelled as rationals; Go nil
pointers are modelled by Option; fallible Go functions return Except or an
explicit outcome type that distinguishes a returned error from a panic.
External collaborators that the excerpt only calls (data stores, template
and JSON parsing, the balance arithmetic primitives) are modelled from the
spec or passed as explicit parameters, as noted on each definition.
-/

namespace CGRE

/-! ## Action-type tags (engine/action.go constants) -/

def LOG : String := "*log"
def RESET_TRIGGERS : String := "*reset_triggers"
def REMOVE_ACCOUNT : String := "*remove_account"
def REMOVE_BALANCE : String := "*remove_balance"
def TOPUP_RESET : String := "*topup_reset"
def TOPUP : String := "*topup"
def DEBIT_RESET : String := "*debit_reset"
def DEBIT : String := "*debit"
def ENABLE_ACCOUNT : String := "*enable_account"
def DISABLE_ACCOUNT : String := "*disable_account"
def MAIL_ASYNC : String := "*mail_async"
def CDRLOG : String := "*cdrlog"
def SET_DDESTINATIONS : String := "*set_ddestinations"
def TRANSFER_MONETARY_DEFAULT : String := "*transfer_monetary_default"
def CGR_RPC : String := "*cgr_rpc"
def MONETARY : String := "*monetary"
def META_DEFAULT : String := "*default"
def MetaInternal : String := "*internal"

/-! ## Errors -/

/-- Go error values surfaced by the excerpt: errors.New strings plus the
distinguished utils sentinel errors. -/
inductive GoError where
  | errorString (s : String)
  | notFound
  | invalidKey
  | accountNotFound
  | parserError
deriving Repr, DecidableEq

/-! ## Data model -/

/-- Modelled from the spec: BalanceFilter is the external, nullable balance
descriptor carried by an Action; the excerpt reads its type, its value and
its optional boolean flags. Fields are optional (Go pointers). The source
field named Type is called BType here because Type is reserved in Lean. -/
structure BalanceFilter where
  Uuid : Option String := none
  ID : Option String := none
  BType : Option String := none
  Value : Option ℚ := none
  Disabled : Option Bool := none
  Blocker : Option Bool := none
deriving Repr, DecidableEq

instance : Inhabited BalanceFilter := ⟨{}⟩

/-- Modelled from the spec: BalanceFilter.GetValue is nil-receiver safe and
returns zero when the filter or its value is absent. -/
def bfGetValue : Option BalanceFilter → ℚ
  | none => 0
  | some bf => bf.Value.getD 0

/-- Modelled from the spec: BalanceFilter.SetValue overwrites the carried
value. -/
def BalanceFilter.SetValue (bf : BalanceFilter) (v : ℚ) : BalanceFilter :=
  { bf with Value := some v }

/-- Modelled from the spec: BalanceFilter.GetType is nil-receiver safe and
returns the empty string when the filter or its type is absent. -/
def bfGetType : Option BalanceFilter → String
  | none => ""
  | some bf => bf.BType.getD ""

/-- Action record (engine/action.go). balanceValue is the unexported field
recording the signed amount applied by execution. -/
structure Action where
  Id : String := ""
  ActionType : String := ""
  ExtraParameters : String := ""
  Filter : String := ""
  ExpirationString : String := ""
  Weight : ℚ := 0
  Balance : Option BalanceFilter := none
  balanceValue : ℚ := 0
deriving Repr, DecidableEq

instance : Inhabited Action := ⟨{}⟩

/-- Modelled from the spec: a concrete balance inside an account's balance
pool (external Balance model); only the fields the excerpt touches are
carried. -/
structure Balance where
  Uuid : String := ""
  ID : String := ""
  Value : ℚ := 0
  DestinationIDs : List String := []
  Disabled : Bool := false
deriving Repr, DecidableEq

instance : Inhabited Balance := ⟨{}⟩

abbrev Balances := List Balance

/-- Modelled from the spec: the external Account collaborator; BalanceMap is
modelled as an association list from balance type to its bucket. -/
structure Account where
  ID : String := ""
  BalanceMap : List (String × Balances) := []
  AllowNegative : Bool := false
  Disabled : Bool := false
deriving Repr, DecidableEq

instance : Inhabited Account := ⟨{}⟩

/-- Modelled from the spec: the triggering statistics queue; only the fields
the excerpt reads. Metrics is an association list standing for the Go map. -/
structure CDRStatsQueueTriggered where
  Id : String := ""
  Metrics : List (String × ℚ) := []
deriving Repr, DecidableEq

/-! ## Association-list helpers standing for Go maps -/

/-- Lookup in an association list (Go map read). -/
def mapLookup {α : Type} : List (String × α) → String → Option α
  | [], _ => none
  | (k', v) :: rest, k => if k' = k then some v else mapLookup rest k

/-- Insert or replace in an association list (Go map write). -/
def mapSet {α : Type} : List (String × α) → String → α → List (String × α)
  | [], k, v => [(k, v)]
  | (k', v') :: rest, k, v =>
    if k' = k then (k, v) :: rest else (k', v') :: mapSet rest k v

/-- Delete from an association list (Go map delete). -/
def mapRemove {α : Type} : List (String × α) → String → List (String × α)
  | [], _ => []
  | (k', v') :: rest, k =>
    if k' = k then mapRemove rest k else (k', v') :: mapRemove rest k

/-! ## gob deep clone (utils.Clone) -/

/-- Model of the gob encode/decode round trip used by utils.Clone on a
BalanceFilter: gob flattens pointers and omits zero values, so a pointer to
false, to zero or to the empty string decodes as an absent field. -/
def gobCloneBalanceFilter (bf : BalanceFilter) : BalanceFilter :=
  { Uuid := if bf.Uuid = some "" then none else bf.Uuid
    ID := if bf.ID = some "" then none else bf.ID
    BType := if bf.BType = some "" then none else bf.BType
    Value := if bf.Value = some 0 then none else bf.Value
    Disabled := if bf.Disabled = some false then none else bf.Disabled
    Blocker := if bf.Blocker = some false then none else bf.Blocker }

/-- Embedding of Action.Clone (utils.Clone, a gob round trip): exported
fields are deep-copied; the unexported balanceValue is not transmitted by
gob and decodes as zero; a present BalanceFilter stays present (its struct
field is emitted) but its own zero-valued optional fields are dropped. -/
def Action.Clone (a : Action) : Action :=
  { a with Balance := a.Balance.map gobCloneBalanceFilter, balanceValue := 0 }

/-! ## Balance mutation handlers (topup path, C2) -/

/-- Embedding of genericMakeNegative: negate the Balance's value only when
it is currently positive, so an already non-positive value is left alone. -/
def genericMakeNegative (a : Action) : Action :=
  match a.Balance with
  | some bf =>
    if bfGetValue (some bf) > 0 then
      { a with Balance := some (bf.SetValue (-(bfGetValue (some bf)))) }
    else a
  | none => a

/-- Modelled from the spec: debitBalanceAction is the external balance
arithmetic primitive owned by the Account model. It applies the action's
Balance value as a debit against the bucket of the Balance's type (clearing
the bucket first when reset is set, creating a zero balance when the bucket
is empty) and records the applied signed delta in the action's
balanceValue, so that a negative debit acts as a credit. -/
def Account.debitBalanceAction (acc : Account) (a : Action) (reset : Bool) :
    Account × Action :=
  let t := bfGetType a.Balance
  let amount := bfGetValue a.Balance
  let chain0 := (mapLookup acc.BalanceMap t).getD []
  let chain1 := if reset then [] else chain0
  let chain2 : Balances :=
    match chain1 with
    | [] => [{ Value := -amount }]
    | b :: rest => { b with Value := b.Value - amount } :: rest
  ({ acc with BalanceMap := mapSet acc.BalanceMap t chain2 },
   { a with balanceValue := amount })

/-- Embedding of genericDebit: initialize a nil balance map and delegate to
the Account's debitBalanceAction (the association-list model needs no
initialization). -/
def genericDebit (ub : Account) (a : Action) (reset : Bool) : Account × Action :=
  ub.debitBalanceAction a reset

/-- Embedding of topupAction: nil account is an error; otherwise clone the
action, negate the clone's Balance value, debit the account with the clone
and copy the clone's resulting balanceValue back onto the original. -/
def topupAction (ub : Option Account) (a : Action) :
    Except GoError (Account × Action) :=
  match ub with
  | none => .error (.errorString "nil account")
  | some acc =>
    let c := a.Clone
    let c2 := genericMakeNegative c
    let r := genericDebit acc c2 false
    .ok (r.1, { a with balanceValue := r.2.balanceValue })

/-- Embedding of topupResetAction: identical to topupAction except that the
debit is performed with reset set, so the target bucket is cleared before
the negated clone's value is applied. -/
def topupResetAction (ub : Option Account) (a : Action) :
    Except GoError (Account × Action) :=
  match ub with
  | none => .error (.errorString "nil account")
  | some acc =>
    let c := a.Clone
    let c2 := genericMakeNegative c
    let r := genericDebit acc c2 true
    .ok (r.1, { a with balanceValue := r.2.balanceValue })

/-- Reads the value of the head balance of the bucket of the given type
(zero when the bucket is absent or empty); used to observe the effect of a
debit. -/
def headVal (acc : Account) (t : String) : ℚ :=
  match mapLookup acc.BalanceMap t with
  | some (b :: _) => b.Value
  | _ => 0

/-! ## Lifecycle handlers: enable/disable (C3) -/

/-- Embedding of enableAccountAction: nil account is an explicit error,
otherwise clear the Disabled flag. -/
def enableAccountAction (acc : Option Account) (a : Action) :
    Except GoError Account :=
  match acc with
  | none => .error (.errorString "nil account")
  | some ub => .ok { ub with Disabled := false }

/-- Embedding of disableAccountAction: nil account is an explicit error,
otherwise set the Disabled flag. -/
def disableAccountAction (acc : Option Account) (a : Action) :
    Except GoError Account :=
  match acc with
  | none => .error (.errorString "nil account")
  | some ub => .ok { ub with Disabled := true }

/-! ## Store model (C3, C4) -/

/-- Destination record: an id plus its prefix list. -/
structure Destination where
  Id : String := ""
  Prefixes : List String := []
deriving Repr, DecidableEq

/-- Action plan membership: the set of member account ids, modelled as a
list. -/
structure ActionPlan where
  AccountIDs : List String := []
deriving Repr, DecidableEq

/-- Modelled from the spec: the persistent store consumed by the engine,
keyed by string ids (destinations, accounts, the account-to-action-plan
membership index and the action plans themselves). -/
structure DataDB where
  destinations : List (String × Destination) := []
  accounts : List (String × Account) := []
  accountActionPlans : List (String × List String) := []
  actionPlans : List (String × ActionPlan) := []
deriving Repr, DecidableEq

/-- Modelled from the spec: destination store lookup; a missing id is the
distinguished not-found condition. -/
def DataDB.GetDestination (db : DataDB) (id : String) :
    Except GoError Destination :=
  match mapLookup db.destinations id with
  | some d => .ok d
  | none => .error .notFound

/-- Modelled from the spec: destination store write. -/
def DataDB.SetDestination (db : DataDB) (d : Destination) : DataDB :=
  { db with destinations := mapSet db.destinations d.Id d }

/-- Modelled from the spec: account store removal. -/
def DataDB.RemoveAccount (db : DataDB) (id : String) : Except GoError DataDB :=
  .ok { db with accounts := mapRemove db.accounts id }

/-- Modelled from the spec: the account-to-action-plan membership index
lookup; a missing entry is the distinguished not-found condition. -/
def DataDB.GetAccountActionPlans (db : DataDB) (accID : String) :
    Except GoError (List String) :=
  match mapLookup db.accountActionPlans accID with
  | some l => .ok l
  | none => .error .notFound

/-- Modelled from the spec: action plan lookup. -/
def DataDB.GetActionPlan (db : DataDB) (apID : String) :
    Except GoError ActionPlan :=
  match mapLookup db.actionPlans apID with
  | some ap => .ok ap
  | none => .error .notFound

/-- Modelled from the spec: action plan write. -/
def DataDB.SetActionPlan (db : DataDB) (apID : String) (ap : ActionPlan) :
    DataDB :=
  { db with actionPlans := mapSet db.actionPlans apID ap }

/-- Modelled from the spec: removal of the account's plan-membership index
entry; a not-found condition on the membership index is not an error, so
removal of an absent entry succeeds. -/
def DataDB.RemAccountActionPlans (db : DataDB) (accID : String) :
    Except GoError DataDB :=
  .ok { db with accountActionPlans := mapRemove db.accountActionPlans accID }

/-! ## setddestinations (C3) -/

/-- Outcome of running a handler, distinguishing a Go runtime panic (nil
pointer dereference) from an error return. -/
inductive HRes where
  | ok (db : DataDB)
  | err (e : GoError)
  | panicked
deriving Repr, DecidableEq

/-- The inner scan of setddestinations over one balance chain: the first
destination id carrying the reserved ddc prefix. -/
def findDdcInChain : Balances → String
  | [] => ""
  | b :: rest =>
    match b.DestinationIDs.find? (fun d => d.startsWith "*ddc") with
    | some d => d
    | none => findDdcInChain rest

/-- The outer scan of setddestinations over all balance chains of the
account's balance map. -/
def findDdc : List (String × Balances) → String
  | [] => ""
  | (_, chain) :: rest =>
    let d := findDdcInChain chain
    if d ≠ "" then d else findDdc rest

/-- Embedding of setddestinations (engine/action.go). The body's first
statement ranges over ub.BalanceMap with no nil check, so a nil account
dereferences a nil pointer and panics; likewise sq.Metrics is read with no
nil check once a ddc destination id was found. Cache reload and the
reverse-destination index update are modelled from the spec as succeeding
store maintenance. -/
def setddestinations (db : DataDB) (ub : Option Account)
    (sq : Option CDRStatsQueueTriggered) (a : Action) : HRes :=
  match ub with
  | none => .panicked
  | some acc =>
    let ddcDestId := findDdc acc.BalanceMap
    if ddcDestId ≠ "" then
      match sq with
      | none => .panicked
      | some q =>
        let prefixes := q.Metrics.map Prod.fst
        let newDest : Destination := { Id := ddcDestId, Prefixes := prefixes }
        match db.GetDestination ddcDestId with
        | .error e => .err e
        | .ok _ => .ok (db.SetDestination newDest)
    else .err .notFound

/-! ## removeAccountAction (C4) -/

/-- Embedding of utils.AccountKey: compose the account id from tenant and
account. -/
def accountKey (tenant acc : String) : String := tenant ++ ":" ++ acc

/-- Embedding of the per-plan loop of removeAccountAction's critical
section: load each plan, delete the account from its membership set and
persist it. -/
def removeFromPlans (db : DataDB) (accID : String) :
    List String → Except GoError DataDB
  | [] => .ok db
  | apID :: rest =>
    match db.GetActionPlan apID with
    | .error e => .error e
    | .ok ap =>
      removeFromPlans
        (db.SetActionPlan apID { AccountIDs := ap.AccountIDs.filter (· ≠ accID) })
        accID rest

/-- Embedding of the critical section of removeAccountAction, executed
under the action-plan guardian lock (the sequential model runs it
directly): look up the membership index tolerating not-found, clean every
listed plan, then drop the index entry; cache reloads are modelled from the
spec as succeeding. -/
def removeAccountPlanStep (db : DataDB) (accID : String) :
    Except GoError DataDB :=
  let rest := fun (apIDs : List String) =>
    match removeFromPlans db accID apIDs with
    | .error e => .error e
    | .ok db1 => db1.RemAccountActionPlans accID
  match db.GetAccountActionPlans accID with
  | .error e => if e ≠ .notFound then .error e else rest []
  | .ok apIDs => rest apIDs

/-- Embedding of removeAccountAction: determine the target account id (from
the live account, else from ExtraParameters, whose JSON decoding is the
external parameter parseTA), delete the account from the store, then run
the plan-membership cleanup under the guardian lock. -/
def removeAccountAction (db : DataDB)
    (parseTA : String → Except GoError (String × String))
    (ub : Option Account) (a : Action) : Except GoError DataDB :=
  let accIDRes : Except GoError String :=
    match ub with
    | some acc => .ok acc.ID
    | none =>
      if a.ExtraParameters ≠ "" then
        match parseTA a.ExtraParameters with
        | .error e => .error e
        | .ok (t, ac) => .ok (accountKey t ac)
      else .ok (accountKey "" "")
  match accIDRes with
  | .error e => .error e
  | .ok accID =>
    if accID = "" then .error .invalidKey
    else
      match db.RemoveAccount accID with
      | .error e => .error e
      | .ok db1 => removeAccountPlanStep db1 accID

/-! ## cgrRPCAction (C5) -/

abbrev RPCParamsMap := List (String × String)

/-- RPCRequest built from the rendered ExtraParameters template. -/
structure RPCRequest where
  Address : String := ""
  Transport : String := ""
  Method : String := ""
  Attempts : Nat := 0
  Async : Bool := false
  Params : RPCParamsMap := []
deriving Repr, DecidableEq

/-- The method registry entry: the method's input shape (nil when the
registry carries none), with the shape itself opaque to the excerpt. -/
structure RpcParamsEntry where
  InParam : Option Unit := none
deriving Repr, DecidableEq

/-- What cgrRPCAction ends up doing: returning an error, or invoking the
resolved method (synchronously or detached). -/
inductive RpcOutcome where
  | errored (e : GoError)
  | invoked (method : String) (async : Bool)
deriving Repr, DecidableEq

/-- Embedding of cgrRPCAction from the point where the rendered
ExtraParameters have parsed into an RPCRequest. The method registry, the
client construction and the mapstructure decoding are external
collaborators passed as parameters. The source discards the return value of
mapstructure.Decode (it is not assigned to err), and the err tested just
after it is necessarily the nil left by the preceding successful steps, so
only a nil registry input shape diverts to the parser error. -/
def cgrRPCAction (lookupMethod : String → Except GoError RpcParamsEntry)
    (mkClient : RPCRequest → Except GoError Unit)
    (decodeParams : RPCParamsMap → Except GoError Unit)
    (req : RPCRequest) : RpcOutcome :=
  match lookupMethod req.Method with
  | .error e => .errored e
  | .ok params =>
    match (if req.Address ≠ MetaInternal then mkClient req else .ok ()) with
    | .error e => .errored e
    | .ok _ =>
      let _discarded := decodeParams req.Params
      if params.InParam.isNone then .errored .parserError
      else .invoked req.Method req.Async

/-! ## cdrLogAction (C6) -/

/-- Embedding of utils.IsSliceMember: string membership in a slice. -/
def isSliceMember (ss : List String) (s : String) : Bool := ss.contains s

/-- Synthetic CDR record; only the fields the excerpt writes. -/
structure CDR where
  RunID : String := ""
  Source : String := ""
  OriginID : String := ""
  CGRID : String := ""
  Cost : ℚ := 0
  ExtraFields : List (String × String) := []
deriving Repr, DecidableEq

/-- The sibling filter of cdrLogAction: only debit and topup actions that
carry a Balance get a CDR. -/
def cdrQualifies (action : Action) : Bool :=
  isSliceMember [DEBIT, DEBIT_RESET, TOPUP, TOPUP_RESET] action.ActionType
    && action.Balance.isSome

/-- Embedding of the sibling loop of cdrLogAction: one synthetic CDR per
qualifying sibling, persisted when a CDR store is configured (absence of a
store is not an error); CDR construction details (timestamps, unique ids,
reflective template field resolution) are supplied by mkCdr. -/
def cdrLogLoop (mkCdr : Action → CDR)
    (store : Option (CDR → Except GoError Unit)) :
    List Action → Except GoError (List CDR)
  | [] => .ok []
  | act :: rest =>
    if cdrQualifies act then
      let cdr := mkCdr act
      match store with
      | none => (cdrLogLoop mkCdr store rest).map (cdr :: ·)
      | some st =>
        match st cdr with
        | .error e => .error e
        | .ok _ => (cdrLogLoop mkCdr store rest).map (cdr :: ·)
    else cdrLogLoop mkCdr store rest

/-- Embedding of cdrLogAction: an ExtraParameters template override is
parsed first (external JSON and RSR parsing supplied as tmplParse) and
aborts on failure; then the sibling loop runs and the synthesized batch is
JSON-encoded (encode) onto the action's ExpirationString. -/
def cdrLogAction (tmplParse : String → Except GoError (List (String × String)))
    (mkCdr : Action → CDR) (store : Option (CDR → Except GoError Unit))
    (encode : List CDR → String) (a : Action) (acs : List Action) :
    Except GoError (List CDR × Action) :=
  let tmplRes : Except GoError Unit :=
    if a.ExtraParameters ≠ "" then (tmplParse a.ExtraParameters).map (fun _ => ())
    else .ok ()
  match tmplRes with
  | .error e => .error e
  | .ok _ =>
    match cdrLogLoop mkCdr store acs with
    | .error e => .error e
    | .ok cdrs => .ok (cdrs, { a with ExpirationString := encode cdrs })

/-! ## removeBalanceAction (C7) -/

/-- Embedding of the swap-with-last removal loop of removeBalanceAction:
a matching balance at position i is overwritten by the last element, the
slice is shortened and the position is revisited; m is the external
Balance.MatchFilter predicate for the action's balance filter. Returns the
compacted bucket and the found flag. -/
def removeMatchLoop (m : Balance → Bool) (l : Balances) (i : Nat) :
    Balances × Bool :=
  if h : i < l.length then
    if m l[i] then
      let l2 := (l.set i (l.getD (l.length - 1) default)).dropLast
      ((removeMatchLoop m l2 i).1, true)
    else removeMatchLoop m l (i + 1)
  else (l, false)
termination_by l.length - i
decreasing_by
  · simp only [List.length_dropLast, List.length_set]
    omega
  · omega

/-- Embedding of removeBalanceAction: nil account is an explicit error, a
missing type bucket is not-found, otherwise the matching balances are
removed by the swap-with-last loop, the bucket is written back, and the
distinguished not-found error is reported when nothing matched. The
(possibly rewritten) account is returned alongside the error outcome
because the bucket write happens before the not-found return. -/
def removeBalanceAction (m : Balance → Bool) (ub : Option Account)
    (a : Action) : Option Account × Option GoError :=
  match ub with
  | none => (none, some (.errorString "nil account for action"))
  | some acc =>
    match mapLookup acc.BalanceMap (bfGetType a.Balance) with
    | none => (some acc, some .notFound)
    | some bChain =>
      let r := removeMatchLoop m bChain 0
      let acc2 :=
        { acc with BalanceMap := mapSet acc.BalanceMap (bfGetType a.Balance) r.1 }
      if r.2 then (some acc2, none) else (some acc2, some .notFound)

/-! ## transferMonetaryDefaultAction (C8) -/

/-- A string distinct from every string of the given list: the
concatenation of all of them followed by one extra character is strictly
longer than each of them. Models a freshly generated utils.GenUUID value,
whose only relevant property here is that it collides with no Uuid already
present in the bucket. -/
def freshUuid : List String → String
  | [] => "x"
  | s :: rest => s ++ freshUuid rest

/-- Modelled from the spec: GetDefaultMoneyBalance returns the account's
designated default monetary balance — the monetary balance whose ID is the
default marker — appending a fresh one to the bucket when none exists; the
appended balance is stamped with a fresh GenUUID Uuid, modelled as a Uuid
distinct from every Uuid already in the bucket. Returns the index of the
default balance and the (possibly extended) bucket. -/
def defaultIdxAndChain (chain : Balances) : Nat × Balances :=
  let i := chain.findIdx (fun b => b.ID == META_DEFAULT)
  if i < chain.length then (i, chain)
  else (chain.length,
    chain ++ [{ Uuid := freshUuid (chain.map Balance.Uuid),
                ID := META_DEFAULT }])

/-- Embedding of the transfer loop of transferMonetaryDefaultAction: every
balance other than the default one (compared by Uuid and ID identity) that
matches the filter and has a positive value is zeroed and its value added
to the default balance; dIdx is the position of the default balance in the
bucket and m the external MatchFilter predicate for the action's filter. -/
def tmdLoop (m : Balance → Bool) (dIdx : Nat) (chain : Balances) (i : Nat) :
    Balances :=
  if h : i < chain.length then
    let b := chain[i]
    let d := chain.getD dIdx default
    if b.Uuid != d.Uuid && b.ID != d.ID && m b then
      if b.Value > 0 then
        tmdLoop m dIdx
          ((chain.set dIdx { d with Value := d.Value + b.Value }).set i
            { b with Value := 0 })
          (i + 1)
      else tmdLoop m dIdx chain (i + 1)
    else tmdLoop m dIdx chain (i + 1)
  else chain
termination_by chain.length - i
decreasing_by
  all_goals first
    | omega
    | (simp only [List.length_set]; omega)

/-- The transfer condition of transferMonetaryDefaultAction at index j of
the bucket, read off the original bucket: not the default balance (by Uuid
and ID identity), matching the filter, and carrying a positive value. -/
def tmdQualB (m : Balance → Bool) (chain : Balances) (dIdx : Nat) (j : Nat) :
    Bool :=
  let b := chain.getD j default
  let d := chain.getD dIdx default
  (b.Uuid != d.Uuid) && (b.ID != d.ID) && m b && decide (b.Value > 0)

/-- The total amount the transfer loop moves onto the default balance from
the first i bucket positions. -/
def tmdSum (m : Balance → Bool) (chain : Balances) (dIdx : Nat) (i : Nat) : ℚ :=
  ∑ j in Finset.range i,
    (if tmdQualB m chain dIdx j then (chain.getD j default).Value else 0)

/-- Embedding of transferMonetaryDefaultAction: nil account errors with the
account-not-found sentinel, a missing monetary bucket is not-found,
otherwise the transfer loop runs against the bucket with the default
balance located (and created when absent) by the spec-modelled
GetDefaultMoneyBalance. -/
def transferMonetaryDefaultAction (m : Balance → Bool) (ub : Option Account)
    (a : Action) : Except GoError Account :=
  match ub with
  | none => .error .accountNotFound
  | some acc =>
    match mapLookup acc.BalanceMap MONETARY with
    | none => .error .notFound
    | some bChain =>
      let p := defaultIdxAndChain bChain
      let chain2 := tmdLoop m p.1 p.2 0
      .ok { acc with BalanceMap := mapSet acc.BalanceMap MONETARY chain2 }

/-! ## Actions collection: Clone (C9) -/

/-- Helper for the clone fix-up pass: write an explicit Disabled flag into
the cloned action's BalanceFilter (the gob model keeps a present Balance
present, so the absent case is unreachable on clones of actions with a
Balance and is left unchanged). -/
def setBalDisabled (a : Action) (v : Bool) : Action :=
  match a.Balance with
  | some bf => { a with Balance := some { bf with Disabled := some v } }
  | none => a

/-- Helper for the clone fix-up pass: write an explicit Blocker flag into
the cloned action's BalanceFilter. -/
def setBalBlocker (a : Action) (v : Bool) : Action :=
  match a.Balance with
  | some bf => { a with Balance := some { bf with Blocker := some v } }
  | none => a

/-- Embedding of the fix-up pass of Actions.Clone: when the original action
carries a Balance whose Disabled or Blocker flag is an explicit false (a
value the gob round trip loses), rewrite it as explicit false on the
clone. -/
def cloneFixup (orig cln : Action) : Action :=
  match orig.Balance with
  | none => cln
  | some ob =>
    let c1 := if ob.Disabled = some false then setBalDisabled cln false else cln
    if ob.Blocker = some false then setBalBlocker c1 false else c1

/-- Embedding of Actions.Clone: a gob deep copy of the whole list followed
by the per-index explicit-false restoration pass. -/
def Actions.CloneL (apl : List Action) : List Action :=
  List.zipWith cloneFixup apl (apl.map Action.Clone)

/-! ## mailAsync (C10) -/

def CSV_SEP : Char := ','

/-- Character-level model of Go strings.Split with the one-character CSV
separator: splitting the empty string yields one empty field, and every
separator occurrence opens a new field. -/
def splitChar (sep : Char) : List Char → List (List Char)
  | [] => [[]]
  | c :: rest =>
    let r := splitChar sep rest
    if c = sep then [] :: r
    else
      match r with
      | [] => [[c]]
      | h :: t => (c :: h) :: t

/-- Embedding of mailAsync up to launching the detached SMTP task: the
parameters are ExtraParameters split on the CSV separator, and the handler
errors only when that split yields no elements (the account snapshot
serialization of the reachable paths cannot fail, and the background send
never surfaces an error to the caller). -/
def mailAsync (ub : Option Account) (sq : Option CDRStatsQueueTriggered)
    (a : Action) : Except GoError Unit :=
  let params := splitChar CSV_SEP a.ExtraParameters.toList
  if params.length = 0 then
    .error (.errorString "Unconfigured parameters for mail action")
  else .ok ()

/-! ## Actions collection: Sort (C1)

Actions.Sort delegates to the Go standard library sort.Sort with the
Len/Swap/Less methods of engine/action.go. sort.Sort is embedded literally
below as the introsort of the standard library of the repository's era
(pre-1.19 Go): quicksort with median-of-three (or ninther) pivots and a
duplicate-protection pass, falling back to heapsort when the depth budget
2*ceil(lg(n+1)) is exhausted, and finishing ranges of at most 12 elements
with one shell-sort gap-6 pass followed by insertion sort. The slice is a
list, an index pair swap is lswap, and data.Less(p, q) is lt applied to the
elements at p and q. Loops whose counters move by data-dependent strides
carry an explicit fuel argument that is always at least the loop's
remaining iteration count (the exhausted-fuel branch returns the loop state
unchanged, which coincides with the loop exit on the guard). -/

/-- The element-level Less relation of Actions (engine/action.go): the
source's Less(j, i) returns apl[i].Weight < apl[j].Weight, so x may precede
y exactly when y's Weight is below x's. -/
def actionLess (x y : Action) : Bool := decide (y.Weight < x.Weight)

/-- data.Swap(i, j) on the modelled slice (identity out of bounds, which
the algorithm never exercises). -/
def lswap {α : Type} [Inhabited α] (l : List α) (i j : Nat) : List α :=
  if i < l.length ∧ j < l.length then
    (l.set i (l.getD j default)).set j (l.getD i default)
  else l

/-- The inner loop of the standard library insertionSort: bubble the
element at j down while it is Less than its left neighbour, stopping at
a (at j = 0 the guard a < j is false, so the loop exit and the base arm
coincide). -/
def insJLoop {α : Type} [Inhabited α] (lt : α → α → Bool) (a : Nat) :
    List α → Nat → List α
  | l, 0 => l
  | l, j + 1 =>
    if a < j + 1 ∧ lt (l.getD (j + 1) default) (l.getD j default) = true then
      insJLoop lt a (lswap l (j + 1) j) j
    else l

/-- The outer loop of the standard library insertionSort over [a, b). The
fuel is at least b - i and each iteration increments i, so the
exhausted-fuel branch coincides with the loop-guard exit i >= b. -/
def insILoop {α : Type} [Inhabited α] (lt : α → α → Bool) (a b : Nat) :
    Nat → List α → Nat → List α
  | 0, l, _ => l
  | fuel + 1, l, i =>
    if i < b then insILoop lt a b fuel (insJLoop lt a l i) (i + 1) else l

/-- The standard library insertionSort(data, a, b). -/
def insertionSortGo {α : Type} [Inhabited α] (lt : α → α → Bool)
    (l : List α) (a b : Nat) : List α :=
  insILoop lt a b (b - (a + 1)) l (a + 1)

/-- The shell-sort gap-6 pass the standard library runs over a small range
before insertion sort. The fuel is at least b - i and each iteration
increments i, so the exhausted-fuel branch coincides with the loop exit. -/
def shellLoop {α : Type} [Inhabited α] (lt : α → α → Bool) (b : Nat) :
    Nat → List α → Nat → List α
  | 0, l, _ => l
  | fuel + 1, l, i =>
    if i < b then
      shellLoop lt b fuel
        (if lt (l.getD i default) (l.getD (i - 6) default) then
          lswap l i (i - 6)
         else l) (i + 1)
    else l

/-- The gap-6 pass starting at a + 6 (for ranges of 2 to 12 elements). -/
def shellPassGo {α : Type} [Inhabited α] (lt : α → α → Bool) (l : List α)
    (a b : Nat) : List α :=
  shellLoop lt b (b - (a + 6)) l (a + 6)

/-- The standard library siftDown(data, lo, hi, first) written with the
moving root as the loop argument. The fuel is at least hi - root and the
root strictly increases each iteration, so at fuel 0 the loop guard
2 root + 1 < hi is already false and the exhausted-fuel branch coincides
with the loop exit. -/
def siftDownAux {α : Type} [Inhabited α] (lt : α → α → Bool)
    (hi first : Nat) : Nat → List α → Nat → List α
  | 0, l, _ => l
  | fuel + 1, l, root =>
    if 2 * root + 1 < hi then
      let child :=
        if 2 * root + 2 < hi ∧
            lt (l.getD (first + (2 * root + 1)) default)
              (l.getD (first + (2 * root + 2)) default) = true then
          2 * root + 2
        else 2 * root + 1
      if lt (l.getD (first + root) default) (l.getD (first + child) default) then
        siftDownAux lt hi first fuel (lswap l (first + root) (first + child)) child
      else l
    else l

/-- The heap-construction loop of the standard library heapSort: siftDown
at roots (hi-1)/2, ..., 1, 0; the argument counts the remaining roots. -/
def heapBuild {α : Type} [Inhabited α] (lt : α → α → Bool)
    (hi first : Nat) (l : List α) : Nat → List α
  | 0 => l
  | k + 1 => heapBuild lt hi first (siftDownAux lt hi first hi l k) k

/-- The pop loop of the standard library heapSort: swap the maximum to the
end of the shrinking heap and restore the heap, for i = hi-1, ..., 0. -/
def heapPop {α : Type} [Inhabited α] (lt : α → α → Bool) (first : Nat)
    (l : List α) : Nat → List α
  | 0 => l
  | i + 1 => heapPop lt first (siftDownAux lt i first i (lswap l first (first + i)) 0) i

/-- The standard library heapSort(data, a, b). -/
def heapSortGo {α : Type} [Inhabited α] (lt : α → α → Bool) (l : List α)
    (a b : Nat) : List α :=
  heapPop lt a (heapBuild lt (b - a) a l ((b - a - 1) / 2 + 1)) (b - a)

/-- The standard library medianOfThree(data, m1, m0, m2): sort the three
elements so that data[m0] <= data[m1] <= data[m2]. -/
def medianOfThree {α : Type} [Inhabited α] (lt : α → α → Bool) (l : List α)
    (m1 m0 m2 : Nat) : List α :=
  let l1 := if lt (l.getD m1 default) (l.getD m0 default) then lswap l m1 m0 else l
  if lt (l1.getD m2 default) (l1.getD m1 default) then
    let l2 := lswap l1 m2 m1
    if lt (l2.getD m1 default) (l2.getD m0 default) then lswap l2 m1 m0 else l2
  else l1

/-- doPivot's initial advance of a over elements Less than the pivot.
The fuel is at least c - a, so the exhausted-fuel arm coincides with the
loop-guard exit a >= c. -/
def dpAdvanceA {α : Type} [Inhabited α] (lt : α → α → Bool) (l : List α)
    (pivot c : Nat) : Nat → Nat → Nat
  | 0, a => a
  | fuel + 1, a =>
    if a < c ∧ lt (l.getD a default) (l.getD pivot default) = true then
      dpAdvanceA lt l pivot c fuel (a + 1)
    else a

/-- doPivot's advance of b over elements not greater than the pivot.
The fuel is at least c - b, so the exhausted-fuel arm coincides with the
loop-guard exit b >= c. -/
def dpBAdvance {α : Type} [Inhabited α] (lt : α → α → Bool) (l : List α)
    (pivot c : Nat) : Nat → Nat → Nat
  | 0, b => b
  | fuel + 1, b =>
    if b < c ∧ ¬ lt (l.getD pivot default) (l.getD b default) = true then
      dpBAdvance lt l pivot c fuel (b + 1)
    else b

/-- doPivot's retreat of c over elements greater than the pivot.
The fuel is at least c - b, so the exhausted-fuel arm coincides with the
loop-guard exit c <= b. -/
def dpCRetreat {α : Type} [Inhabited α] (lt : α → α → Bool) (l : List α)
    (pivot b : Nat) : Nat → Nat → Nat
  | 0, c => c
  | fuel + 1, c =>
    if b < c ∧ lt (l.getD pivot default) (l.getD (c - 1) default) = true then
      dpCRetreat lt l pivot b fuel (c - 1)
    else c

/-- doPivot's main partition loop: advance b, retreat c, and swap the
out-of-place pair until the indices meet. The fuel is at least c - b and
each iteration shrinks c - b by two, so the exhausted-fuel branch (where
b >= c) coincides with the loop exit. -/
def dpMainLoop {α : Type} [Inhabited α] (lt : α → α → Bool) (pivot : Nat) :
    Nat → List α → Nat → Nat → List α × Nat × Nat
  | 0, l, b, c => (l, b, c)
  | fuel + 1, l, b, c =>
    let b1 := dpBAdvance lt l pivot c (c - b) b
    let c1 := dpCRetreat lt l pivot b1 (c - b1) c
    if b1 ≥ c1 then (l, b1, c1)
    else dpMainLoop lt pivot fuel (lswap l b1 (c1 - 1)) (b1 + 1) (c1 - 1)

/-- The protect loop's retreat of b over elements equal to the pivot.
The fuel is at least b - a, so the exhausted-fuel arm coincides with the
loop-guard exit b <= a. -/
def dpProtectB {α : Type} [Inhabited α] (lt : α → α → Bool) (l : List α)
    (pivot a : Nat) : Nat → Nat → Nat
  | 0, b => b
  | fuel + 1, b =>
    if a < b ∧ ¬ lt (l.getD (b - 1) default) (l.getD pivot default) = true then
      dpProtectB lt l pivot a fuel (b - 1)
    else b

/-- The protect loop's advance of a over elements Less than the pivot.
The fuel is at least b - a, so the exhausted-fuel arm coincides with the
loop-guard exit a >= b. -/
def dpProtectA {α : Type} [Inhabited α] (lt : α → α → Bool) (l : List α)
    (pivot b : Nat) : Nat → Nat → Nat
  | 0, a => a
  | fuel + 1, a =>
    if a < b ∧ lt (l.getD a default) (l.getD pivot default) = true then
      dpProtectA lt l pivot b fuel (a + 1)
    else a

/-- doPivot's duplicate-protection loop, gathering pivot-equal elements
into the middle. The fuel is at least b - a and each iteration shrinks
b - a by two, so the exhausted-fuel branch coincides with the loop exit. -/
def dpProtectLoop {α : Type} [Inhabited α] (lt : α → α → Bool)
    (pivot : Nat) : Nat → List α → Nat → Nat → List α × Nat × Nat
  | 0, l, a, b => (l, a, b)
  | fuel + 1, l, a, b =>
    let b1 := dpProtectB lt l pivot a (b - a) b
    let a1 := dpProtectA lt l pivot b1 (b1 - a) a
    if a1 ≥ b1 then (l, a1, b1)
    else dpProtectLoop lt pivot fuel (lswap l a1 (b1 - 1)) (a1 + 1) (b1 - 1)

/-- doPivot's pivot-candidate preparation: for ranges above 40 the
ninther (three medians of three), otherwise the list unchanged. -/
def doPivotNinther {α : Type} [Inhabited α] (lt : α → α → Bool)
    (l : List α) (lo hi : Nat) : List α :=
  if hi - lo > 40 then
    let s := (hi - lo) / 8
    let m := (lo + hi) / 2
    medianOfThree lt
      (medianOfThree lt
        (medianOfThree lt l lo (lo + s) (lo + 2 * s))
        m (m - s) (m + s))
      (hi - 1) (hi - 1 - s) (hi - 1 - 2 * s)
  else l

/-- doPivot's duplicate heuristics block (pivot at lo): probe hi-1, b-1
and m for pivot equality and report the adjusted state together with the
protect flag. -/
def doPivotDups {α : Type} [Inhabited α] (lt : α → α → Bool)
    (m lo hi : Nat) (l2 : List α) (b c : Nat) :
    List α × Nat × Nat × Bool :=
  if ¬ (hi - c < 5) ∧ hi - c < (hi - lo) / 4 then
    let s1 :=
      if ¬ lt (l2.getD lo default) (l2.getD (hi - 1) default) = true then
        (lswap l2 c (hi - 1), c + 1, 1)
      else (l2, c, 0)
    let s2 :=
      if ¬ lt (s1.1.getD (b - 1) default) (s1.1.getD lo default) = true then
        (b - 1, s1.2.2 + 1)
      else (b, s1.2.2)
    let s3 :=
      if ¬ lt (s1.1.getD m default) (s1.1.getD lo default) = true then
        (lswap s1.1 m (s2.1 - 1), s2.1 - 1, s2.2 + 1)
      else (s1.1, s2.1, s2.2)
    (s3.1, s3.2.1, s1.2.1, decide (s3.2.2 > 1))
  else (l2, b, c, decide (hi - c < 5))

/-- doPivot's optional duplicate-protection phase (pivot at lo): run the
protect loop when the flag is set, keeping its final b. -/
def doPivotFin {α : Type} [Inhabited α] (lt : α → α → Bool)
    (lo a : Nat) (l3 : List α) (b3 : Nat) (protect : Bool) :
    List α × Nat :=
  if protect then
    let q := dpProtectLoop lt lo (b3 - a) l3 a b3
    (q.1, q.2.2)
  else (l3, b3)

/-- The standard library doPivot(data, lo, hi): choose a median pivot at
lo, partition [lo+1, hi) around it, optionally run the duplicate
heuristics and the protect loop, swap the pivot into the middle and report
(midlo, midhi). -/
def doPivotGo {α : Type} [Inhabited α] (lt : α → α → Bool) (l : List α)
    (lo hi : Nat) : List α × Nat × Nat :=
  let m := (lo + hi) / 2
  let l1 := medianOfThree lt (doPivotNinther lt l lo hi) lo m (hi - 1)
  let a := dpAdvanceA lt l1 lo (hi - 1) ((hi - 1) - (lo + 1)) (lo + 1)
  let r := dpMainLoop lt lo ((hi - 1) - a) l1 a (hi - 1)
  let dups := doPivotDups lt m lo hi r.1 r.2.1 r.2.2
  let fin := doPivotFin lt lo a dups.1 dups.2.1 dups.2.2.2
  (lswap fin.1 lo (fin.2 - 1), fin.2 - 1, dups.2.2.1)

/-- The standard library quickSort(data, a, b, maxDepth): introsort with
heapSort at depth exhaustion and the shell pass plus insertion sort below
13 elements. The iterative smaller-side loop of the original is expressed
as recursion on both halves at the decremented depth, which performs the
identical index computations. -/
def quickSortGo {α : Type} [Inhabited α] (lt : α → α → Bool) :
    Nat → List α → Nat → Nat → List α
  | 0, l, a, b =>
    if b - a > 12 then heapSortGo lt l a b
    else if b - a > 1 then insertionSortGo lt (shellPassGo lt l a b) a b
    else l
  | depth + 1, l, a, b =>
    if b - a > 12 then
      let r := doPivotGo lt l a b
      let mlo := r.2.1
      let mhi := r.2.2
      if mlo - a < b - mhi then
        quickSortGo lt depth (quickSortGo lt depth r.1 a mlo) mhi b
      else
        quickSortGo lt depth (quickSortGo lt depth r.1 mhi b) a mlo
    else if b - a > 1 then insertionSortGo lt (shellPassGo lt l a b) a b
    else l

/-- The maxDepth loop of sort.Sort: i halves each iteration, so i itself
is enough fuel and the exhausted-fuel arm coincides with the loop exit
i = 0. -/
def maxDepthAux : Nat → Nat → Nat
  | 0, _ => 0
  | fuel + 1, i => if i = 0 then 0 else 1 + maxDepthAux fuel (i / 2)

/-- The maxDepth computation of sort.Sort: the bit length of n. -/
def maxDepthLoop (i : Nat) : Nat :=
  maxDepthAux i i

/-- The standard library sort.Sort(data): quickSort over the whole slice
with depth budget twice the bit length of n. -/
def goSort {α : Type} [Inhabited α] (lt : α → α → Bool) (l : List α) :
    List α :=
  quickSortGo lt (2 * maxDepthLoop l.length) l 0 l.length

/-- Embedding of Actions.Sort (engine/action.go): sort.Sort(apl) with the
Less relation ordering higher weights earlier. -/
def Actions.SortL (apl : List Action) : List Action :=
  goSort actionLess apl

/-- The specification's sort contract, stated from the spec's words:
the output is in non-increasing Weight order and equal-weight actions
retain their relative input order, equivalently every per-weight fiber of
the output equals the input's. -/
def StableWeightSorted (inp out : List Action) : Prop :=
  out.Pairwise (fun x y => y.Weight ≤ x.Weight) ∧
  ∀ w ∈ inp.map Action.Weight,
    out.filter (fun x => decide (x.Weight = w)) =
      inp.filter (fun x => decide (x.Weight = w))

instance (inp out : List Action) : Decidable (StableWeightSorted inp out) := by
  unfold StableWeightSorted
  infer_instance

/-- The comparator induced by a rational key; actionLess reads the
negated Weight as its key. -/
def keyLt {α : Type} (K : α → ℚ) : α → α → Bool :=
  fun x y => decide (K x < K y)

/-- Keys are non-decreasing across the index range [a, b) of the list. -/
def SortedSeg {α : Type} [Inhabited α] (K : α → ℚ) (l : List α)
    (a b : Nat) : Prop :=
  ∀ i j, a ≤ i → i < j → j < b → K (l.getD i default) ≤ K (l.getD j default)

/-- The sublist at index range [a, b). -/
def segList {α : Type} (l : List α) (a b : Nat) : List α :=
  (l.drop a).take (b - a)

/-- The second list has the first's length and agrees with it outside the
index range [a, b). -/
def OutEq {α : Type} [Inhabited α] (l l' : List α) (a b : Nat) : Prop :=
  l'.length = l.length ∧
  ∀ k, k < a ∨ b ≤ k → l'.getD k default = l.getD k default

/-- i lies in the binary-heap subtree rooted at r (parent of i is
(i-1)/2): level k of the subtree is the index interval
[(r+1)*2^k - 1, (r+2)*2^k - 1). -/
def Desc (r i : Nat) : Prop :=
  ∃ k, (r + 1) * 2 ^ k ≤ i + 1 ∧ i + 1 < (r + 2) * 2 ^ k

/-- A seven-action list exhibiting the instability of Actions.Sort: the
gap-6 shell pass of the library sort swaps the first and last elements,
reordering the two equal-weight (5) actions B and G. -/
def cexActions : List Action :=
  [{ Id := "A", Weight := 1 }, { Id := "B", Weight := 5 },
   { Id := "C", Weight := 2 }, { Id := "D", Weight := 2 },
   { Id := "E", Weight := 2 }, { Id := "F", Weight := 2 },
   { Id := "G", Weight := 5 }]

/-! ## Theorems -/

/-- Splitting on a separator always yields at least one field. -/
theorem splitChar_ne_nil (sep : Char) (l : List Char) : splitChar sep l ≠ [] := by
  induction l with
  | nil => simp [splitChar]
  | cons c rest ih =>
    simp only [splitChar]
    split
    · simp
    · cases h : splitChar sep rest with
      | nil => simp
      | cons hd tl => simp

/-- C10: for every ExtraParameters string, splitting on the CSV separator
yields at least one element, so the unconfigured-parameters error branch of
mailAsync is unreachable: the handler never returns that error (it launches
the detached send and reports success). -/
theorem C10_mail_params_branch_unreachable (ub : Option Account)
    (sq : Option CDRStatsQueueTriggered) (a : Action) :
    (splitChar CSV_SEP a.ExtraParameters.toList).length ≠ 0 ∧
    mailAsync ub sq a = .ok () := by
  have h := splitChar_ne_nil CSV_SEP a.ExtraParameters.toList
  have hlen : (splitChar CSV_SEP a.ExtraParameters.toList).length ≠ 0 := by
    intro hc
    exact h (List.length_eq_zero.mp hc)
  refine ⟨hlen, ?_⟩
  simp only [mailAsync]
  rw [if_neg hlen]

/-- Writing a key and reading it back yields the written value. -/
theorem mapLookup_mapSet_self {α : Type} (m : List (String × α)) (k : String)
    (v : α) : mapLookup (mapSet m k v) k = some v := by
  induction m with
  | nil => simp [mapSet, mapLookup]
  | cons p rest ih =>
    obtain ⟨k', v'⟩ := p
    by_cases h : k' = k
    · simp [mapSet, mapLookup, h]
    · simp [mapSet, mapLookup, h, ih]

/-- The gob round trip does not change the observable balance type. -/
theorem bfGetType_gobClone (bf : BalanceFilter) :
    bfGetType (some (gobCloneBalanceFilter bf)) = bfGetType (some bf) := by
  simp only [bfGetType, gobCloneBalanceFilter]
  cases h : bf.BType with
  | none => simp
  | some s =>
    by_cases hs : s = "" <;> simp [hs]

/-- The sign normalization of genericMakeNegative is idempotent: a value
that is already non-positive is not negated again. -/
theorem genericMakeNegative_idem (x : Action) :
    genericMakeNegative (genericMakeNegative x) = genericMakeNegative x := by
  cases hb : x.Balance with
  | none => simp [genericMakeNegative, hb]
  | some bf =>
    by_cases hv : bfGetValue (some bf) > 0
    · have h1 : genericMakeNegative x =
        { x with Balance := some (bf.SetValue (-(bfGetValue (some bf)))) } := by
        simp [genericMakeNegative, hb, hv]
      rw [h1]
      have h2 : bfGetValue (some (bf.SetValue (-(bfGetValue (some bf))))) =
          -(bfGetValue (some bf)) := by
        simp [bfGetValue, BalanceFilter.SetValue]
      have h3 : ¬ (bfGetValue (some (bf.SetValue (-(bfGetValue (some bf))))) > 0) := by
        rw [h2]; linarith
      simp [genericMakeNegative, h3]
    · have h1 : genericMakeNegative x = x := by
        simp [genericMakeNegative, hb, hv]
      rw [h1, h1]

/-- C2: for every account and topup action whose Balance carries a positive
value v, the handler leaves the original action's Balance untouched (the
negation happens only on the clone), debits the account with the negated
clone — observable as the bucket head value increasing by v, the negative
debit acting as a credit — and copies the clone's resulting balanceValue
(-v) back onto the original action; the topup_reset handler behaves the
same way except that it debits with reset set, so the target bucket is
cleared first and its head value afterwards is exactly v; moreover the
sign normalization is idempotent, so a value that is already non-positive
is never negated again. -/
theorem C2_topup_clone_negation (acc : Account) (a : Action)
    (bf : BalanceFilter) (v : ℚ) (hbf : a.Balance = some bf)
    (hv : bf.Value = some v) (hpos : 0 < v) :
    ∃ acc2 a2, topupAction (some acc) a = .ok (acc2, a2) ∧
      a2.Balance = a.Balance ∧
      a2.balanceValue = -v ∧
      headVal acc2 (bfGetType a.Balance) = headVal acc (bfGetType a.Balance) + v ∧
      (∃ acc3 a3, topupResetAction (some acc) a = .ok (acc3, a3) ∧
        a3.Balance = a.Balance ∧
        a3.balanceValue = -v ∧
        headVal acc3 (bfGetType a.Balance) = v) ∧
      ∀ x : Action, genericMakeNegative (genericMakeNegative x) = genericMakeNegative x := by
  have hv0 : v ≠ 0 := by linarith
  have hgv : bfGetValue (some (gobCloneBalanceFilter bf)) = v := by
    simp [bfGetValue, gobCloneBalanceFilter, hv, hv0]
  have hclone : a.Clone = { a with Balance := some (gobCloneBalanceFilter bf), balanceValue := 0 } := by
    simp [Action.Clone, hbf]
  have hneg : genericMakeNegative a.Clone =
      { a with Balance := some ((gobCloneBalanceFilter bf).SetValue (-v)), balanceValue := 0 } := by
    rw [hclone]
    simp [genericMakeNegative, hgv, hpos]
  have htype : bfGetType (some ((gobCloneBalanceFilter bf).SetValue (-v))) = bfGetType a.Balance := by
    rw [hbf]
    rw [← bfGetType_gobClone bf]
    simp [bfGetType, BalanceFilter.SetValue]
  have hval : bfGetValue (some ((gobCloneBalanceFilter bf).SetValue (-v))) = -v := by
    simp [bfGetValue, BalanceFilter.SetValue]
  set t := bfGetType a.Balance with ht
  refine ⟨(genericDebit acc (genericMakeNegative a.Clone) false).1,
    { a with balanceValue :=
        (genericDebit acc (genericMakeNegative a.Clone) false).2.balanceValue },
    rfl, rfl, ?_, ?_,
    ⟨(genericDebit acc (genericMakeNegative a.Clone) true).1,
     { a with balanceValue :=
        (genericDebit acc (genericMakeNegative a.Clone) true).2.balanceValue },
     rfl, rfl, ?_, ?_⟩,
    fun x => genericMakeNegative_idem x⟩
  · show (genericDebit acc (genericMakeNegative a.Clone) false).2.balanceValue = -v
    rw [hneg]
    simp [genericDebit, Account.debitBalanceAction, hval]
  · show headVal (genericDebit acc (genericMakeNegative a.Clone) false).1 t
        = headVal acc t + v
    rw [hneg]
    simp only [genericDebit, Account.debitBalanceAction, htype, hval]
    cases hL : mapLookup acc.BalanceMap t with
    | none =>
      simp [headVal, mapLookup_mapSet_self, hL]
    | some chain =>
      cases chain with
      | nil =>
        simp [headVal, mapLookup_mapSet_self, hL]
      | cons b rest =>
        simp [headVal, mapLookup_mapSet_self, hL]
  · show (genericDebit acc (genericMakeNegative a.Clone) true).2.balanceValue = -v
    rw [hneg]
    simp [genericDebit, Account.debitBalanceAction, hval]
  · show headVal (genericDebit acc (genericMakeNegative a.Clone) true).1 t = v
    rw [hneg]
    simp only [genericDebit, Account.debitBalanceAction, htype, hval]
    simp [headVal, mapLookup_mapSet_self]

/-- Witness for C2 at a concrete account with a 10-unit monetary balance
and a topup of 5: the plain topup leaves a head value of 15 (10 + 5) while
the reset variant clears the bucket first and leaves exactly 5. -/
theorem C2_topup_clone_negation_witness :
    ∃ acc2 a2,
      topupAction
        (some { ID := "cgrates.org:1001",
                BalanceMap := [(MONETARY, [{ Value := 10 }])] })
        { ActionType := TOPUP,
          Balance := some { BType := some MONETARY, Value := some 5 } } =
        .ok (acc2, a2) ∧
      a2.Balance = some { BType := some MONETARY, Value := some (5:ℚ) } ∧
      a2.balanceValue = -5 ∧
      headVal acc2 (bfGetType (some { BType := some MONETARY, Value := some 5 })) =
        headVal { ID := "cgrates.org:1001",
                  BalanceMap := [(MONETARY, [{ Value := 10 }])] }
          (bfGetType (some { BType := some MONETARY, Value := some 5 })) + 5 ∧
      ∃ acc3 a3,
        topupResetAction
          (some { ID := "cgrates.org:1001",
                  BalanceMap := [(MONETARY, [{ Value := 10 }])] })
          { ActionType := TOPUP,
            Balance := some { BType := some MONETARY, Value := some 5 } } =
          .ok (acc3, a3) ∧
        a3.balanceValue = -5 ∧
        headVal acc3 (bfGetType (some { BType := some MONETARY, Value := some 5 })) =
          5 := by
  obtain ⟨acc2, a2, h1, h2, h3, h4, ⟨acc3, a3, h5, h6, h7, h8⟩, _⟩ :=
    C2_topup_clone_negation
      { ID := "cgrates.org:1001", BalanceMap := [(MONETARY, [{ Value := 10 }])] }
      { ActionType := TOPUP,
        Balance := some { BType := some MONETARY, Value := some 5 } }
      { BType := some MONETARY, Value := some 5 } 5 rfl rfl (by norm_num)
  exact ⟨acc2, a2, h1, h2, h3, h4, acc3, a3, h5, h7, h8⟩

/-- C3: the spec claims every handler whose action type inherently requires
an account (including set_ddestinations) returns an explicit error on a nil
account and never panics. The code's setddestinations reads ub.BalanceMap
with no nil check, so a nil account hits a nil-pointer dereference and
panics instead of returning an error; enableAccountAction and
disableAccountAction do return the explicit nil-account error as claimed. -/
theorem C3_setddestinations_nil_account_panics :
    setddestinations {} none (some {}) {} = .panicked ∧
    enableAccountAction none {} = .error (.errorString "nil account") ∧
    disableAccountAction none {} = .error (.errorString "nil account") :=
  ⟨rfl, rfl, rfl⟩

/-- Cloning one action and applying the fix-up pass preserves the exported
fields and, in particular, the optional Disabled and Blocker flags exactly
(explicit false stays explicit false). -/
theorem cloneFixup_flags (a : Action) :
    (cloneFixup a a.Clone).Id = a.Id ∧
    (cloneFixup a a.Clone).ActionType = a.ActionType ∧
    (cloneFixup a a.Clone).Weight = a.Weight ∧
    (cloneFixup a a.Clone).Balance.isSome = a.Balance.isSome ∧
    (cloneFixup a a.Clone).Balance.map BalanceFilter.Disabled =
      a.Balance.map BalanceFilter.Disabled ∧
    (cloneFixup a a.Clone).Balance.map BalanceFilter.Blocker =
      a.Balance.map BalanceFilter.Blocker := by
  cases hb : a.Balance with
  | none => simp [cloneFixup, Action.Clone, hb]
  | some bf =>
    by_cases hd : bf.Disabled = some false <;>
      by_cases hbl : bf.Blocker = some false <;>
        simp [cloneFixup, Action.Clone, gobCloneBalanceFilter, setBalDisabled,
          setBalBlocker, hb, hd, hbl]

/-- Actions.Clone element extraction: the clone list is the pointwise
fix-up of the pointwise gob clone. -/
theorem CloneL_getD (apl : List Action) (i : Nat) (h : i < apl.length) :
    (Actions.CloneL apl).getD i default =
      cloneFixup (apl.getD i default) ((apl.getD i default).Clone) := by
  induction apl generalizing i with
  | nil => simp at h
  | cons a rest ih =>
    cases i with
    | zero => simp [Actions.CloneL]
    | succ n =>
      have hn : n < rest.length := by simpa using h
      have : Actions.CloneL (a :: rest) =
          cloneFixup a a.Clone :: Actions.CloneL rest := by
        simp [Actions.CloneL]
      rw [this, List.getD_cons_succ, List.getD_cons_succ]
      exact ih n hn

/-- C9: Actions.Clone is a deep copy in the value model: the clone has the
same length and each cloned action is rebuilt purely from the original's
values (so no change to the clone can be observed through the original),
with the exported fields preserved and the optional Disabled and Blocker
balance flags preserved exactly — an explicit false in the original is an
explicit false (present, not absent) in the clone, restored by the fix-up
pass after the gob round trip loses it. -/
theorem C9_clone_deep_flags (apl : List Action) (i : Nat) (h : i < apl.length) :
    (Actions.CloneL apl).length = apl.length ∧
    ((Actions.CloneL apl).getD i default).Id = (apl.getD i default).Id ∧
    ((Actions.CloneL apl).getD i default).ActionType =
      (apl.getD i default).ActionType ∧
    ((Actions.CloneL apl).getD i default).Weight = (apl.getD i default).Weight ∧
    ((Actions.CloneL apl).getD i default).Balance.isSome =
      (apl.getD i default).Balance.isSome ∧
    ((Actions.CloneL apl).getD i default).Balance.map BalanceFilter.Disabled =
      (apl.getD i default).Balance.map BalanceFilter.Disabled ∧
    ((Actions.CloneL apl).getD i default).Balance.map BalanceFilter.Blocker =
      (apl.getD i default).Balance.map BalanceFilter.Blocker := by
  have hlen : (Actions.CloneL apl).length = apl.length := by
    simp [Actions.CloneL]
  have hg := CloneL_getD apl i h
  have hf := cloneFixup_flags (apl.getD i default)
  rw [hg]
  exact ⟨hlen, hf.1, hf.2.1, hf.2.2.1, hf.2.2.2.1, hf.2.2.2.2.1, hf.2.2.2.2.2⟩

/-- Witness for C9 at a one-action list whose Balance carries explicit
false flags: the clone still carries the explicit false Disabled flag. -/
theorem C9_clone_deep_flags_witness :
    ((Actions.CloneL
        [{ Id := "A1",
           Balance := some { Disabled := some false, Blocker := some false } }]).getD
        0 default).Balance.map BalanceFilter.Disabled = some (some false) := by
  have h := C9_clone_deep_flags
    [{ Id := "A1",
       Balance := some { Disabled := some false, Blocker := some false } }]
    0 (by simp)
  exact h.2.2.2.2.2.1.trans rfl

/-- Removing a key makes its lookup fail. -/
theorem mapLookup_mapRemove_self {α : Type} (m : List (String × α))
    (k : String) : mapLookup (mapRemove m k) k = none := by
  induction m with
  | nil => simp [mapRemove, mapLookup]
  | cons p rest ih =>
    obtain ⟨k', v'⟩ := p
    by_cases h : k' = k
    · simp [mapRemove, h, ih]
    · simp [mapRemove, mapLookup, h, ih]

/-- The per-plan cleanup loop only writes action plans; the membership
index is untouched. -/
theorem removeFromPlans_aap (accID : String) :
    ∀ (l : List String) (db db1 : DataDB),
      removeFromPlans db accID l = .ok db1 →
      db1.accountActionPlans = db.accountActionPlans := by
  intro l
  induction l with
  | nil =>
    intro db db1 h
    simp only [removeFromPlans] at h
    cases h
    rfl
  | cons apID rest ih =>
    intro db db1 h
    simp only [removeFromPlans] at h
    cases hg : db.GetActionPlan apID with
    | error e => simp [hg] at h
    | ok ap =>
      simp only [hg] at h
      simpa [DataDB.SetActionPlan] using ih _ _ h

/-- A successful plan-membership critical section leaves no membership
index entry for the account. -/
theorem removeAccountPlanStep_removes (db : DataDB) (accID : String)
    (db1 : DataDB) (h : removeAccountPlanStep db accID = .ok db1) :
    mapLookup db1.accountActionPlans accID = none := by
  simp only [removeAccountPlanStep] at h
  cases hg : db.GetAccountActionPlans accID with
  | error e =>
    simp only [hg] at h
    by_cases he : e = GoError.notFound
    · subst he
      simp only [ne_eq, not_true_eq_false, if_false, reduceIte] at h
      simp only [removeFromPlans, DataDB.RemAccountActionPlans] at h
      cases h
      exact mapLookup_mapRemove_self _ _
    · rw [if_pos (by simpa using he)] at h
      cases h
  | ok apIDs =>
    simp only [hg] at h
    cases hr : removeFromPlans db accID apIDs with
    | error e => simp [hr] at h
    | ok dbA =>
      simp only [hr, DataDB.RemAccountActionPlans] at h
      cases h
      exact mapLookup_mapRemove_self _ _

/-- When the membership index has no entry for the account, the
critical section succeeds (the not-found lookup is tolerated). -/
theorem removeAccountPlanStep_of_none (db : DataDB) (accID : String)
    (h : mapLookup db.accountActionPlans accID = none) :
    removeAccountPlanStep db accID =
      .ok { db with
            accountActionPlans := mapRemove db.accountActionPlans accID } := by
  simp only [removeAccountPlanStep, DataDB.GetAccountActionPlans, h,
    removeFromPlans, DataDB.RemAccountActionPlans]
  simp

/-- C4: remove_account is idempotent at the plan-membership step: a
not-found result from the membership-index lookup is treated as success,
so after a first successful removal (which deletes the index entry) both
the critical section alone and a full second remove_account run on the
same account id succeed instead of erroring at the membership-index
step. -/
theorem C4_remove_account_idempotent (db db1 : DataDB)
    (parseTA : String → Except GoError (String × String)) (acc : Account)
    (a : Action) (h1 : removeAccountAction db parseTA (some acc) a = .ok db1) :
    (∃ db2, removeAccountPlanStep db1 acc.ID = .ok db2) ∧
    (∃ db2, removeAccountAction db1 parseTA (some acc) a = .ok db2) := by
  simp only [removeAccountAction, DataDB.RemoveAccount] at h1
  by_cases hid : acc.ID = ""
  · rw [if_pos hid] at h1
    cases h1
  · rw [if_neg hid] at h1
    have hnone : mapLookup db1.accountActionPlans acc.ID = none :=
      removeAccountPlanStep_removes _ _ _ h1
    constructor
    · exact ⟨_, removeAccountPlanStep_of_none db1 acc.ID hnone⟩
    · exact ⟨_, by
        simp only [removeAccountAction, DataDB.RemoveAccount]
        rw [if_neg hid]
        exact removeAccountPlanStep_of_none
          { db1 with accounts := mapRemove db1.accounts acc.ID } acc.ID hnone⟩

/-- Witness for C4 at a concrete store holding the account, a shared plan
and a membership-index entry for it. -/
theorem C4_remove_account_idempotent_witness :
    (∃ db2,
      removeAccountPlanStep
        { accountActionPlans := [],
          actionPlans := [("PLAN1", { AccountIDs := [] })] }
        "cgrates.org:1001" = .ok db2) ∧
    (∃ db2,
      removeAccountAction
        { accountActionPlans := [],
          actionPlans := [("PLAN1", { AccountIDs := [] })] }
        (fun _ => .error .parserError)
        (some { ID := "cgrates.org:1001" }) {} = .ok db2) := by
  refine C4_remove_account_idempotent
    { accounts := [("cgrates.org:1001", { ID := "cgrates.org:1001" })],
      accountActionPlans := [("cgrates.org:1001", ["PLAN1"])],
      actionPlans := [("PLAN1", { AccountIDs := ["cgrates.org:1001"] })] }
    { accountActionPlans := [],
      actionPlans := [("PLAN1", { AccountIDs := [] })] }
    (fun _ => .error .parserError) { ID := "cgrates.org:1001" } {} rfl

/-- Under an absent or never-failing CDR store, the sibling loop of
cdrLogAction synthesizes exactly the qualifying siblings, in order, one CDR
each. -/
theorem cdrLogLoop_filter (mkCdr : Action → CDR)
    (store : Option (CDR → Except GoError Unit))
    (hstore : store = none ∨ ∃ st, store = some st ∧ ∀ c, st c = .ok ()) :
    ∀ acs : List Action,
      cdrLogLoop mkCdr store acs = .ok ((acs.filter cdrQualifies).map mkCdr) := by
  intro acs
  induction acs with
  | nil => simp [cdrLogLoop]
  | cons act rest ih =>
    by_cases hq : cdrQualifies act
    · rcases hstore with h | ⟨st, hst, hok⟩
      · subst h
        simp [cdrLogLoop, hq, ih, List.filter_cons, Except.map]
      · subst hst
        simp [cdrLogLoop, hq, hok, ih, List.filter_cons, Except.map]
    · simp [cdrLogLoop, hq, ih, List.filter_cons]

/-- C6: for every sibling action list, cdrLogAction synthesizes exactly one
CDR per sibling whose ActionType is a debit or topup variant carrying a
non-nil Balance and zero CDRs for every other sibling (log actions, actions
without a Balance): with a successfully parsed or absent template override
and an absent or never-failing CDR store, the synthesized batch is
precisely the qualifying siblings mapped to their CDRs, so its length is
the number of qualifying siblings. -/
theorem C6_cdrlog_one_per_qualifying
    (tmplParse : String → Except GoError (List (String × String)))
    (mkCdr : Action → CDR) (store : Option (CDR → Except GoError Unit))
    (encode : List CDR → String) (a : Action) (acs : List Action)
    (htpl : a.ExtraParameters = "" ∨ ∃ t, tmplParse a.ExtraParameters = .ok t)
    (hstore : store = none ∨ ∃ st, store = some st ∧ ∀ c, st c = .ok ()) :
    ∃ a2, cdrLogAction tmplParse mkCdr store encode a acs =
      .ok ((acs.filter cdrQualifies).map mkCdr, a2) ∧
      ((acs.filter cdrQualifies).map mkCdr).length =
        (acs.filter cdrQualifies).length := by
  have hloop := cdrLogLoop_filter mkCdr store hstore acs
  refine ⟨{ a with
              ExpirationString := encode ((acs.filter cdrQualifies).map mkCdr) },
    ?_, by simp⟩
  simp only [cdrLogAction]
  rcases htpl with h | ⟨t, ht⟩
  · simp [h, hloop]
  · by_cases he : a.ExtraParameters = ""
    · simp [he, hloop]
    · simp [he, ht, hloop, Except.map]

/-- Witness for C6 at a sibling list with one debit action carrying a
Balance and one log action: exactly one CDR is synthesized. -/
theorem C6_cdrlog_one_per_qualifying_witness :
    ∃ a2, cdrLogAction (fun _ => .error .parserError)
        (fun act => { RunID := act.ActionType }) none (fun _ => "") {}
        [{ ActionType := DEBIT, Balance := some { Value := some 5 } },
         { ActionType := LOG }] =
      .ok (([{ ActionType := DEBIT, Balance := some { Value := some 5 } },
              { ActionType := LOG }].filter cdrQualifies).map
              (fun act => ({ RunID := act.ActionType } : CDR)), a2) ∧
      (([{ ActionType := DEBIT, Balance := some { Value := some 5 } },
          { ActionType := LOG }].filter cdrQualifies).map
          (fun act => ({ RunID := act.ActionType } : CDR))).length =
        ([{ ActionType := DEBIT, Balance := some { Value := some 5 } },
          ({ ActionType := LOG } : Action)].filter cdrQualifies).length :=
  C6_cdrlog_one_per_qualifying (fun _ => .error .parserError)
    (fun act => { RunID := act.ActionType }) none (fun _ => "") {}
    [{ ActionType := DEBIT, Balance := some { Value := some 5 } },
     { ActionType := LOG }]
    (Or.inl rfl) (Or.inl rfl)

/-- The swap-with-last loop is the identity when it starts beyond the end
of the bucket. -/
theorem removeMatchLoop_of_ge (m : Balance → Bool) (l : Balances) (i : Nat)
    (h : l.length ≤ i) : removeMatchLoop m l i = (l, false) := by
  rw [removeMatchLoop]
  rw [dif_neg (by omega)]

/-- The swap-with-last loop leaves a bucket without matches untouched. -/
theorem removeMatchLoop_no_match (m : Balance → Bool) :
    ∀ (n : Nat) (l : Balances) (i : Nat), l.length - i ≤ n →
      (∀ b ∈ l, m b = false) → removeMatchLoop m l i = (l, false) := by
  intro n
  induction n with
  | zero =>
    intro l i hn hno
    exact removeMatchLoop_of_ge m l i (by omega)
  | succ n ih =>
    intro l i hn hno
    by_cases hlt : i < l.length
    · rw [removeMatchLoop, dif_pos hlt]
      have hmi : m l[i] = false := hno _ (List.getElem_mem hlt)
      rw [if_neg (by simp [hmi])]
      exact ih l (i + 1) (by omega) hno
    · exact removeMatchLoop_of_ge m l i (by omega)

/-- Specification of the swap-with-last loop: the prefix before the loop
index is untouched, the processed suffix becomes a permutation of its
non-matching elements, and the found flag reports whether any suffix
element matched. -/
theorem removeMatchLoop_spec (m : Balance → Bool) :
    ∀ (n : Nat) (l : Balances) (i : Nat), l.length - i ≤ n →
      (removeMatchLoop m l i).1.take i = l.take i ∧
      ((removeMatchLoop m l i).1.drop i).Perm
        ((l.drop i).filter (fun b => !(m b))) ∧
      (removeMatchLoop m l i).2 = (l.drop i).any m := by
  intro n
  induction n with
  | zero =>
    intro l i hn
    have hle : l.length ≤ i := by omega
    rw [removeMatchLoop_of_ge m l i hle]
    refine ⟨rfl, ?_, ?_⟩
    · simp [List.drop_of_length_le hle]
    · simp [List.drop_of_length_le hle]
  | succ n ih =>
    intro l i hn
    by_cases hlt : i < l.length
    · rw [removeMatchLoop, dif_pos hlt]
      by_cases hm : m l[i]
      · rw [if_pos hm]
        -- the matching element is overwritten by the last element and the
        -- bucket is shortened; the same index is revisited
        set lst := l.getD (l.length - 1) default with hlst
        have hlb : l.length - 1 < l.length := by omega
        have hlst' : lst = l[l.length - 1] := by
          rw [hlst]
          exact List.getD_eq_getElem l default hlb
        set l2 := (l.set i lst).dropLast with hl2
        have hset : l.set i lst = l.take i ++ lst :: l.drop (i + 1) := by
          rw [List.set_eq_take_append_cons_drop, if_pos hlt]
        have hlen2 : l2.length = l.length - 1 := by
          rw [hl2, List.length_dropLast, List.length_set]
        have htk : (l.take i).length = i := by
          rw [List.length_take]
          omega
        obtain ⟨ih1, ih2, ih3⟩ := ih l2 i (by omega)
        by_cases hD : l.drop (i + 1) = []
        · -- the matched element was the last one
          have hi : i = l.length - 1 := by
            have := List.length_drop (i + 1) l
            rw [hD] at this
            simp at this
            omega
          have hl2eq : l2 = l.take i := by
            rw [hl2, hset, hD]
            exact List.dropLast_concat
          refine ⟨?_, ?_, ?_⟩
          · rw [ih1, hl2eq, List.take_take]
            simp
          · have hfl : (l.drop i).filter (fun b => !(m b)) = [] := by
              rw [List.drop_eq_getElem_cons hlt, hD, List.filter_cons]
              simp [hm]
            rw [hfl]
            have h2 : (l2.drop i) = [] := by
              rw [hl2eq]
              exact List.drop_of_length_le (by omega)
            rw [h2] at ih2
            simpa using ih2
          · rw [List.drop_eq_getElem_cons hlt, List.any_cons, hm]
            simp
        · -- a strictly shorter bucket with the last element moved to
          -- position i
          have hl2eq : l2 = l.take i ++ lst :: (l.drop (i + 1)).dropLast := by
            rw [hl2, hset, List.dropLast_append_of_ne_nil _ (by simp),
              List.dropLast_cons_of_ne_nil hD]
          have htake2 : l2.take i = l.take i := by
            rw [hl2eq]
            exact List.take_left' htk
          have hdrop2 : l2.drop i = lst :: (l.drop (i + 1)).dropLast := by
            rw [hl2eq]
            exact List.drop_left' htk
          have hperm : (l2.drop i).Perm (l.drop (i + 1)) := by
            rw [hdrop2]
            have h1 : ((l.drop (i + 1)).dropLast ++ [lst]).Perm
                (lst :: (l.drop (i + 1)).dropLast) :=
              List.perm_append_singleton _ _
            have h2 : (l.drop (i + 1)).dropLast ++ [lst] = l.drop (i + 1) := by
              have h3 : (l.drop (i + 1)).getLast hD = lst := by
                rw [List.getLast_drop hD, List.getLast_eq_getElem, hlst']
              rw [← h3]
              exact List.dropLast_append_getLast hD
            have h4 : (lst :: (l.drop (i + 1)).dropLast).Perm
                ((l.drop (i + 1)).dropLast ++ [lst]) := h1.symm
            rw [h2] at h4
            exact h4
          refine ⟨?_, ?_, ?_⟩
          · rw [ih1, htake2]
          · refine ih2.trans ?_
            refine (hperm.filter _).trans ?_
            rw [List.drop_eq_getElem_cons hlt, List.filter_cons]
            simp [hm]
          · rw [List.drop_eq_getElem_cons hlt, List.any_cons, hm]
            simp
      · rw [if_neg hm]
        obtain ⟨ih1, ih2, ih3⟩ := ih l (i + 1) (by omega)
        set res := removeMatchLoop m l (i + 1) with hres
        have hlenr : i + 1 ≤ res.1.length := by
          have := congrArg List.length ih1
          rw [List.length_take, List.length_take] at this
          have h2 : (i + 1) ⊓ l.length = i + 1 := by omega
          omega
        have hr : res.1 = l.take (i + 1) ++ res.1.drop (i + 1) := by
          conv_lhs => rw [← List.take_append_drop (i + 1) res.1]
          rw [ih1]
        have htk1 : l.take (i + 1) = l.take i ++ [l[i]] := by
          rw [← List.take_concat_get l i hlt]
          simp
        refine ⟨?_, ?_, ?_⟩
        · conv_lhs => rw [hr]
          rw [htk1, List.append_assoc]
          refine (List.take_left' ?_).trans rfl
          rw [List.length_take]
          omega
        · have hdr : res.1.drop i = l[i] :: res.1.drop (i + 1) := by
            conv_lhs => rw [hr, htk1, List.append_assoc]
            rw [List.drop_left' (by rw [List.length_take]; omega)]
            rfl
          rw [hdr, List.drop_eq_getElem_cons hlt, List.filter_cons]
          simp only [hm]
          simp only [Bool.not_false, if_pos]
          exact ih2.cons _
        · have hm2 : m l[i] = false := by simpa using hm
          rw [ih3, List.drop_eq_getElem_cons hlt, List.any_cons, hm2]
          simp
    · have hle : l.length ≤ i := by omega
      rw [removeMatchLoop_of_ge m l i hle]
      refine ⟨rfl, ?_, ?_⟩
      · simp [List.drop_of_length_le hle]
      · simp [List.drop_of_length_le hle]

/-- C7: removeBalanceAction reports the distinguished not-found error when
the type bucket named by the action's Balance does not exist or when no
balance matches the filter — leaving the bucket unchanged (same list) in
the no-match case — and when matches exist it succeeds, removing every
matching balance by swap-with-last compaction: the rewritten bucket is a
permutation of the non-matching balances (order not preserved) and
contains no matching balance. -/
theorem C7_remove_balance (m : Balance → Bool) (acc : Account) (a : Action) :
    (mapLookup acc.BalanceMap (bfGetType a.Balance) = none →
      removeBalanceAction m (some acc) a = (some acc, some .notFound)) ∧
    (∀ bChain, mapLookup acc.BalanceMap (bfGetType a.Balance) = some bChain →
      ((∀ b ∈ bChain, m b = false) →
        removeBalanceAction m (some acc) a =
          (some { acc with
                    BalanceMap :=
                      mapSet acc.BalanceMap (bfGetType a.Balance) bChain },
           some .notFound)) ∧
      (bChain.any m = true →
        ∃ chain2,
          removeBalanceAction m (some acc) a =
            (some { acc with
                      BalanceMap :=
                        mapSet acc.BalanceMap (bfGetType a.Balance) chain2 },
             none) ∧
          chain2.Perm (bChain.filter (fun b => !(m b))) ∧
          ∀ b ∈ chain2, m b = false)) := by
  constructor
  · intro hnone
    simp [removeBalanceAction, hnone]
  · intro bChain hsome
    constructor
    · intro hno
      have hloop := removeMatchLoop_no_match m bChain.length bChain 0
        (by omega) hno
      simp [removeBalanceAction, hsome, hloop]
    · intro hany
      obtain ⟨h1, h2, h3⟩ := removeMatchLoop_spec m bChain.length bChain 0
        (by omega)
      rw [List.drop_zero] at h2 h3
      refine ⟨(removeMatchLoop m bChain 0).1, ?_, h2, ?_⟩
      · have hflag : (removeMatchLoop m bChain 0).2 = true := by
          rw [h3, hany]
        simp [removeBalanceAction, hsome, hflag]
      · intro b hb
        have := h2.mem_iff.mp hb
        have := List.mem_filter.mp this
        simpa using this.2

/-- Witness for C7 at a concrete account whose monetary bucket holds one
balance that the filter does not match: not-found is reported and the
bucket is written back unchanged. -/
theorem C7_remove_balance_witness :
    removeBalanceAction (fun b => decide (b.ID = "ZZZ"))
      (some { BalanceMap := [(MONETARY, [{ ID := "B1", Value := 7 }])] })
      { Balance := some { BType := some MONETARY } } =
      (some { BalanceMap := [(MONETARY, [{ ID := "B1", Value := 7 }])] },
       some .notFound) := by
  have h := (C7_remove_balance (fun b => decide (b.ID = "ZZZ"))
    { BalanceMap := [(MONETARY, [{ ID := "B1", Value := 7 }])] }
    { Balance := some { BType := some MONETARY } }).2
    [{ ID := "B1", Value := 7 }] rfl
  have h2 := h.1 (by decide)
  exact h2.trans (by rfl)

/-- C5: the spec claims a failing decode of req.Params into the method's
input shape yields a parser error instead of invoking the remote method.
The source discards mapstructure.Decode's return value (it is never
assigned to err, and the err tested immediately after is the stale nil of
the preceding successful steps), so with a decoder that fails and a
registry entry whose input shape is present, the method is invoked
anyway. -/
theorem C5_decode_error_discarded :
    cgrRPCAction (fun _ => .ok { InParam := some () })
      (fun _ => .ok ()) (fun _ => .error (.errorString "decode failed"))
      { Method := "SessionSv1.Ping" } =
      .invoked "SessionSv1.Ping" false := rfl

/-- Reading the position just written by set. -/
theorem getD_set_self {α : Type} [Inhabited α] (l : List α) (i : Nat) (v : α)
    (h : i < l.length) : (l.set i v).getD i default = v := by
  rw [List.getD_eq_getElem _ _ (by simpa using h)]
  exact List.getElem_set_self (by simpa using h)

/-- Reading any other position after set. -/
theorem getD_set_ne {α : Type} [Inhabited α] (l : List α) (i j : Nat) (v : α)
    (h : i ≠ j) : (l.set i v).getD j default = l.getD j default := by
  by_cases hj : j < l.length
  · rw [List.getD_eq_getElem _ _ (by simpa using hj),
      List.getD_eq_getElem _ _ hj]
    exact List.getElem_set_ne h _
  · rw [List.getD_eq_default _ _ (by simp only [List.length_set]; omega),
      List.getD_eq_default _ _ (by omega)]

/-- The default balance position never satisfies the transfer condition
(its Uuid trivially equals its own), so the loop never transfers the
default balance into itself. -/
theorem tmdQualB_dIdx (m : Balance → Bool) (chain : Balances) (dIdx : Nat) :
    tmdQualB m chain dIdx dIdx = false := by
  simp [tmdQualB]

/-- One unfolding of the transfer loop below the bucket length, phrased
with total indexing. -/
theorem tmdLoop_step (m : Balance → Bool) (dIdx : Nat) (C : Balances)
    (i : Nat) (h : i < C.length) :
    tmdLoop m dIdx C i =
      (let b := C.getD i default
       let d := C.getD dIdx default
       if b.Uuid != d.Uuid && b.ID != d.ID && m b then
         if b.Value > 0 then
           tmdLoop m dIdx
             ((C.set dIdx { d with Value := d.Value + b.Value }).set i
               { b with Value := 0 }) (i + 1)
         else tmdLoop m dIdx C (i + 1)
       else tmdLoop m dIdx C (i + 1)) := by
  rw [tmdLoop, dif_pos h]
  simp only [List.getD_eq_getElem C default h]

/-- The loop is the identity at or beyond the bucket length. -/
theorem tmdLoop_of_ge (m : Balance → Bool) (dIdx : Nat) (C : Balances)
    (i : Nat) (h : C.length ≤ i) : tmdLoop m dIdx C i = C := by
  rw [tmdLoop, dif_neg (by omega)]

/-- Invariant proof for the transfer loop of transferMonetaryDefaultAction:
from a state that agrees with the original bucket on unprocessed non-default
positions, has processed positions zeroed exactly when they qualify, and
has the default balance carrying the partial transferred sum, the loop ends
with every qualifying position zeroed, every other non-default position
unchanged, and the default balance carrying the full sum. -/
theorem tmdLoop_invariant (m : Balance → Bool) (chain : Balances)
    (dIdx : Nat) (hd : dIdx < chain.length) :
    ∀ (k i : Nat) (C : Balances), chain.length - i ≤ k → i ≤ chain.length →
      C.length = chain.length →
      (∀ j, i ≤ j → j ≠ dIdx → C.getD j default = chain.getD j default) →
      (∀ j, j < i → j ≠ dIdx → C.getD j default =
        (if tmdQualB m chain dIdx j then
          { chain.getD j default with Value := 0 }
         else chain.getD j default)) →
      C.getD dIdx default =
        { chain.getD dIdx default with
            Value := (chain.getD dIdx default).Value + tmdSum m chain dIdx i } →
      (tmdLoop m dIdx C i).length = chain.length ∧
      (∀ j, j < chain.length → j ≠ dIdx →
        (tmdLoop m dIdx C i).getD j default =
          (if tmdQualB m chain dIdx j then
            { chain.getD j default with Value := 0 }
           else chain.getD j default)) ∧
      (tmdLoop m dIdx C i).getD dIdx default =
        { chain.getD dIdx default with
            Value := (chain.getD dIdx default).Value +
              tmdSum m chain dIdx chain.length } := by
  intro k
  induction k with
  | zero =>
    intro i C hk hi hlen hup hproc hacc
    have hieq : i = chain.length := by omega
    rw [hieq] at hproc hacc
    rw [tmdLoop_of_ge m dIdx C i (by omega)]
    exact ⟨hlen, hproc, hacc⟩
  | succ k ih =>
    intro i C hk hi hlen hup hproc hacc
    by_cases hlt : i < chain.length
    case neg =>
      have hieq : i = chain.length := by omega
      rw [hieq] at hproc hacc
      rw [tmdLoop_of_ge m dIdx C i (by omega)]
      exact ⟨hlen, hproc, hacc⟩
    case pos =>
      rw [tmdLoop_step m dIdx C i (by omega)]
      simp only []
      by_cases hidx : i = dIdx
      · -- the default balance itself is skipped: its Uuid equals its own
        rw [if_neg (by rw [hidx]; simp)]
        refine ih (i + 1) C (by omega) (by omega) hlen ?_ ?_ ?_
        · intro j hj hjd
          exact hup j (by omega) hjd
        · intro j hj hjd
          rcases Nat.lt_or_ge j i with hji | hji
          · exact hproc j hji hjd
          · omega
        · rw [hacc]
          have hs : tmdSum m chain dIdx (i + 1) = tmdSum m chain dIdx i := by
            rw [hidx]
            simp [tmdSum, Finset.sum_range_succ, tmdQualB_dIdx]
          rw [hs]
      · -- a non-default position: the loop condition coincides with the
        -- qualification read off the original bucket
        have hbo : C.getD i default = chain.getD i default :=
          hup i le_rfl hidx
        rw [hbo, hacc]
        have hqe : tmdQualB m chain dIdx i =
            (((chain.getD i default).Uuid != (chain.getD dIdx default).Uuid &&
              (chain.getD i default).ID != (chain.getD dIdx default).ID &&
              m (chain.getD i default)) &&
              decide ((chain.getD i default).Value > 0)) := rfl
        by_cases hc : ((chain.getD i default).Uuid !=
            (chain.getD dIdx default).Uuid &&
            (chain.getD i default).ID != (chain.getD dIdx default).ID &&
            m (chain.getD i default)) = true
        · by_cases hv : (chain.getD i default).Value > 0
          · -- transfer: zero position i, accumulate onto the default
            have hq : tmdQualB m chain dIdx i = true := by
              rw [hqe, hc]
              simp only [Bool.true_and, decide_eq_true_eq]
              exact hv
            rw [if_pos hc, if_pos hv]
            refine ih (i + 1) _ (by omega) (by omega) ?_ ?_ ?_ ?_
            · simp only [List.length_set]
              exact hlen
            · intro j hj hjd
              rw [getD_set_ne _ _ _ _ (by omega),
                getD_set_ne _ _ _ _ (by omega)]
              exact hup j (by omega) hjd
            · intro j hj hjd
              rcases Nat.lt_or_ge j i with hji | hji
              · rw [getD_set_ne _ _ _ _ (by omega),
                  getD_set_ne _ _ _ _ (by omega)]
                exact hproc j hji hjd
              · have hji2 : j = i := by omega
                subst hji2
                rw [getD_set_self _ _ _ (by
                  simp only [List.length_set]; omega)]
                rw [if_pos hq]
            · rw [getD_set_ne _ _ _ _ (by omega),
                getD_set_self _ _ _ (by omega)]
              have hs : tmdSum m chain dIdx (i + 1) =
                  tmdSum m chain dIdx i + (chain.getD i default).Value := by
                simp [tmdSum, Finset.sum_range_succ, hq]
              rw [hs]
              simp only []
              congr 1
              ring
          · -- matching but non-positive value: left unchanged
            have hq : tmdQualB m chain dIdx i = false := by
              rw [hqe, hc]
              simp only [Bool.true_and]
              exact decide_eq_false hv
            have hs : tmdSum m chain dIdx (i + 1) = tmdSum m chain dIdx i := by
              simp [tmdSum, Finset.sum_range_succ, hq]
            rw [if_pos hc, if_neg hv]
            refine ih (i + 1) C (by omega) (by omega) hlen ?_ ?_
              (by rw [hs]; exact hacc)
            · intro j hj hjd
              exact hup j (by omega) hjd
            · intro j hj hjd
              rcases Nat.lt_or_ge j i with hji | hji
              · exact hproc j hji hjd
              · have hji2 : j = i := by omega
                subst hji2
                rw [if_neg (by rw [hq]; exact Bool.false_ne_true)]
                exact hup j le_rfl hjd
        · -- identity or filter mismatch: skipped entirely
          have hq : tmdQualB m chain dIdx i = false := by
            rw [hqe, Bool.eq_false_iff.mpr hc]
            simp
          have hs : tmdSum m chain dIdx (i + 1) = tmdSum m chain dIdx i := by
            simp [tmdSum, Finset.sum_range_succ, hq]
          rw [if_neg hc]
          refine ih (i + 1) C (by omega) (by omega) hlen ?_ ?_
            (by rw [hs]; exact hacc)
          · intro j hj hjd
            exact hup j (by omega) hjd
          · intro j hj hjd
            rcases Nat.lt_or_ge j i with hji | hji
            · exact hproc j hji hjd
            · have hji2 : j = i := by omega
              subst hji2
              rw [if_neg (by rw [hq]; exact Bool.false_ne_true)]
              exact hup j le_rfl hjd

/-- The fresh-Uuid generator never returns the empty string. -/
theorem freshUuid_pos (l : List String) : 0 < (freshUuid l).length := by
  induction l with
  | nil => decide
  | cons s rest ih =>
    simp only [freshUuid, String.length_append]
    omega

/-- Every string of the input list is strictly shorter than the fresh
string built from it. -/
theorem freshUuid_length (l : List String) :
    ∀ t ∈ l, t.length < (freshUuid l).length := by
  induction l with
  | nil => intro t ht; simp at ht
  | cons s rest ih =>
    intro t ht
    rcases List.mem_cons.mp ht with h | h
    · subst h
      have hp := freshUuid_pos rest
      simp only [freshUuid, String.length_append]
      omega
    · have h1 := ih t h
      simp only [freshUuid, String.length_append]
      omega

/-- The fresh-Uuid generator collides with none of the strings it was built
from, the property utils.GenUUID is relied upon for. -/
theorem freshUuid_not_mem (l : List String) (t : String) (ht : t ∈ l) :
    t ≠ freshUuid l := by
  intro he
  have h1 := freshUuid_length l t ht
  rw [he] at h1
  omega

/-- When the bucket holds no default balance, the default balance freshly
appended by the spec-modelled GetDefaultMoneyBalance carries a Uuid
different from the Uuid of every balance already in the bucket — in
particular a balance with an empty Uuid is never mistaken for the new
default by the Uuid identity check of the transfer loop. -/
theorem defaultIdxAndChain_fresh_uuid (chain : Balances)
    (h : ∀ b ∈ chain, b.ID ≠ META_DEFAULT) :
    ∀ b ∈ chain,
      b.Uuid ≠
        ((defaultIdxAndChain chain).2.getD (defaultIdxAndChain chain).1
          default).Uuid := by
  intro b hb
  have hfi : ¬ chain.findIdx (fun b => b.ID == META_DEFAULT) < chain.length := by
    intro hlt
    have := List.findIdx_getElem (w := hlt)
    simp only [beq_iff_eq] at this
    exact h _ (List.getElem_mem _) this
  simp only [defaultIdxAndChain, if_neg hfi]
  rw [List.getD_eq_getElem?_getD]
  rw [List.getElem?_append_right (by omega)]
  simp only [Nat.sub_self, List.getElem?_cons_zero, Option.getD_some]
  exact freshUuid_not_mem _ _ (List.mem_map_of_mem _ hb)

/-- The spec-modelled default balance locator returns a position inside the
(possibly extended) bucket. -/
theorem defaultIdx_lt (chain : Balances) :
    (defaultIdxAndChain chain).1 < (defaultIdxAndChain chain).2.length := by
  simp only [defaultIdxAndChain]
  by_cases h : chain.findIdx (fun b => b.ID == META_DEFAULT) < chain.length
  · simp [h]
  · simp [h, List.length_append]

/-- C8: transferMonetaryDefaultAction on an account with a monetary bucket
succeeds and rewrites the bucket so that every non-default position that
qualifies (distinct from the default balance by both Uuid and ID identity,
matching the filter, positive value) is zeroed, every other non-default
position — including balances with non-positive value — is unchanged, the
default balance gains exactly the sum of the transferred values, and the
default position itself never qualifies (no self-transfer). -/
theorem C8_transfer_monetary_default (m : Balance → Bool) (acc : Account)
    (a : Action) (bChain : Balances)
    (hb : mapLookup acc.BalanceMap MONETARY = some bChain) :
    ∃ acc2, transferMonetaryDefaultAction m (some acc) a = .ok acc2 ∧
      ∃ chain2, mapLookup acc2.BalanceMap MONETARY = some chain2 ∧
        chain2.length = (defaultIdxAndChain bChain).2.length ∧
        tmdQualB m (defaultIdxAndChain bChain).2 (defaultIdxAndChain bChain).1
          (defaultIdxAndChain bChain).1 = false ∧
        (∀ j, j < (defaultIdxAndChain bChain).2.length →
          j ≠ (defaultIdxAndChain bChain).1 →
          chain2.getD j default =
            (if tmdQualB m (defaultIdxAndChain bChain).2
                (defaultIdxAndChain bChain).1 j then
              { (defaultIdxAndChain bChain).2.getD j default with Value := 0 }
             else (defaultIdxAndChain bChain).2.getD j default)) ∧
        chain2.getD (defaultIdxAndChain bChain).1 default =
          { (defaultIdxAndChain bChain).2.getD (defaultIdxAndChain bChain).1
              default with
              Value := ((defaultIdxAndChain bChain).2.getD
                  (defaultIdxAndChain bChain).1 default).Value +
                tmdSum m (defaultIdxAndChain bChain).2
                  (defaultIdxAndChain bChain).1
                  (defaultIdxAndChain bChain).2.length } := by
  obtain ⟨h1, h2, h3⟩ := tmdLoop_invariant m (defaultIdxAndChain bChain).2
    (defaultIdxAndChain bChain).1 (defaultIdx_lt bChain)
    (defaultIdxAndChain bChain).2.length 0 (defaultIdxAndChain bChain).2
    (by omega) (by omega) rfl (fun j hj hjd => rfl)
    (fun j hj hjd => absurd hj (Nat.not_lt_zero j))
    (by simp [tmdSum])
  refine ⟨{ acc with
              BalanceMap := mapSet acc.BalanceMap MONETARY
                (tmdLoop m (defaultIdxAndChain bChain).1
                  (defaultIdxAndChain bChain).2 0) },
    ?_, tmdLoop m (defaultIdxAndChain bChain).1
      (defaultIdxAndChain bChain).2 0, ?_, h1, tmdQualB_dIdx _ _ _, h2, h3⟩
  · simp [transferMonetaryDefaultAction, hb]
  · exact mapLookup_mapSet_self _ _ _

/-- Witness for C8 at a concrete account whose monetary bucket holds no
default balance, only a positive matching balance with an empty Uuid: the
default is freshly appended with a fresh non-colliding Uuid, the empty-Uuid
balance is zeroed, and its 5 units land on the new default. -/
theorem C8_transfer_monetary_default_witness :
    ∃ acc2, transferMonetaryDefaultAction (fun _ => true)
        (some { BalanceMap :=
          [(MONETARY, [{ Uuid := "", ID := "B1", Value := 5 }])] }) {} =
        .ok acc2 ∧
      ∃ chain2, mapLookup acc2.BalanceMap MONETARY = some chain2 ∧
        chain2.length = 2 ∧
        chain2.getD 0 default = { Uuid := "", ID := "B1", Value := 0 } ∧
        (chain2.getD 1 default).ID = META_DEFAULT ∧
        (chain2.getD 1 default).Value = 5 := by
  obtain ⟨acc2, h1, chain2, h2, h3, hq, h4, h5⟩ :=
    C8_transfer_monetary_default (fun _ => true)
      { BalanceMap := [(MONETARY, [{ Uuid := "", ID := "B1", Value := 5 }])] }
      {} [{ Uuid := "", ID := "B1", Value := 5 }] rfl
  have hp : defaultIdxAndChain [{ Uuid := "", ID := "B1", Value := 5 }] =
      (1, [{ Uuid := "", ID := "B1", Value := 5 },
           { Uuid := "x", ID := META_DEFAULT }]) := by decide
  rw [hp] at h3 h4 h5
  have h40 := h4 0 (by decide) (by decide)
  have hq0 : tmdQualB (fun _ => true)
      [{ Uuid := "", ID := "B1", Value := 5 },
       { Uuid := "x", ID := META_DEFAULT }] 1 0 = true := by decide
  rw [hq0, if_pos rfl] at h40
  refine ⟨acc2, h1, chain2, h2, by simpa using h3, ?_, ?_, ?_⟩
  · rw [h40]; rfl
  · rw [h5]; rfl
  · rw [h5]
    norm_num [tmdSum, Finset.sum_range_succ, tmdQualB, META_DEFAULT]
    decide

/-! ### Infrastructure for the sort proofs (C1) -/

section SortProofs

variable {α : Type} [Inhabited α] [DecidableEq α]

theorem lswap_length (l : List α) (i j : Nat) :
    (lswap l i j).length = l.length := by
  unfold lswap
  split <;> simp

theorem lswap_getD_left (l : List α) (i j : Nat) (hi : i < l.length)
    (hj : j < l.length) : (lswap l i j).getD i default = l.getD j default := by
  unfold lswap
  rw [if_pos ⟨hi, hj⟩]
  by_cases hij : i = j
  · subst hij
    exact getD_set_self _ _ _ (by simpa using hi)
  · rw [getD_set_ne _ _ _ _ (Ne.symm hij)]
    exact getD_set_self _ _ _ hi

theorem lswap_getD_right (l : List α) (i j : Nat) (hi : i < l.length)
    (hj : j < l.length) : (lswap l i j).getD j default = l.getD i default := by
  unfold lswap
  rw [if_pos ⟨hi, hj⟩]
  exact getD_set_self _ _ _ (by simpa using hj)

theorem lswap_getD_other (l : List α) (i j k : Nat) (hki : k ≠ i)
    (hkj : k ≠ j) : (lswap l i j).getD k default = l.getD k default := by
  unfold lswap
  split
  · rw [getD_set_ne _ _ _ _ (Ne.symm hkj), getD_set_ne _ _ _ _ (Ne.symm hki)]
  · rfl

theorem lswap_perm (l : List α) (i j : Nat) : (lswap l i j).Perm l := by
  unfold lswap
  split
  case isFalse h => exact List.Perm.refl l
  case isTrue h =>
    obtain ⟨hi, hj⟩ := h
    rw [List.perm_iff_count]
    intro x
    rw [List.count_set (l.getD i default) x _ j (by simpa using hj)]
    rw [List.count_set (l.getD j default) x l i hi]
    have hjb : j < (l.set i (l.getD j default)).length := by simpa using hj
    have hj2 : (l.set i (l.getD j default))[j] =
        if i = j then l.getD j default else l[j] := by
      simp [List.getElem_set]
    rw [hj2]
    have hgi : l.getD i default = l[i] := List.getD_eq_getElem l default hi
    have hgj : l.getD j default = l[j] := List.getD_eq_getElem l default hj
    have hc1 : (if (l[i] == x) = true then 1 else 0) ≤ List.count x l := by
      by_cases hx : (l[i] == x) = true
      · rw [if_pos hx]
        have : x ∈ l := by
          rw [← beq_iff_eq.mp hx]
          exact List.getElem_mem hi
        exact List.count_pos_iff.mpr this
      · rw [if_neg hx]
        omega
    by_cases hij : i = j
    · subst hij
      rw [if_pos rfl, hgj]
      by_cases hx : (l[i] == x) = true <;>
        simp only [hx, if_true, if_false] at hc1 ⊢ <;> omega
    · rw [if_neg hij, hgi, hgj]
      by_cases hx1 : (l[i] == x) = true <;> by_cases hx2 : (l[j] == x) = true <;>
        simp only [hx1, hx2, if_true, if_false] at hc1 ⊢ <;> omega

theorem outEq_refl (l : List α) (a b : Nat) : OutEq l l a b :=
  ⟨rfl, fun _ _ => rfl⟩

theorem outEq_comp {l1 l2 l3 : List α} {a b : Nat} (h12 : OutEq l1 l2 a b)
    (h23 : OutEq l2 l3 a b) : OutEq l1 l3 a b :=
  ⟨h23.1.trans h12.1, fun k hk => (h23.2 k hk).trans (h12.2 k hk)⟩

theorem outEq_mono {l1 l2 : List α} {a b a' b' : Nat} (ha : a' ≤ a)
    (hb : b ≤ b') (h : OutEq l1 l2 a b) : OutEq l1 l2 a' b' :=
  ⟨h.1, fun k hk => h.2 k (by omega)⟩

theorem lswap_outEq (l : List α) (i j a b : Nat) (hai : a ≤ i) (hib : i < b)
    (haj : a ≤ j) (hjb : j < b) : OutEq l (lswap l i j) a b :=
  ⟨lswap_length l i j, fun k hk =>
    lswap_getD_other l i j k (by omega) (by omega)⟩

theorem segList_length (l : List α) (a b : Nat) (hb : b ≤ l.length)
    (hab : a ≤ b) : (segList l a b).length = b - a := by
  simp only [segList, List.length_take, List.length_drop]
  omega

theorem segList_getD (l : List α) (a b k : Nat) (hb : b ≤ l.length)
    (hk : k < b - a) : (segList l a b).getD k default = l.getD (a + k) default := by
  have h1 : a + k < l.length := by omega
  rw [List.getD_eq_getElem _ _ (by rw [segList_length l a b hb (by omega)]; omega)]
  rw [List.getD_eq_getElem _ _ h1]
  simp [segList, List.getElem_take, List.getElem_drop]

theorem mem_segList (l : List α) (a b k : Nat) (hb : b ≤ l.length)
    (hak : a ≤ k) (hk : k < b) : l.getD k default ∈ segList l a b := by
  have h1 := segList_getD l a b (k - a) hb (by omega)
  rw [show a + (k - a) = k by omega] at h1
  rw [← h1]
  rw [List.getD_eq_getElem _ _ (by rw [segList_length l a b hb (by omega)]; omega)]
  exact List.getElem_mem _

theorem segList_decomp (z : List α) (a b : Nat) (hb : b ≤ z.length)
    (hab : a ≤ b) : z = z.take a ++ segList z a b ++ z.drop b := by
  conv_lhs => rw [← List.take_append_drop a z]
  rw [List.append_assoc]
  congr 1
  unfold segList
  conv_lhs => rw [← List.take_append_drop (b - a) (z.drop a)]
  rw [List.drop_drop]
  congr 2
  omega

theorem take_eq_of_outEq {l l' : List α} {a b : Nat} (hout : OutEq l l' a b) :
    l'.take a = l.take a := by
  apply List.ext_getElem
  · simp [hout.1]
  · intro n h1 h2
    have hn : n < a := by
      simp only [List.length_take] at h1
      omega
    have hn1 : n < l'.length := by
      simp only [List.length_take] at h1
      omega
    have hn2 : n < l.length := by rw [← hout.1]; exact hn1
    have h := hout.2 n (Or.inl hn)
    rw [List.getD_eq_getElem _ _ hn1, List.getD_eq_getElem _ _ hn2] at h
    rw [List.getElem_take, List.getElem_take]
    exact h

theorem drop_eq_of_outEq {l l' : List α} {a b : Nat} (hout : OutEq l l' a b) :
    l'.drop b = l.drop b := by
  apply List.ext_getElem
  · simp [hout.1]
  · intro n h1 h2
    have hn1 : b + n < l'.length := by
      simp only [List.length_drop] at h1
      omega
    have hn2 : b + n < l.length := by rw [← hout.1]; exact hn1
    have h := hout.2 (b + n) (Or.inr (by omega))
    rw [List.getD_eq_getElem _ _ hn1, List.getD_eq_getElem _ _ hn2] at h
    rw [List.getElem_drop, List.getElem_drop]
    exact h

theorem seg_perm_of_perm_outEq {l l' : List α} {a b : Nat}
    (hb : b ≤ l.length) (hab : a ≤ b) (hperm : l'.Perm l)
    (hout : OutEq l l' a b) : (segList l' a b).Perm (segList l a b) := by
  have hb' : b ≤ l'.length := by rw [hout.1]; exact hb
  have hd1 := segList_decomp l a b hb hab
  have hd2 := segList_decomp l' a b hb' hab
  rw [take_eq_of_outEq hout, drop_eq_of_outEq hout] at hd2
  rw [hd1, hd2] at hperm
  rw [List.perm_append_right_iff] at hperm
  rw [List.perm_append_left_iff] at hperm
  exact hperm

theorem bound_transport {l l' : List α} {a b : Nat} (P : α → Prop)
    (hb : b ≤ l.length) (hab : a ≤ b) (hperm : l'.Perm l)
    (hout : OutEq l l' a b)
    (H : ∀ k, a ≤ k → k < b → P (l.getD k default)) :
    ∀ k, a ≤ k → k < b → P (l'.getD k default) := by
  intro k hak hkb
  have hsp := seg_perm_of_perm_outEq hb hab hperm hout
  have hmem : l'.getD k default ∈ segList l' a b :=
    mem_segList l' a b k (by rw [hout.1]; omega) hak hkb
  have hmem2 : l'.getD k default ∈ segList l a b := hsp.mem_iff.mp hmem
  obtain ⟨n, hn, heq⟩ := List.mem_iff_getElem.mp hmem2
  have hn2 : n < b - a := by
    rw [segList_length l a b hb hab] at hn
    exact hn
  have h1 := segList_getD l a b n hb hn2
  rw [List.getD_eq_getElem _ _ (by rw [segList_length l a b hb hab]; omega)] at h1
  rw [heq] at h1
  rw [h1]
  exact H (a + n) (by omega) (by omega)

theorem sortedSeg_congr {l l' : List α} {K : α → ℚ} {a b : Nat}
    (h : ∀ k, a ≤ k → k < b → l'.getD k default = l.getD k default)
    (hs : SortedSeg K l a b) : SortedSeg K l' a b := by
  intro i j hai hij hjb
  rw [h i hai (by omega), h j (by omega) hjb]
  exact hs i j hai hij hjb

theorem sortedSeg_glue {l : List α} {K : α → ℚ} {a mlo mhi b : Nat} {pv : ℚ}
    (h1 : a ≤ mlo) (h2 : mlo ≤ mhi) (h3 : mhi ≤ b)
    (SL : SortedSeg K l a mlo) (SR : SortedSeg K l mhi b)
    (L : ∀ k, a ≤ k → k < mlo → K (l.getD k default) ≤ pv)
    (M : ∀ k, mlo ≤ k → k < mhi → K (l.getD k default) = pv)
    (R : ∀ k, mhi ≤ k → k < b → pv ≤ K (l.getD k default)) :
    SortedSeg K l a b := by
  intro i j hai hij hjb
  rcases lt_or_le i mlo with hi1 | hi1
  · rcases lt_or_le j mlo with hj1 | hj1
    · exact SL i j hai hij hj1
    · rcases lt_or_le j mhi with hj2 | hj2
      · have hL := L i hai hi1
        have hM := M j hj1 hj2
        linarith
      · have hL := L i hai hi1
        have hR := R j hj2 hjb
        linarith
  · rcases lt_or_le i mhi with hi2 | hi2
    · rcases lt_or_le j mhi with hj2 | hj2
      · have hM1 := M i hi1 hi2
        have hM2 := M j (by omega) hj2
        linarith
      · have hM := M i hi1 hi2
        have hR := R j hj2 hjb
        linarith
    · exact SR i j hi2 hij hjb

theorem keyLt_true {K : α → ℚ} {x y : α} :
    keyLt K x y = true ↔ K x < K y := by
  simp [keyLt]

theorem keyLt_false {K : α → ℚ} {x y : α} :
    keyLt K x y = false ↔ K y ≤ K x := by
  simp [keyLt]

/-! ### Insertion sort (the small-range finisher of quickSort) -/

/-- The bubble-down inner loop of insertionSort: if every pair inside
[a, i] avoiding position j is ordered and the element at j is below every
element after it up to i, the loop yields a permutation, touches only
[a, i+1), and leaves [a, i+1) sorted. -/
theorem insJLoop_spec (K : α → ℚ) (a i : Nat) :
    ∀ (j : Nat) (l : List α), a ≤ j → j ≤ i → i < l.length →
    (∀ p q, a ≤ p → p < q → q ≤ i → p ≠ j → q ≠ j →
      K (l.getD p default) ≤ K (l.getD q default)) →
    (∀ q, j < q → q ≤ i → K (l.getD j default) ≤ K (l.getD q default)) →
    (insJLoop (keyLt K) a l j).Perm l ∧
    OutEq l (insJLoop (keyLt K) a l j) a (i + 1) ∧
    SortedSeg K (insJLoop (keyLt K) a l j) a (i + 1) ∧
    (insJLoop (keyLt K) a l j).length = l.length := by
  intro j
  induction j with
  | zero =>
    intro l haj hji hil hA hB
    simp only [insJLoop]
    have ha0 : a = 0 := by omega
    refine ⟨List.Perm.refl l, outEq_refl l a (i + 1), ?_, trivial⟩
    intro p q hap hpq hqi
    by_cases hp0 : p = 0
    · subst hp0
      exact hB q (by omega) (by omega)
    · exact hA p q hap hpq (by omega) (by omega) (by omega)
  | succ k ih =>
    intro l haj hji hil hA hB
    by_cases hcond : a < k + 1 ∧
        keyLt K (l.getD (k + 1) default) (l.getD k default) = true
    · rw [insJLoop, if_pos hcond]
      have hlt : K (l.getD (k + 1) default) < K (l.getD k default) := by
        have := hcond.2
        exact keyLt_true.mp this
      have hk1 : k + 1 < l.length := by omega
      have hk : k < l.length := by omega
      set l2 := lswap l (k + 1) k with hl2
      have hl2k1 : l2.getD (k + 1) default = l.getD k default := by
        rw [hl2]
        exact lswap_getD_left l (k + 1) k hk1 (by omega)
      have hl2k : l2.getD k default = l.getD (k + 1) default := by
        rw [hl2]
        exact lswap_getD_right l (k + 1) k hk1 (by omega)
      have hl2o : ∀ t, t ≠ k + 1 → t ≠ k → l2.getD t default = l.getD t default := by
        intro t h1 h2
        rw [hl2]
        exact lswap_getD_other l (k + 1) k t h1 h2
      have hlen2 : l2.length = l.length := lswap_length l (k + 1) k
      obtain ⟨P1, P2, P3, P4⟩ := ih l2 (by omega) (by omega) (by omega)
        (by
          intro p q hap hpq hqi hpk hqk
          by_cases hq1 : q = k + 1
          · subst hq1
            rw [hl2k1]
            by_cases hp1 : p = k
            · omega
            · rw [hl2o p (by omega) hp1]
              exact hA p k hap (by omega) (by omega) (by omega) (by omega)
          · by_cases hp1 : p = k + 1
            · subst hp1
              rw [hl2k1, hl2o q hq1 (by omega)]
              exact hA k q (by omega) (by omega) hqi (by omega) hq1
            · rw [hl2o p hp1 hpk, hl2o q hq1 hqk]
              exact hA p q hap hpq hqi hp1 hq1)
        (by
          intro q hkq hqi
          rw [hl2k]
          by_cases hq1 : q = k + 1
          · subst hq1
            rw [hl2k1]
            exact le_of_lt hlt
          · rw [hl2o q hq1 (by omega)]
            exact hB q (by omega) hqi)
      have hswap_perm : l2.Perm l := by
        rw [hl2]
        exact lswap_perm l (k + 1) k
      have hswap_out : OutEq l l2 a (i + 1) := by
        rw [hl2]
        exact lswap_outEq l (k + 1) k a (i + 1) (by omega) (by omega)
          (by omega) (by omega)
      exact ⟨P1.trans hswap_perm, outEq_comp hswap_out P2, P3,
        P4.trans hlen2⟩
    · rw [insJLoop, if_neg hcond]
      refine ⟨List.Perm.refl l, outEq_refl l a (i + 1), ?_, rfl⟩
      by_cases hja : k + 1 ≤ a
      · -- j = a: the invariant plus B already cover the whole range
        have hja2 : k + 1 = a := by omega
        intro p q hap hpq hqi
        by_cases hp1 : p = k + 1
        · subst hp1
          exact hB q (by omega) (by omega)
        · have hq1 : q ≠ k + 1 := by omega
          exact hA p q hap hpq (by omega) hp1 hq1
      · -- the left neighbour is already not greater
        have hge : K (l.getD k default) ≤ K (l.getD (k + 1) default) := by
          rcases Bool.eq_false_or_eq_true
            (keyLt K (l.getD (k + 1) default) (l.getD k default)) with ht | hf
          · exact absurd ⟨by omega, ht⟩ hcond
          · exact keyLt_false.mp hf
        intro p q hap hpq hqi
        by_cases hq1 : q = k + 1
        · subst hq1
          by_cases hp1 : p = k
          · subst hp1
            exact hge
          · calc K (l.getD p default) ≤ K (l.getD k default) :=
                hA p k hap (by omega) (by omega) (by omega) (by omega)
            _ ≤ K (l.getD (k + 1) default) := hge
        · by_cases hp1 : p = k + 1
          · subst hp1
            exact hB q (by omega) (by omega)
          · exact hA p q hap hpq (by omega) hp1 hq1

/-- The outer loop of insertionSort extends the sorted prefix one element
at a time. -/
theorem insILoop_spec (K : α → ℚ) (a b : Nat) :
    ∀ (n : Nat) (i : Nat) (l : List α), b - i ≤ n → a < i → b ≤ l.length →
    SortedSeg K l a i →
    (insILoop (keyLt K) a b n l i).Perm l ∧
    OutEq l (insILoop (keyLt K) a b n l i) a b ∧
    SortedSeg K (insILoop (keyLt K) a b n l i) a b ∧
    (insILoop (keyLt K) a b n l i).length = l.length := by
  intro n
  induction n with
  | zero =>
    intro i l hn hai hbl hs
    simp only [insILoop]
    refine ⟨List.Perm.refl l, outEq_refl l a b, ?_, trivial⟩
    intro p q hap hpq hqb
    exact hs p q hap hpq (by omega)
  | succ n ih =>
    intro i l hn hai hbl hs
    by_cases hib : i < b
    · rw [insILoop, if_pos hib]
      obtain ⟨J1, J2, J3, J4⟩ := insJLoop_spec K a i i l (by omega) le_rfl
        (by omega)
        (by
          intro p q hap hpq hqi hpi hqi2
          exact hs p q hap hpq (by omega))
        (by omega)
      obtain ⟨I1, I2, I3, I4⟩ := ih (i + 1) (insJLoop (keyLt K) a l i)
        (by omega) (by omega) (by omega)
        (by
          intro p q hap hpq hq1
          exact J3 p q hap hpq (by omega))
      refine ⟨I1.trans J1, ?_, I3, I4.trans J4⟩
      exact outEq_comp (outEq_mono le_rfl (by omega) J2) I2
    · rw [insILoop, if_neg hib]
      refine ⟨List.Perm.refl l, outEq_refl l a b, ?_, rfl⟩
      intro p q hap hpq hqb
      exact hs p q hap hpq (by omega)

/-- insertionSort(data, a, b): a permutation touching only [a, b) that
leaves [a, b) sorted by the key. -/
theorem insertionSortGo_spec (K : α → ℚ) (l : List α) (a b : Nat)
    (hb : b ≤ l.length) :
    (insertionSortGo (keyLt K) l a b).Perm l ∧
    OutEq l (insertionSortGo (keyLt K) l a b) a b ∧
    SortedSeg K (insertionSortGo (keyLt K) l a b) a b ∧
    (insertionSortGo (keyLt K) l a b).length = l.length := by
  unfold insertionSortGo
  exact insILoop_spec K a b (b - (a + 1)) (a + 1) l (by omega) (by omega) hb
    (by
      intro p q hap hpq hq1
      omega)

/-! ### The gap-6 shell pass: a permutation confined to [a, b) -/

/-- The gap-6 loop only swaps positions i and i - 6 with i in [a+6, b),
so it permutes the list and touches nothing outside [a, b). -/
theorem shellLoop_spec (lt : α → α → Bool) (a b : Nat) :
    ∀ (n i : Nat) (l : List α), a + 6 ≤ i →
    (shellLoop lt b n l i).Perm l ∧
    OutEq l (shellLoop lt b n l i) a b ∧
    (shellLoop lt b n l i).length = l.length := by
  intro n
  induction n with
  | zero =>
    intro i l hi
    simp only [shellLoop]
    exact ⟨List.Perm.refl l, outEq_refl l a b, trivial⟩
  | succ n ih =>
    intro i l hi
    by_cases hib : i < b
    · rw [shellLoop, if_pos hib]
      set l2 := if lt (l.getD i default) (l.getD (i - 6) default) then
          lswap l i (i - 6)
        else l with hl2
      have h2p : l2.Perm l := by
        rw [hl2]
        split
        · exact lswap_perm l i (i - 6)
        · exact List.Perm.refl l
      have h2o : OutEq l l2 a b := by
        rw [hl2]
        split
        · exact lswap_outEq l i (i - 6) a b (by omega) hib (by omega) (by omega)
        · exact outEq_refl l a b
      have h2l : l2.length = l.length := h2p.length_eq
      obtain ⟨P1, P2, P3⟩ := ih (i + 1) l2 (by omega)
      exact ⟨P1.trans h2p, outEq_comp h2o P2, P3.trans h2l⟩
    · rw [shellLoop, if_neg hib]
      exact ⟨List.Perm.refl l, outEq_refl l a b, rfl⟩

/-- shellPass: a permutation of the input agreeing with it outside
[a, b). -/
theorem shellPassGo_spec (lt : α → α → Bool) (l : List α) (a b : Nat) :
    (shellPassGo lt l a b).Perm l ∧
    OutEq l (shellPassGo lt l a b) a b ∧
    (shellPassGo lt l a b).length = l.length := by
  unfold shellPassGo
  exact shellLoop_spec lt a b (b - (a + 6)) (a + 6) l le_rfl

/-- The small-range branch of quickSort: the shell pass followed by
insertion sort is a permutation confined to [a, b) that sorts [a, b). -/
theorem smallSortGo_spec (K : α → ℚ) (l : List α) (a b : Nat)
    (hb : b ≤ l.length) :
    (insertionSortGo (keyLt K) (shellPassGo (keyLt K) l a b) a b).Perm l ∧
    OutEq l (insertionSortGo (keyLt K) (shellPassGo (keyLt K) l a b) a b) a b ∧
    SortedSeg K (insertionSortGo (keyLt K) (shellPassGo (keyLt K) l a b) a b) a b ∧
    (insertionSortGo (keyLt K) (shellPassGo (keyLt K) l a b) a b).length = l.length := by
  obtain ⟨S1, S2, S3⟩ := shellPassGo_spec (keyLt K) l a b
  obtain ⟨I1, I2, I3, I4⟩ := insertionSortGo_spec K (shellPassGo (keyLt K) l a b)
    a b (by omega)
  exact ⟨I1.trans S1, outEq_comp S2 I2, I3, I4.trans S3⟩

/-! ### The binary-heap subtree relation -/

theorem desc_refl (r : Nat) : Desc r r :=
  ⟨0, by simp, by simp only [pow_zero, mul_one]; omega⟩

theorem desc_ge {r i : Nat} (h : Desc r i) : r ≤ i := by
  obtain ⟨k, h1, h2⟩ := h
  have hp : 0 < 2 ^ k := pow_pos (by norm_num) k
  have h3 : r + 1 ≤ (r + 1) * 2 ^ k := Nat.le_mul_of_pos_right _ hp
  omega

theorem desc_parent {r i : Nat} (h : Desc r i) (hne : i ≠ r) :
    Desc r ((i - 1) / 2) ∧ 2 * r + 1 ≤ i := by
  obtain ⟨k, h1, h2⟩ := h
  cases k with
  | zero =>
    simp only [pow_zero, mul_one] at h1 h2
    omega
  | succ m =>
    have hp : 0 < 2 ^ m := pow_pos (by norm_num) m
    have hge1 : r + 1 ≤ (r + 1) * 2 ^ m := Nat.le_mul_of_pos_right _ hp
    have key1 : 2 * ((r + 1) * 2 ^ m) ≤ i + 1 := by
      calc 2 * ((r + 1) * 2 ^ m) = (r + 1) * 2 ^ (m + 1) := by ring
      _ ≤ i + 1 := h1
    have key2 : i + 1 < 2 * ((r + 2) * 2 ^ m) := by
      calc i + 1 < (r + 2) * 2 ^ (m + 1) := h2
      _ = 2 * ((r + 2) * 2 ^ m) := by ring
    refine ⟨⟨m, by omega, by omega⟩, by omega⟩

theorem desc_child_left {r i : Nat} (h : Desc (2 * r + 1) i) : Desc r i := by
  obtain ⟨k, h1, h2⟩ := h
  refine ⟨k + 1, ?_, ?_⟩
  · calc (r + 1) * 2 ^ (k + 1) = (2 * r + 1 + 1) * 2 ^ k := by ring
    _ ≤ i + 1 := h1
  · calc i + 1 < (2 * r + 1 + 2) * 2 ^ k := h2
    _ ≤ (2 * r + 4) * 2 ^ k := Nat.mul_le_mul_right _ (by omega)
    _ = (r + 2) * 2 ^ (k + 1) := by ring

theorem desc_child_right {r i : Nat} (h : Desc (2 * r + 2) i) : Desc r i := by
  obtain ⟨k, h1, h2⟩ := h
  refine ⟨k + 1, ?_, ?_⟩
  · calc (r + 1) * 2 ^ (k + 1) = (2 * r + 2) * 2 ^ k := by ring
    _ ≤ (2 * r + 2 + 1) * 2 ^ k := Nat.mul_le_mul_right _ (by omega)
    _ ≤ i + 1 := h1
  · calc i + 1 < (2 * r + 2 + 2) * 2 ^ k := h2
    _ = (r + 2) * 2 ^ (k + 1) := by ring

theorem desc_cases {r i : Nat} (h : Desc r i) :
    i = r ∨ Desc (2 * r + 1) i ∨ Desc (2 * r + 2) i := by
  obtain ⟨k, h1, h2⟩ := h
  cases k with
  | zero =>
    simp only [pow_zero, mul_one] at h1 h2
    omega
  | succ m =>
    have key1 : (2 * r + 2) * 2 ^ m ≤ i + 1 := by
      calc (2 * r + 2) * 2 ^ m = (r + 1) * 2 ^ (m + 1) := by ring
      _ ≤ i + 1 := h1
    have key2 : i + 1 < (2 * r + 4) * 2 ^ m := by
      calc i + 1 < (r + 2) * 2 ^ (m + 1) := h2
      _ = (2 * r + 4) * 2 ^ m := by ring
    by_cases hm : i + 1 < (2 * r + 3) * 2 ^ m
    · refine Or.inr (Or.inl ⟨m, ?_, ?_⟩)
      · calc (2 * r + 1 + 1) * 2 ^ m = (2 * r + 2) * 2 ^ m := by ring
        _ ≤ i + 1 := key1
      · calc i + 1 < (2 * r + 3) * 2 ^ m := hm
        _ = (2 * r + 1 + 2) * 2 ^ m := by ring
    · refine Or.inr (Or.inr ⟨m, ?_, ?_⟩)
      · calc (2 * r + 2 + 1) * 2 ^ m = (2 * r + 3) * 2 ^ m := by ring
        _ ≤ i + 1 := Nat.le_of_not_lt hm
      · calc i + 1 < (2 * r + 4) * 2 ^ m := key2
        _ = (2 * r + 2 + 2) * 2 ^ m := by ring

theorem desc_disjoint {r i : Nat} (h1 : Desc (2 * r + 1) i)
    (h2 : Desc (2 * r + 2) i) : False := by
  obtain ⟨k, hk1, hk2⟩ := h1
  obtain ⟨m, hm1, hm2⟩ := h2
  have hk1' : (2 * r + 2) * 2 ^ k ≤ i + 1 := by
    calc (2 * r + 2) * 2 ^ k = (2 * r + 1 + 1) * 2 ^ k := by ring
    _ ≤ i + 1 := hk1
  have hk2' : i + 1 < (2 * r + 3) * 2 ^ k := by
    calc i + 1 < (2 * r + 1 + 2) * 2 ^ k := hk2
    _ = (2 * r + 3) * 2 ^ k := by ring
  have hm1' : (2 * r + 3) * 2 ^ m ≤ i + 1 := by
    calc (2 * r + 3) * 2 ^ m = (2 * r + 2 + 1) * 2 ^ m := by ring
    _ ≤ i + 1 := hm1
  have hm2' : i + 1 < (2 * r + 4) * 2 ^ m := by
    calc i + 1 < (2 * r + 2 + 2) * 2 ^ m := hm2
    _ = (2 * r + 4) * 2 ^ m := by ring
  rcases le_or_lt k m with hkm | hkm
  · have : (2 * r + 3) * 2 ^ k ≤ (2 * r + 3) * 2 ^ m :=
      Nat.mul_le_mul_left _ (Nat.pow_le_pow_right (by norm_num) hkm)
    omega
  · have hstep : (2 * r + 4) * 2 ^ m ≤ (2 * r + 2) * 2 ^ k := by
      have h2m : m + 1 ≤ k := hkm
      calc (2 * r + 4) * 2 ^ m ≤ (4 * r + 4) * 2 ^ m :=
        Nat.mul_le_mul_right _ (by omega)
      _ = (2 * r + 2) * 2 ^ (m + 1) := by ring
      _ ≤ (2 * r + 2) * 2 ^ k :=
        Nat.mul_le_mul_left _ (Nat.pow_le_pow_right (by norm_num) h2m)
    omega

theorem desc_trans {r c i : Nat} (h1 : Desc r c) (h2 : Desc c i) :
    Desc r i := by
  obtain ⟨k, hk1, hk2⟩ := h1
  obtain ⟨m, hm1, hm2⟩ := h2
  refine ⟨k + m, ?_, ?_⟩
  · calc (r + 1) * 2 ^ (k + m) = ((r + 1) * 2 ^ k) * 2 ^ m := by ring
    _ ≤ (c + 1) * 2 ^ m := Nat.mul_le_mul_right _ hk1
    _ ≤ i + 1 := hm1
  · calc i + 1 < (c + 2) * 2 ^ m := hm2
    _ ≤ ((r + 2) * 2 ^ k) * 2 ^ m := Nat.mul_le_mul_right _ (by omega)
    _ = (r + 2) * 2 ^ (k + m) := by ring

theorem desc_zero (j : Nat) : Desc 0 j := by
  refine ⟨(j + 1).log2, ?_, ?_⟩
  · simpa using Nat.log2_self_le (n := j + 1) (by omega)
  · have := Nat.lt_log2_self (n := j + 1)
    calc j + 1 < 2 ^ ((j + 1).log2 + 1) := this
    _ = 2 * 2 ^ (j + 1).log2 := by ring
    _ = (0 + 2) * 2 ^ (j + 1).log2 := by ring

theorem desc_child_node_left (r : Nat) : Desc r (2 * r + 1) :=
  desc_child_left (desc_refl (2 * r + 1))

theorem desc_child_node_right (r : Nat) : Desc r (2 * r + 2) :=
  desc_child_right (desc_refl (2 * r + 2))

/-! ### siftDown: structural facts -/

theorem siftDownAux_length (lt : α → α → Bool) (hi first : Nat) :
    ∀ (fuel : Nat) (l : List α) (root : Nat),
    (siftDownAux lt hi first fuel l root).length = l.length := by
  intro fuel
  induction fuel with
  | zero => intro l root; rfl
  | succ n ih =>
    intro l root
    simp only [siftDownAux]
    split
    · split
      · split
        · exact (ih _ _).trans (lswap_length _ _ _)
        · rfl
      · split
        · exact (ih _ _).trans (lswap_length _ _ _)
        · rfl
    · rfl

theorem siftDownAux_perm (lt : α → α → Bool) (hi first : Nat) :
    ∀ (fuel : Nat) (l : List α) (root : Nat),
    (siftDownAux lt hi first fuel l root).Perm l := by
  intro fuel
  induction fuel with
  | zero => intro l root; exact List.Perm.refl _
  | succ n ih =>
    intro l root
    simp only [siftDownAux]
    split
    · split
      · split
        · exact (ih _ _).trans (lswap_perm _ _ _)
        · exact List.Perm.refl _
      · split
        · exact (ih _ _).trans (lswap_perm _ _ _)
        · exact List.Perm.refl _
    · exact List.Perm.refl _

/-- siftDown only writes positions inside the window whose offset lies in
the subtree of the root. -/
theorem siftDownAux_untouched (lt : α → α → Bool) (hi first : Nat) :
    ∀ (fuel : Nat) (l : List α) (root q : Nat),
    q < first ∨ first + hi ≤ q ∨ ¬ Desc root (q - first) →
    (siftDownAux lt hi first fuel l root).getD q default = l.getD q default := by
  intro fuel
  induction fuel with
  | zero => intro l root q hq; rfl
  | succ n ih =>
    intro l root q hq
    simp only [siftDownAux]
    by_cases hg : 2 * root + 1 < hi
    · rw [if_pos hg]
      set c := if 2 * root + 2 < hi ∧
          lt (l.getD (first + (2 * root + 1)) default)
            (l.getD (first + (2 * root + 2)) default) = true then
          2 * root + 2
        else 2 * root + 1 with hc
      have hCor : c = 2 * root + 1 ∨ c = 2 * root + 2 := by
        rw [hc]; split
        · exact Or.inr rfl
        · exact Or.inl rfl
      have hChi : c < hi := by
        rw [hc]; split
        · next h => exact h.1
        · exact hg
      have hd_c : Desc root c := by
        rcases hCor with h | h
        · rw [h]; exact desc_child_node_left root
        · rw [h]; exact desc_child_node_right root
      by_cases hswap : lt (l.getD (first + root) default)
          (l.getD (first + c) default) = true
      · rw [if_pos hswap]
        have hq2 : q < first ∨ first + hi ≤ q ∨ ¬ Desc c (q - first) := by
          rcases hq with h | h | h
          · exact Or.inl h
          · exact Or.inr (Or.inl h)
          · exact Or.inr (Or.inr (fun hd => h (desc_trans hd_c hd)))
        have hqr : q ≠ first + root := by
          rcases hq with h | h | h
          · omega
          · omega
          · intro heq
            apply h
            rw [show q - first = root from by omega]
            exact desc_refl root
        have hqc : q ≠ first + c := by
          rcases hq with h | h | h
          · omega
          · omega
          · intro heq
            apply h
            rw [show q - first = c from by omega]
            exact hd_c
        rw [ih _ _ _ hq2]
        exact lswap_getD_other l _ _ q hqr hqc
      · rw [if_neg hswap]
    · rw [if_neg hg]

theorem siftDownAux_outEq (lt : α → α → Bool) (hi first : Nat)
    (fuel : Nat) (l : List α) (root : Nat) :
    OutEq l (siftDownAux lt hi first fuel l root) first (first + hi) := by
  refine ⟨siftDownAux_length lt hi first fuel l root, ?_⟩
  intro k hk
  rcases hk with h | h
  · exact siftDownAux_untouched lt hi first fuel l root k (Or.inl h)
  · exact siftDownAux_untouched lt hi first fuel l root k (Or.inr (Or.inl h))

/-- Every value inside the root's subtree after siftDown came from a
position inside the root's subtree before it. -/
theorem siftDownAux_provenance (lt : α → α → Bool) (hi first : Nat) :
    ∀ (fuel : Nat) (l : List α) (root q : Nat),
    first + hi ≤ l.length → first ≤ q → q - first < hi →
    Desc root (q - first) →
    ∃ p, first ≤ p ∧ p - first < hi ∧ Desc root (p - first) ∧
      (siftDownAux lt hi first fuel l root).getD q default =
        l.getD p default := by
  intro fuel
  induction fuel with
  | zero => intro l root q hlen hq1 hq2 hd; exact ⟨q, hq1, hq2, hd, rfl⟩
  | succ n ih =>
    intro l root q hlen hq1 hq2 hd
    simp only [siftDownAux]
    by_cases hg : 2 * root + 1 < hi
    · rw [if_pos hg]
      set c := if 2 * root + 2 < hi ∧
          lt (l.getD (first + (2 * root + 1)) default)
            (l.getD (first + (2 * root + 2)) default) = true then
          2 * root + 2
        else 2 * root + 1 with hc
      have hCor : c = 2 * root + 1 ∨ c = 2 * root + 2 := by
        rw [hc]; split
        · exact Or.inr rfl
        · exact Or.inl rfl
      have hChi : c < hi := by
        rw [hc]; split
        · next h => exact h.1
        · exact hg
      have hd_c : Desc root c := by
        rcases hCor with h | h
        · rw [h]; exact desc_child_node_left root
        · rw [h]; exact desc_child_node_right root
      by_cases hswap : lt (l.getD (first + root) default)
          (l.getD (first + c) default) = true
      · rw [if_pos hswap]
        set l2 := lswap l (first + root) (first + c) with hl2
        have hlen2 : first + hi ≤ l2.length := by
          rw [hl2, lswap_length]; exact hlen
        by_cases hdq : Desc c (q - first)
        · obtain ⟨p, hp1, hp2, hp3, hp4⟩ := ih l2 c q hlen2 hq1 hq2 hdq
          by_cases hpc : p = first + c
          · refine ⟨first + root, by omega, ?_, ?_, ?_⟩
            · rw [show first + root - first = root from by omega]; omega
            · rw [show first + root - first = root from by omega]
              exact desc_refl root
            · rw [hp4, hpc, hl2]
              exact lswap_getD_right l (first + root) (first + c)
                (by omega) (by omega)
          · have hpr : p ≠ first + root := by
              have := desc_ge hp3
              omega
            refine ⟨p, hp1, hp2, desc_trans hd_c hp3, ?_⟩
            rw [hp4, hl2]
            exact lswap_getD_other l _ _ p hpr hpc
        · have hunt := siftDownAux_untouched lt hi first n l2 c q
            (Or.inr (Or.inr hdq))
          rcases desc_cases hd with hq0 | hside
          · have hqro : q = first + root := by omega
            refine ⟨first + c, by omega, ?_, ?_, ?_⟩
            · rw [show first + c - first = c from by omega]; exact hChi
            · rw [show first + c - first = c from by omega]; exact hd_c
            · rw [hunt, hqro, hl2]
              exact lswap_getD_left l (first + root) (first + c)
                (by omega) (by omega)
          · have hge2 : 2 * root + 1 ≤ q - first := by
              rcases hside with h | h
              · have := desc_ge h; omega
              · have := desc_ge h; omega
            have hqr : q ≠ first + root := by omega
            have hqc : q ≠ first + c := by
              intro heq
              apply hdq
              rw [show q - first = c from by omega]
              exact desc_refl c
            refine ⟨q, hq1, hq2, hd, ?_⟩
            rw [hunt, hl2]
            exact lswap_getD_other l _ _ q hqr hqc
      · rw [if_neg hswap]
        exact ⟨q, hq1, hq2, hd, rfl⟩
    · rw [if_neg hg]
      exact ⟨q, hq1, hq2, hd, rfl⟩

/-- In a window where every parent relation with parent index at least r
holds, every element of the subtree of r is bounded by the element at r. -/
theorem subtree_max (K : α → ℚ) (first hi : Nat) (l : List α) (r : Nat)
    (H : ∀ i, 1 ≤ i → i < hi → r ≤ (i - 1) / 2 →
      K (l.getD (first + i) default) ≤ K (l.getD (first + (i - 1) / 2) default)) :
    ∀ j, Desc r j → j < hi →
      K (l.getD (first + j) default) ≤ K (l.getD (first + r) default) := by
  intro j
  induction j using Nat.strong_induction_on with
  | _ j ih =>
    intro hd hj
    by_cases hjr : j = r
    · rw [hjr]
    · obtain ⟨hdp, hge⟩ := desc_parent hd hjr
      have h1 := H j (by omega) hj (desc_ge hdp)
      have h2 := ih ((j - 1) / 2) (by omega) hdp (by omega)
      exact le_trans h1 h2

/-- siftDown restores the heap at its root: if every parent relation with
parent strictly below the root holds, afterwards every parent relation
with parent at or below the root holds. -/
theorem siftDownAux_heap (K : α → ℚ) (hi first : Nat) :
    ∀ (fuel : Nat) (l : List α) (root : Nat),
    first + hi ≤ l.length → hi ≤ fuel + root →
    (∀ i, 1 ≤ i → i < hi → root < (i - 1) / 2 →
      K (l.getD (first + i) default) ≤
        K (l.getD (first + (i - 1) / 2) default)) →
    ∀ i, 1 ≤ i → i < hi → root ≤ (i - 1) / 2 →
      K ((siftDownAux (keyLt K) hi first fuel l root).getD (first + i) default) ≤
      K ((siftDownAux (keyLt K) hi first fuel l root).getD
          (first + (i - 1) / 2) default) := by
  intro fuel
  induction fuel with
  | zero =>
    intro l root hlen hfuel pre i h1 h2 h3
    exfalso
    omega
  | succ n ih =>
    intro l root hlen hfuel pre i h1 h2 h3
    simp only [siftDownAux]
    by_cases hg : 2 * root + 1 < hi
    · rw [if_pos hg]
      set c := if 2 * root + 2 < hi ∧
          keyLt K (l.getD (first + (2 * root + 1)) default)
            (l.getD (first + (2 * root + 2)) default) = true then
          2 * root + 2
        else 2 * root + 1 with hc
      clear_value c
      have hCor : c = 2 * root + 1 ∨ c = 2 * root + 2 := by
        rw [hc]; split
        · exact Or.inr rfl
        · exact Or.inl rfl
      have hChi : c < hi := by
        rw [hc]; split
        · next h => exact h.1
        · exact hg
      have hCother : ∀ o, o = 2 * root + 1 ∨ o = 2 * root + 2 → o < hi →
          o ≠ c → K (l.getD (first + o) default) ≤
            K (l.getD (first + c) default) := by
        rw [hc]; split
        · next hsel =>
          intro o ho hohi hne
          rcases ho with h | h
          · rw [h]
            exact le_of_lt (keyLt_true.mp hsel.2)
          · exact absurd h hne
        · next hsel =>
          intro o ho hohi hne
          rcases ho with h | h
          · exact absurd h hne
          · rw [h]
            have hf : keyLt K (l.getD (first + (2 * root + 1)) default)
                (l.getD (first + (2 * root + 2)) default) = false := by
              cases hb : keyLt K (l.getD (first + (2 * root + 1)) default)
                (l.getD (first + (2 * root + 2)) default)
              · rfl
              · exact absurd ⟨by omega, hb⟩ hsel
            exact keyLt_false.mp hf
      by_cases hswap : keyLt K (l.getD (first + root) default)
          (l.getD (first + c) default) = true
      · rw [if_pos hswap]
        set l2 := lswap l (first + root) (first + c) with hl2
        have hlen2 : first + hi ≤ l2.length := by
          rw [hl2, lswap_length]; exact hlen
        have hl2root : l2.getD (first + root) default =
            l.getD (first + c) default := by
          rw [hl2]
          exact lswap_getD_left l _ _ (by omega) (by omega)
        have hl2c : l2.getD (first + c) default =
            l.getD (first + root) default := by
          rw [hl2]
          exact lswap_getD_right l _ _ (by omega) (by omega)
        have hl2o : ∀ t, t ≠ first + root → t ≠ first + c →
            l2.getD t default = l.getD t default := by
          intro t ht1 ht2
          rw [hl2]
          exact lswap_getD_other l _ _ t ht1 ht2
        have pre2 : ∀ j, 1 ≤ j → j < hi → c < (j - 1) / 2 →
            K (l2.getD (first + j) default) ≤
              K (l2.getD (first + (j - 1) / 2) default) := by
          intro j hj1 hj2 hj3
          rw [hl2o (first + j) (by omega) (by omega),
            hl2o (first + (j - 1) / 2) (by omega) (by omega)]
          exact pre j hj1 hj2 (by omega)
        have hpost := ih l2 c hlen2 (by omega) pre2
        have hresroot : (siftDownAux (keyLt K) hi first n l2 c).getD
            (first + root) default = l.getD (first + c) default := by
          rw [siftDownAux_untouched (keyLt K) hi first n l2 c (first + root)
            (Or.inr (Or.inr (by
              rw [show first + root - first = root from by omega]
              intro hdd
              have := desc_ge hdd
              omega)))]
          exact hl2root
        by_cases hpar : c ≤ (i - 1) / 2
        · exact hpost i h1 h2 hpar
        · by_cases hparr : (i - 1) / 2 = root
          · rw [hparr, hresroot]
            by_cases hic : i = c
            · obtain ⟨p, hp1, hp2, hp3, hp4⟩ :=
                siftDownAux_provenance (keyLt K) hi first n l2 c (first + i)
                  hlen2 (by omega)
                  (by rw [show first + i - first = i from by omega]; exact h2)
                  (by
                    rw [show first + i - first = i from by omega, hic]
                    exact desc_refl c)
              rw [hp4]
              by_cases hpc : p = first + c
              · rw [hpc, hl2c]
                exact le_of_lt (keyLt_true.mp hswap)
              · have hpr : p ≠ first + root := by
                  have := desc_ge hp3
                  omega
                rw [hl2o p hpr hpc]
                have hsm := subtree_max K first hi l c
                  (by
                    intro t ht1 ht2 ht3
                    exact pre t ht1 ht2 (by omega))
                  (p - first) hp3 hp2
                rw [show first + (p - first) = p from by omega] at hsm
                exact hsm
            · have hiset : i = 2 * root + 1 ∨ i = 2 * root + 2 := by omega
              have hBnd := hCother i hiset h2 hic
              have hNd : ¬ Desc c (first + i - first) := by
                rw [show first + i - first = i from by omega]
                intro hdd
                rcases hCor with hcv | hcv <;> rcases hiset with hiv | hiv
                · exact hic (by omega)
                · rw [hcv, hiv] at hdd
                  exact desc_disjoint hdd (desc_refl _)
                · rw [hcv] at hdd
                  have := desc_ge hdd
                  omega
                · exact hic (by omega)
              have hresi : (siftDownAux (keyLt K) hi first n l2 c).getD
                  (first + i) default = l.getD (first + i) default := by
                rw [siftDownAux_untouched (keyLt K) hi first n l2 c (first + i)
                  (Or.inr (Or.inr hNd))]
                exact hl2o _ (by omega) (by
                  intro heq
                  exact hic (by omega))
              rw [hresi]
              exact hBnd
          · have hparc : (i - 1) / 2 < c := by omega
            have hNdi : ¬ Desc c (first + i - first) := by
              rw [show first + i - first = i from by omega]
              intro hdd
              by_cases hicc : i = c
              · omega
              · obtain ⟨hdp, hge2⟩ := desc_parent hdd hicc
                have := desc_ge hdp
                omega
            have hNdp : ¬ Desc c (first + (i - 1) / 2 - first) := by
              rw [show first + (i - 1) / 2 - first = (i - 1) / 2 from by omega]
              intro hdd
              have := desc_ge hdd
              omega
            have hri : (siftDownAux (keyLt K) hi first n l2 c).getD
                (first + i) default = l.getD (first + i) default := by
              rw [siftDownAux_untouched (keyLt K) hi first n l2 c (first + i)
                (Or.inr (Or.inr hNdi))]
              exact hl2o _ (by omega) (by omega)
            have hrp : (siftDownAux (keyLt K) hi first n l2 c).getD
                (first + (i - 1) / 2) default =
                l.getD (first + (i - 1) / 2) default := by
              rw [siftDownAux_untouched (keyLt K) hi first n l2 c
                (first + (i - 1) / 2) (Or.inr (Or.inr hNdp))]
              exact hl2o _ (by omega) (by omega)
            rw [hri, hrp]
            exact pre i h1 h2 (by omega)
      · rw [if_neg hswap]
        have hKf : keyLt K (l.getD (first + root) default)
            (l.getD (first + c) default) = false := by
          cases hb : keyLt K (l.getD (first + root) default)
            (l.getD (first + c) default)
          · rfl
          · exact absurd hb hswap
        have hKcr : K (l.getD (first + c) default) ≤
            K (l.getD (first + root) default) := keyLt_false.mp hKf
        by_cases hparr : (i - 1) / 2 = root
        · have hiset : i = 2 * root + 1 ∨ i = 2 * root + 2 := by omega
          rw [hparr]
          by_cases hic : i = c
          · rw [hic]
            exact hKcr
          · exact le_trans (hCother i hiset h2 hic) hKcr
        · exact pre i h1 h2 (by omega)
    · rw [if_neg hg]
      by_cases hparr : (i - 1) / 2 = root
      · exfalso
        omega
      · exact pre i h1 h2 (by omega)

/-- In a full heap window the root holds the maximum. -/
theorem heap_root_max (K : α → ℚ) (first m : Nat) (l : List α)
    (H : ∀ i, 1 ≤ i → i < m →
      K (l.getD (first + i) default) ≤ K (l.getD (first + (i - 1) / 2) default)) :
    ∀ j, j < m → K (l.getD (first + j) default) ≤ K (l.getD first default) := by
  intro j hj
  have h := subtree_max K first m l 0
    (by intro i h1 h2 h3; exact H i h1 h2) j (desc_zero j) hj
  simpa using h

/-! ### heapSort -/

/-- The build loop turns the window into a full heap while permuting only
[first, first+hi). -/
theorem heapBuild_spec (K : α → ℚ) (hi first : Nat) :
    ∀ (k : Nat) (l : List α), first + hi ≤ l.length →
    (∀ i, 1 ≤ i → i < hi → k ≤ (i - 1) / 2 →
      K (l.getD (first + i) default) ≤
        K (l.getD (first + (i - 1) / 2) default)) →
    (∀ i, 1 ≤ i → i < hi →
      K ((heapBuild (keyLt K) hi first l k).getD (first + i) default) ≤
      K ((heapBuild (keyLt K) hi first l k).getD
          (first + (i - 1) / 2) default)) ∧
    (heapBuild (keyLt K) hi first l k).Perm l ∧
    OutEq l (heapBuild (keyLt K) hi first l k) first (first + hi) ∧
    (heapBuild (keyLt K) hi first l k).length = l.length := by
  intro k
  induction k with
  | zero =>
    intro l hlen pre
    refine ⟨?_, List.Perm.refl l, outEq_refl l first (first + hi), rfl⟩
    intro i h1 h2
    exact pre i h1 h2 (Nat.zero_le _)
  | succ k ih =>
    intro l hlen pre
    set l2 := siftDownAux (keyLt K) hi first hi l k with hl2
    have hrw : heapBuild (keyLt K) hi first l (k + 1) =
        heapBuild (keyLt K) hi first l2 k := rfl
    rw [hrw]
    have hlen2 : first + hi ≤ l2.length := by
      rw [hl2, siftDownAux_length]; exact hlen
    have hpre2 := siftDownAux_heap K hi first hi l k hlen (by omega) (by
      intro i h1 h2 h3
      exact pre i h1 h2 (by omega))
    obtain ⟨H1, H2, H3, H4⟩ := ih l2 hlen2 (by
      intro i h1 h2 h3
      have := hpre2 i h1 h2 h3
      rw [hl2]
      exact this)
    refine ⟨H1, H2.trans ?_, outEq_comp ?_ H3, H4.trans ?_⟩
    · rw [hl2]; exact siftDownAux_perm _ _ _ _ _ _
    · rw [hl2]; exact siftDownAux_outEq _ _ _ _ _ _
    · rw [hl2]; exact siftDownAux_length _ _ _ _ _ _

/-- The pop loop: with a heap on [0, n), the tail already sorted and
dominating the heap, it sorts the whole window, permuting only
[first, first+n). -/
theorem heapPop_spec (K : α → ℚ) (first hi0 : Nat) :
    ∀ (n : Nat) (l : List α), first + hi0 ≤ l.length → n ≤ hi0 →
    (∀ j, 1 ≤ j → j < n →
      K (l.getD (first + j) default) ≤
        K (l.getD (first + (j - 1) / 2) default)) →
    SortedSeg K l (first + n) (first + hi0) →
    (∀ p q, p < n → n ≤ q → q < hi0 →
      K (l.getD (first + p) default) ≤ K (l.getD (first + q) default)) →
    (heapPop (keyLt K) first l n).Perm l ∧
    OutEq l (heapPop (keyLt K) first l n) first (first + n) ∧
    SortedSeg K (heapPop (keyLt K) first l n) first (first + hi0) ∧
    (heapPop (keyLt K) first l n).length = l.length := by
  intro n
  induction n with
  | zero =>
    intro l hlen hn hheap hsorted hbound
    refine ⟨List.Perm.refl l, outEq_refl _ _ _, ?_, rfl⟩
    have h2 := hsorted
    rw [Nat.add_zero] at h2
    exact h2
  | succ n ih =>
    intro l hlen hn hheap hsorted hbound
    set l1 := lswap l first (first + n) with hl1
    set l2 := siftDownAux (keyLt K) n first n l1 0 with hl2
    have hrw : heapPop (keyLt K) first l (n + 1) =
        heapPop (keyLt K) first l2 n := rfl
    rw [hrw]
    have hlen1 : l1.length = l.length := by rw [hl1]; exact lswap_length _ _ _
    have hlen2 : l2.length = l.length := by
      rw [hl2, siftDownAux_length]; exact hlen1
    have hfirstlt : first < l.length := by omega
    have hfnlt : first + n < l.length := by omega
    have hl1first : l1.getD first default = l.getD (first + n) default := by
      rw [hl1]; exact lswap_getD_left l _ _ hfirstlt hfnlt
    have hl1fn : l1.getD (first + n) default = l.getD first default := by
      rw [hl1]; exact lswap_getD_right l _ _ hfirstlt hfnlt
    have hl1o : ∀ t, t ≠ first → t ≠ first + n →
        l1.getD t default = l.getD t default := by
      intro t h1 h2
      rw [hl1]; exact lswap_getD_other l _ _ t h1 h2
    have hl2out : ∀ t, t < first ∨ first + n ≤ t →
        l2.getD t default = l1.getD t default := by
      intro t ht
      rw [hl2]
      rcases ht with h | h
      · exact siftDownAux_untouched _ _ _ _ _ _ _ (Or.inl h)
      · exact siftDownAux_untouched _ _ _ _ _ _ _ (Or.inr (Or.inl h))
    have hmax : ∀ j, j < n + 1 →
        K (l.getD (first + j) default) ≤ K (l.getD first default) :=
      heap_root_max K first (n + 1) l hheap
    have hheap2 : ∀ j, 1 ≤ j → j < n →
        K (l2.getD (first + j) default) ≤
          K (l2.getD (first + (j - 1) / 2) default) := by
      intro j h1 h2
      have hpre1 : ∀ i, 1 ≤ i → i < n → 0 < (i - 1) / 2 →
          K (l1.getD (first + i) default) ≤
            K (l1.getD (first + (i - 1) / 2) default) := by
        intro i hi1 hi2 hi3
        rw [hl1o (first + i) (by omega) (by omega),
          hl1o (first + (i - 1) / 2) (by omega) (by omega)]
        exact hheap i hi1 (by omega)
      have hres := siftDownAux_heap K n first n l1 0 (by omega) (by omega)
        hpre1 j h1 h2 (Nat.zero_le _)
      rw [hl2]
      exact hres
    have hsorted2 : SortedSeg K l2 (first + n) (first + hi0) := by
      intro p q hp hpq hq
      rw [hl2out p (Or.inr (by omega)), hl2out q (Or.inr (by omega))]
      by_cases hpn : p = first + n
      · rw [hpn, hl1fn, hl1o q (by omega) (by omega)]
        have hbv := hbound 0 (q - first) (by omega) (by omega) (by omega)
        rw [Nat.add_zero] at hbv
        rw [show first + (q - first) = q from by omega] at hbv
        exact hbv
      · rw [hl1o p (by omega) (by omega), hl1o q (by omega) (by omega)]
        exact hsorted p q (by omega) hpq hq
    have hbound2 : ∀ p q, p < n → n ≤ q → q < hi0 →
        K (l2.getD (first + p) default) ≤
          K (l2.getD (first + q) default) := by
      intro p q hp hq1 hq2
      set Cq := K (l2.getD (first + q) default) with hCq
      have hqv : l2.getD (first + q) default = l1.getD (first + q) default :=
        hl2out _ (Or.inr (by omega))
      have hqv2 : l1.getD (first + q) default =
          if q = n then l.getD first default
          else l.getD (first + q) default := by
        by_cases hqn : q = n
        · rw [if_pos hqn, hqn]; exact hl1fn
        · rw [if_neg hqn]; exact hl1o _ (by omega) (by omega)
      have hl1bound : ∀ t, first ≤ t → t < first + n →
          K (l1.getD t default) ≤ Cq := by
        intro t ht1 ht2
        by_cases htf : t = first
        · rw [htf, hl1first, hCq, hqv, hqv2]
          by_cases hqn : q = n
          · rw [if_pos hqn]
            exact hmax n (by omega)
          · rw [if_neg hqn]
            exact hbound n q (by omega) (by omega) hq2
        · rw [hl1o t htf (by omega), hCq, hqv, hqv2]
          have hlt : l.getD t default = l.getD (first + (t - first)) default := by
            rw [show first + (t - first) = t from by omega]
          rw [hlt]
          by_cases hqn : q = n
          · rw [if_pos hqn]
            exact hmax (t - first) (by omega)
          · rw [if_neg hqn]
            exact hbound (t - first) q (by omega) (by omega) hq2
      have hperm21 : l2.Perm l1 := by
        rw [hl2]; exact siftDownAux_perm _ _ _ _ _ _
      have hout12 : OutEq l1 l2 first (first + n) := by
        rw [hl2]; exact siftDownAux_outEq _ _ _ _ _ _
      have htrans := bound_transport (fun x => K x ≤ Cq)
        (show first + n ≤ l1.length from by omega) (by omega)
        hperm21 hout12 hl1bound
      exact htrans (first + p) (by omega) (by omega)
    obtain ⟨R1, R2, R3, R4⟩ := ih l2 (by omega) (by omega) hheap2 hsorted2
      hbound2
    have hperm1 : l1.Perm l := by rw [hl1]; exact lswap_perm _ _ _
    have hperm2 : l2.Perm l1 := by
      rw [hl2]; exact siftDownAux_perm _ _ _ _ _ _
    have hout1 : OutEq l l1 first (first + (n + 1)) := by
      rw [hl1]
      exact lswap_outEq l first (first + n) first (first + (n + 1)) le_rfl
        (by omega) (by omega) (by omega)
    have hout2 : OutEq l1 l2 first (first + (n + 1)) := by
      rw [hl2]
      exact outEq_mono le_rfl (by omega) (siftDownAux_outEq _ _ _ _ _ _)
    refine ⟨R1.trans (hperm2.trans hperm1), ?_, R3, by omega⟩
    exact outEq_comp (outEq_comp hout1 hout2)
      (outEq_mono le_rfl (by omega) R2)

/-- heapSort(data, a, b): a permutation confined to [a, b) that sorts
[a, b). -/
theorem heapSortGo_spec (K : α → ℚ) (l : List α) (a b : Nat)
    (hb : b ≤ l.length) (hab : a ≤ b) :
    (heapSortGo (keyLt K) l a b).Perm l ∧
    OutEq l (heapSortGo (keyLt K) l a b) a b ∧
    SortedSeg K (heapSortGo (keyLt K) l a b) a b ∧
    (heapSortGo (keyLt K) l a b).length = l.length := by
  unfold heapSortGo
  obtain ⟨B1, B2, B3, B4⟩ := heapBuild_spec K (b - a) a ((b - a - 1) / 2 + 1) l
    (by omega) (by
      intro i h1 h2 h3
      exfalso
      omega)
  set lh := heapBuild (keyLt K) (b - a) a l ((b - a - 1) / 2 + 1) with hlh
  obtain ⟨P1, P2, P3, P4⟩ := heapPop_spec K a (b - a) (b - a) lh (by omega)
    le_rfl
    (by intro j h1 h2; exact B1 j h1 h2)
    (by intro i j h1 h2 h3; exfalso; omega)
    (by intro p q hp hq1 hq2; exfalso; omega)
  have habe : a + (b - a) = b := by omega
  rw [habe] at P2 P3
  rw [habe] at B3
  exact ⟨P1.trans B2, outEq_comp B3 P2, P3, P4.trans B4⟩

/-! ### medianOfThree -/

theorem keyLt_not_true {K : α → ℚ} {x y : α} (h : ¬ keyLt K x y = true) :
    K y ≤ K x := by
  cases hb : keyLt K x y
  · exact keyLt_false.mp hb
  · exact absurd hb h

/-- medianOfThree permutes the list, touches only its three indices and
keeps the length. -/
theorem medianOfThree_basic (lt : α → α → Bool) (l : List α)
    (m1 m0 m2 a b : Nat) (ha1 : a ≤ m1) (hb1 : m1 < b) (ha0 : a ≤ m0)
    (hb0 : m0 < b) (ha2 : a ≤ m2) (hb2 : m2 < b) :
    (medianOfThree lt l m1 m0 m2).Perm l ∧
    OutEq l (medianOfThree lt l m1 m0 m2) a b ∧
    (medianOfThree lt l m1 m0 m2).length = l.length := by
  have swapb : ∀ (z : List α) (i j : Nat), a ≤ i → i < b → a ≤ j → j < b →
      (lswap z i j).Perm z ∧ OutEq z (lswap z i j) a b ∧
      (lswap z i j).length = z.length := by
    intro z i j hi hib hj hjb
    exact ⟨lswap_perm z i j, lswap_outEq z i j a b hi hib hj hjb,
      lswap_length z i j⟩
  have comp : ∀ {x y z : List α},
      y.Perm x ∧ OutEq x y a b ∧ y.length = x.length →
      z.Perm y ∧ OutEq y z a b ∧ z.length = y.length →
      z.Perm x ∧ OutEq x z a b ∧ z.length = x.length := by
    intro x y z hxy hyz
    exact ⟨hyz.1.trans hxy.1, outEq_comp hxy.2.1 hyz.2.1,
      hyz.2.2.trans hxy.2.2⟩
  have idt : ∀ z : List α, z.Perm z ∧ OutEq z z a b ∧ z.length = z.length :=
    fun z => ⟨List.Perm.refl z, outEq_refl z a b, rfl⟩
  simp only [medianOfThree]
  by_cases c1 : lt (l.getD m1 default) (l.getD m0 default) = true
  · rw [if_pos c1]
    by_cases c2 : lt ((lswap l m1 m0).getD m2 default)
        ((lswap l m1 m0).getD m1 default) = true
    · rw [if_pos c2]
      by_cases c3 : lt ((lswap (lswap l m1 m0) m2 m1).getD m1 default)
          ((lswap (lswap l m1 m0) m2 m1).getD m0 default) = true
      · rw [if_pos c3]
        exact comp (comp (swapb l m1 m0 ha1 hb1 ha0 hb0)
            (swapb _ m2 m1 ha2 hb2 ha1 hb1))
          (swapb _ m1 m0 ha1 hb1 ha0 hb0)
      · rw [if_neg c3]
        exact comp (swapb l m1 m0 ha1 hb1 ha0 hb0)
          (swapb _ m2 m1 ha2 hb2 ha1 hb1)
    · rw [if_neg c2]
      exact swapb l m1 m0 ha1 hb1 ha0 hb0
  · rw [if_neg c1]
    by_cases c2 : lt (l.getD m2 default) (l.getD m1 default) = true
    · rw [if_pos c2]
      by_cases c3 : lt ((lswap l m2 m1).getD m1 default)
          ((lswap l m2 m1).getD m0 default) = true
      · rw [if_pos c3]
        exact comp (comp (idt l) (swapb l m2 m1 ha2 hb2 ha1 hb1))
          (swapb _ m1 m0 ha1 hb1 ha0 hb0)
      · rw [if_neg c3]
        exact swapb l m2 m1 ha2 hb2 ha1 hb1
    · rw [if_neg c2]
      exact idt l

/-- The last two comparisons of medianOfThree, starting from a state where
the m0 element is already at most the m1 element. -/
theorem medianOfThree_tail (K : α → ℚ) (z : List α) (m1 m0 m2 : Nat)
    (hl1 : m1 < z.length) (hl0 : m0 < z.length) (hl2 : m2 < z.length)
    (h10 : m1 ≠ m0) (h12 : m1 ≠ m2) (h02 : m0 ≠ m2)
    (hA : K (z.getD m0 default) ≤ K (z.getD m1 default)) :
    K ((if keyLt K (z.getD m2 default) (z.getD m1 default) = true then
        if keyLt K ((lswap z m2 m1).getD m1 default)
            ((lswap z m2 m1).getD m0 default) = true then
          lswap (lswap z m2 m1) m1 m0
        else lswap z m2 m1
      else z).getD m0 default) ≤
    K ((if keyLt K (z.getD m2 default) (z.getD m1 default) = true then
        if keyLt K ((lswap z m2 m1).getD m1 default)
            ((lswap z m2 m1).getD m0 default) = true then
          lswap (lswap z m2 m1) m1 m0
        else lswap z m2 m1
      else z).getD m1 default) ∧
    K ((if keyLt K (z.getD m2 default) (z.getD m1 default) = true then
        if keyLt K ((lswap z m2 m1).getD m1 default)
            ((lswap z m2 m1).getD m0 default) = true then
          lswap (lswap z m2 m1) m1 m0
        else lswap z m2 m1
      else z).getD m1 default) ≤
    K ((if keyLt K (z.getD m2 default) (z.getD m1 default) = true then
        if keyLt K ((lswap z m2 m1).getD m1 default)
            ((lswap z m2 m1).getD m0 default) = true then
          lswap (lswap z m2 m1) m1 m0
        else lswap z m2 m1
      else z).getD m2 default) := by
  by_cases c2 : keyLt K (z.getD m2 default) (z.getD m1 default) = true
  · rw [if_pos c2]
    have hc2 : K (z.getD m2 default) < K (z.getD m1 default) :=
      keyLt_true.mp c2
    set w := lswap z m2 m1 with hw
    have f1 : w.getD m1 default = z.getD m2 default := by
      rw [hw]; exact lswap_getD_right z m2 m1 hl2 hl1
    have f2 : w.getD m2 default = z.getD m1 default := by
      rw [hw]; exact lswap_getD_left z m2 m1 hl2 hl1
    have f0 : w.getD m0 default = z.getD m0 default := by
      rw [hw]; exact lswap_getD_other z m2 m1 m0 h02 (Ne.symm h10)
    have hwlen : w.length = z.length := by
      rw [hw]; exact lswap_length _ _ _
    by_cases c3 : keyLt K (w.getD m1 default) (w.getD m0 default) = true
    · rw [if_pos c3]
      have hc3 : K (w.getD m1 default) < K (w.getD m0 default) :=
        keyLt_true.mp c3
      have g0 : (lswap w m1 m0).getD m0 default = w.getD m1 default :=
        lswap_getD_right w m1 m0 (by omega) (by omega)
      have g1 : (lswap w m1 m0).getD m1 default = w.getD m0 default :=
        lswap_getD_left w m1 m0 (by omega) (by omega)
      have g2 : (lswap w m1 m0).getD m2 default = w.getD m2 default :=
        lswap_getD_other w m1 m0 m2 (Ne.symm h12) (Ne.symm h02)
      constructor
      · rw [g0, g1]
        exact le_of_lt hc3
      · rw [g1, g2, f0, f2]
        exact hA
    · rw [if_neg c3]
      have hc3 : K (w.getD m0 default) ≤ K (w.getD m1 default) :=
        keyLt_not_true c3
      constructor
      · exact hc3
      · rw [f1, f2]
        exact le_of_lt hc2
  · rw [if_neg c2]
    exact ⟨hA, keyLt_not_true c2⟩

/-- medianOfThree(data, m1, m0, m2) orders the three elements so that
data[m0] <= data[m1] <= data[m2]. -/
theorem medianOfThree_order (K : α → ℚ) (l : List α) (m1 m0 m2 : Nat)
    (hl1 : m1 < l.length) (hl0 : m0 < l.length) (hl2 : m2 < l.length)
    (h10 : m1 ≠ m0) (h12 : m1 ≠ m2) (h02 : m0 ≠ m2) :
    K ((medianOfThree (keyLt K) l m1 m0 m2).getD m0 default) ≤
      K ((medianOfThree (keyLt K) l m1 m0 m2).getD m1 default) ∧
    K ((medianOfThree (keyLt K) l m1 m0 m2).getD m1 default) ≤
      K ((medianOfThree (keyLt K) l m1 m0 m2).getD m2 default) := by
  simp only [medianOfThree]
  by_cases c1 : keyLt K (l.getD m1 default) (l.getD m0 default) = true
  · rw [if_pos c1]
    exact medianOfThree_tail K (lswap l m1 m0) m1 m0 m2
      (by rw [lswap_length]; exact hl1) (by rw [lswap_length]; exact hl0)
      (by rw [lswap_length]; exact hl2) h10 h12 h02
      (by
        rw [lswap_getD_right l m1 m0 hl1 hl0, lswap_getD_left l m1 m0 hl1 hl0]
        exact le_of_lt (keyLt_true.mp c1))
  · rw [if_neg c1]
    exact medianOfThree_tail K l m1 m0 m2 hl1 hl0 hl2 h10 h12 h02
      (keyLt_not_true c1)

/-! ### The doPivot scan loops -/

/-- The initial advance of a: scans elements strictly below the pivot. -/
theorem dpAdvanceA_spec (K : α → ℚ) (l : List α) (pivot c : Nat) :
    ∀ (fuel a : Nat), c - a ≤ fuel →
    a ≤ dpAdvanceA (keyLt K) l pivot c fuel a ∧
    (a ≤ c → dpAdvanceA (keyLt K) l pivot c fuel a ≤ c) ∧
    (∀ k, a ≤ k → k < dpAdvanceA (keyLt K) l pivot c fuel a →
      K (l.getD k default) < K (l.getD pivot default)) ∧
    (dpAdvanceA (keyLt K) l pivot c fuel a < c →
      K (l.getD pivot default) ≤
        K (l.getD (dpAdvanceA (keyLt K) l pivot c fuel a) default)) := by
  intro fuel
  induction fuel with
  | zero =>
    intro a hf
    simp only [dpAdvanceA]
    exact ⟨le_rfl, fun h => h, by intro k h1 h2; exfalso; omega,
      by intro h; exfalso; omega⟩
  | succ n ih =>
    intro a hf
    by_cases hg : a < c ∧
        keyLt K (l.getD a default) (l.getD pivot default) = true
    · rw [dpAdvanceA, if_pos hg]
      obtain ⟨I1, I2, I3, I4⟩ := ih (a + 1) (by omega)
      refine ⟨by omega, fun _ => I2 (by omega), ?_, I4⟩
      intro k h1 h2
      by_cases hk : k = a
      · rw [hk]
        exact keyLt_true.mp hg.2
      · exact I3 k (by omega) h2
    · rw [dpAdvanceA, if_neg hg]
      refine ⟨le_rfl, fun h => h, by intro k h1 h2; exfalso; omega, ?_⟩
      intro hlt
      have hkf : keyLt K (l.getD a default) (l.getD pivot default) = false := by
        cases hb : keyLt K (l.getD a default) (l.getD pivot default)
        · rfl
        · exact absurd ⟨hlt, hb⟩ hg
      exact keyLt_false.mp hkf

/-- The b advance: scans elements not above the pivot. -/
theorem dpBAdvance_spec (K : α → ℚ) (l : List α) (pivot c : Nat) :
    ∀ (fuel b : Nat), c - b ≤ fuel →
    b ≤ dpBAdvance (keyLt K) l pivot c fuel b ∧
    (b ≤ c → dpBAdvance (keyLt K) l pivot c fuel b ≤ c) ∧
    (∀ k, b ≤ k → k < dpBAdvance (keyLt K) l pivot c fuel b →
      K (l.getD k default) ≤ K (l.getD pivot default)) ∧
    (dpBAdvance (keyLt K) l pivot c fuel b < c →
      K (l.getD pivot default) <
        K (l.getD (dpBAdvance (keyLt K) l pivot c fuel b) default)) := by
  intro fuel
  induction fuel with
  | zero =>
    intro b hf
    simp only [dpBAdvance]
    exact ⟨le_rfl, fun h => h, by intro k h1 h2; exfalso; omega,
      by intro h; exfalso; omega⟩
  | succ n ih =>
    intro b hf
    by_cases hg : b < c ∧
        ¬ keyLt K (l.getD pivot default) (l.getD b default) = true
    · rw [dpBAdvance, if_pos hg]
      obtain ⟨I1, I2, I3, I4⟩ := ih (b + 1) (by omega)
      refine ⟨by omega, fun _ => I2 (by omega), ?_, I4⟩
      intro k h1 h2
      by_cases hk : k = b
      · rw [hk]
        exact keyLt_not_true hg.2
      · exact I3 k (by omega) h2
    · rw [dpBAdvance, if_neg hg]
      refine ⟨le_rfl, fun h => h, by intro k h1 h2; exfalso; omega, ?_⟩
      intro hlt
      cases hb : keyLt K (l.getD pivot default) (l.getD b default)
      · exact absurd ⟨hlt, by rw [hb]; exact Bool.false_ne_true⟩ hg
      · exact keyLt_true.mp hb

/-- The c retreat: scans elements strictly above the pivot from the right
edge. -/
theorem dpCRetreat_spec (K : α → ℚ) (l : List α) (pivot b : Nat) :
    ∀ (fuel c : Nat), c - b ≤ fuel →
    dpCRetreat (keyLt K) l pivot b fuel c ≤ c ∧
    (b ≤ c → b ≤ dpCRetreat (keyLt K) l pivot b fuel c) ∧
    (∀ k, dpCRetreat (keyLt K) l pivot b fuel c ≤ k → k < c →
      K (l.getD pivot default) < K (l.getD k default)) ∧
    (b < dpCRetreat (keyLt K) l pivot b fuel c →
      K (l.getD (dpCRetreat (keyLt K) l pivot b fuel c - 1) default) ≤
        K (l.getD pivot default)) := by
  intro fuel
  induction fuel with
  | zero =>
    intro c hf
    simp only [dpCRetreat]
    exact ⟨le_rfl, fun h => h, by intro k h1 h2; exfalso; omega,
      by intro h; exfalso; omega⟩
  | succ n ih =>
    intro c hf
    by_cases hg : b < c ∧
        keyLt K (l.getD pivot default) (l.getD (c - 1) default) = true
    · rw [dpCRetreat, if_pos hg]
      obtain ⟨I1, I2, I3, I4⟩ := ih (c - 1) (by omega)
      refine ⟨by omega, fun _ => I2 (by omega), ?_, I4⟩
      intro k h1 h2
      by_cases hk : k = c - 1
      · rw [hk]
        exact keyLt_true.mp hg.2
      · exact I3 k h1 (by omega)
    · rw [dpCRetreat, if_neg hg]
      refine ⟨le_rfl, fun h => h, by intro k h1 h2; exfalso; omega, ?_⟩
      intro hlt
      have hkf : keyLt K (l.getD pivot default)
          (l.getD (c - 1) default) = false := by
        cases hb : keyLt K (l.getD pivot default) (l.getD (c - 1) default)
        · rfl
        · exact absurd ⟨hlt, hb⟩ hg
      exact keyLt_false.mp hkf

/-- The protect loop's b retreat: scans elements not below the pivot from
the right edge; also, it does not move when b is already at or below a. -/
theorem dpProtectB_spec (K : α → ℚ) (l : List α) (pivot a : Nat) :
    ∀ (fuel b : Nat), b - a ≤ fuel →
    dpProtectB (keyLt K) l pivot a fuel b ≤ b ∧
    (a ≤ b → a ≤ dpProtectB (keyLt K) l pivot a fuel b) ∧
    (∀ k, dpProtectB (keyLt K) l pivot a fuel b ≤ k → k < b →
      K (l.getD pivot default) ≤ K (l.getD k default)) ∧
    (a < dpProtectB (keyLt K) l pivot a fuel b →
      K (l.getD (dpProtectB (keyLt K) l pivot a fuel b - 1) default) <
        K (l.getD pivot default)) ∧
    (b ≤ a → dpProtectB (keyLt K) l pivot a fuel b = b) := by
  intro fuel
  induction fuel with
  | zero =>
    intro b hf
    simp only [dpProtectB]
    exact ⟨le_rfl, fun h => h, by intro k h1 h2; exfalso; omega,
      by intro h; exfalso; omega, fun _ => trivial⟩
  | succ n ih =>
    intro b hf
    by_cases hg : a < b ∧
        ¬ keyLt K (l.getD (b - 1) default) (l.getD pivot default) = true
    · rw [dpProtectB, if_pos hg]
      obtain ⟨I1, I2, I3, I4, I5⟩ := ih (b - 1) (by omega)
      refine ⟨by omega, ?_, ?_, I4, by intro h; exfalso; omega⟩
      · intro h
        by_cases hab : a ≤ b - 1
        · exact I2 hab
        · have := I5 (by omega)
          omega
      · intro k h1 h2
        by_cases hk : k = b - 1
        · rw [hk]
          exact keyLt_not_true hg.2
        · exact I3 k h1 (by omega)
    · rw [dpProtectB, if_neg hg]
      refine ⟨le_rfl, fun h => h, by intro k h1 h2; exfalso; omega, ?_,
        fun _ => rfl⟩
      intro hlt
      cases hb : keyLt K (l.getD (b - 1) default) (l.getD pivot default)
      · exact absurd ⟨hlt, by rw [hb]; exact Bool.false_ne_true⟩ hg
      · exact keyLt_true.mp hb

/-- The protect loop's a advance: scans elements strictly below the
pivot; it does not move when a is already at or beyond b. -/
theorem dpProtectA_spec (K : α → ℚ) (l : List α) (pivot b : Nat) :
    ∀ (fuel a : Nat), b - a ≤ fuel →
    a ≤ dpProtectA (keyLt K) l pivot b fuel a ∧
    (a ≤ b → dpProtectA (keyLt K) l pivot b fuel a ≤ b) ∧
    (∀ k, a ≤ k → k < dpProtectA (keyLt K) l pivot b fuel a →
      K (l.getD k default) < K (l.getD pivot default)) ∧
    (dpProtectA (keyLt K) l pivot b fuel a < b →
      K (l.getD pivot default) ≤
        K (l.getD (dpProtectA (keyLt K) l pivot b fuel a) default)) ∧
    (b ≤ a → dpProtectA (keyLt K) l pivot b fuel a = a) := by
  intro fuel
  induction fuel with
  | zero =>
    intro a hf
    simp only [dpProtectA]
    exact ⟨le_rfl, fun h => h, by intro k h1 h2; exfalso; omega,
      by intro h; exfalso; omega, fun _ => trivial⟩
  | succ n ih =>
    intro a hf
    by_cases hg : a < b ∧
        keyLt K (l.getD a default) (l.getD pivot default) = true
    · rw [dpProtectA, if_pos hg]
      obtain ⟨I1, I2, I3, I4, I5⟩ := ih (a + 1) (by omega)
      refine ⟨by omega, fun _ => I2 (by omega), ?_, I4,
        by intro h; exfalso; omega⟩
      intro k h1 h2
      by_cases hk : k = a
      · rw [hk]
        exact keyLt_true.mp hg.2
      · exact I3 k (by omega) h2
    · rw [dpProtectA, if_neg hg]
      refine ⟨le_rfl, fun h => h, by intro k h1 h2; exfalso; omega, ?_,
        fun _ => rfl⟩
      intro hlt
      have hkf : keyLt K (l.getD a default) (l.getD pivot default) = false := by
        cases hb : keyLt K (l.getD a default) (l.getD pivot default)
        · rfl
        · exact absurd ⟨hlt, hb⟩ hg
      exact keyLt_false.mp hkf

/-- The main partition loop: starting with [aa, b) at most the pivot and
[c, hi1) above it, it exits with b = c, having permuted only [aa, hi1). -/
theorem dpMainLoop_spec (K : α → ℚ) (pivot : Nat) (pv : ℚ) (aa hi1 : Nat) :
    ∀ (fuel : Nat) (l : List α) (b c : Nat),
    c - b ≤ fuel → aa ≤ b → b ≤ c → c ≤ hi1 → hi1 ≤ l.length →
    pivot < aa → K (l.getD pivot default) = pv →
    (∀ k, aa ≤ k → k < b → K (l.getD k default) ≤ pv) →
    (∀ k, c ≤ k → k < hi1 → pv < K (l.getD k default)) →
    (dpMainLoop (keyLt K) pivot fuel l b c).1.Perm l ∧
    OutEq l (dpMainLoop (keyLt K) pivot fuel l b c).1 aa hi1 ∧
    (dpMainLoop (keyLt K) pivot fuel l b c).1.length = l.length ∧
    (dpMainLoop (keyLt K) pivot fuel l b c).2.1 =
      (dpMainLoop (keyLt K) pivot fuel l b c).2.2 ∧
    b ≤ (dpMainLoop (keyLt K) pivot fuel l b c).2.1 ∧
    (dpMainLoop (keyLt K) pivot fuel l b c).2.1 ≤ c ∧
    (∀ k, aa ≤ k → k < (dpMainLoop (keyLt K) pivot fuel l b c).2.1 →
      K ((dpMainLoop (keyLt K) pivot fuel l b c).1.getD k default) ≤ pv) ∧
    (∀ k, (dpMainLoop (keyLt K) pivot fuel l b c).2.2 ≤ k → k < hi1 →
      pv < K ((dpMainLoop (keyLt K) pivot fuel l b c).1.getD k default)) := by
  intro fuel
  induction fuel with
  | zero =>
    intro l b c hf hab hbc hch hlen hpa hpv HL HR
    have hbceq : b = c := by omega
    simp only [dpMainLoop]
    exact ⟨List.Perm.refl l, outEq_refl l aa hi1, trivial, hbceq, le_rfl,
      hbc, HL, HR⟩
  | succ n ih =>
    intro l b c hf hab hbc hch hlen hpa hpv HL HR
    simp only [dpMainLoop]
    set b1 := dpBAdvance (keyLt K) l pivot c (c - b) b with hb1e
    clear_value b1
    set c1 := dpCRetreat (keyLt K) l pivot b1 (c - b1) c with hc1e
    clear_value c1
    obtain ⟨A1, A2, A3, A4⟩ := dpBAdvance_spec K l pivot c (c - b) b le_rfl
    rw [← hb1e] at A1 A2 A3 A4
    obtain ⟨B1, B2, B3, B4⟩ := dpCRetreat_spec K l pivot b1 (c - b1) c le_rfl
    rw [← hc1e] at B1 B2 B3 B4
    have hb1c : b1 ≤ c := A2 hbc
    have hb1c1 : b1 ≤ c1 := B2 hb1c
    by_cases hexit : b1 ≥ c1
    · rw [if_pos hexit]
      dsimp only
      have hbeq : b1 = c1 := by omega
      refine ⟨List.Perm.refl l, outEq_refl l aa hi1, rfl, hbeq, A1,
        by omega, ?_, ?_⟩
      · intro k h1 h2
        by_cases hk : k < b
        · exact HL k h1 hk
        · have := A3 k (by omega) h2
          rw [hpv] at this
          exact this
      · intro k h1 h2
        by_cases hk : c ≤ k
        · exact HR k hk h2
        · have := B3 k h1 (by omega)
          rw [hpv] at this
          exact this
    · rw [if_neg hexit]
      have hb1lt : b1 < c1 := by omega
      have hb1ltc : b1 < c := by omega
      have hExb : pv < K (l.getD b1 default) := by
        have := A4 hb1ltc
        rw [hpv] at this
        exact this
      have hExc : K (l.getD (c1 - 1) default) ≤ pv := by
        have := B4 (by omega)
        rw [hpv] at this
        exact this
      have hlt2 : b1 < c1 - 1 := by
        by_contra h
        have hbe : b1 = c1 - 1 := by omega
        rw [hbe] at hExb
        linarith
      set l2 := lswap l b1 (c1 - 1) with hl2
      have hlen2 : hi1 ≤ l2.length := by
        rw [hl2, lswap_length]; exact hlen
      have hv1 : l2.getD b1 default = l.getD (c1 - 1) default := by
        rw [hl2]
        exact lswap_getD_left l _ _ (by omega) (by omega)
      have hv2 : l2.getD (c1 - 1) default = l.getD b1 default := by
        rw [hl2]
        exact lswap_getD_right l _ _ (by omega) (by omega)
      have hvo : ∀ t, t ≠ b1 → t ≠ c1 - 1 →
          l2.getD t default = l.getD t default := by
        intro t h1 h2
        rw [hl2]
        exact lswap_getD_other l _ _ t h1 h2
      have hpv2 : K (l2.getD pivot default) = pv := by
        rw [hvo pivot (by omega) (by omega)]
        exact hpv
      obtain ⟨I1, I2, I3, I4, I5, I6, I7, I8⟩ := ih l2 (b1 + 1) (c1 - 1)
        (by omega) (by omega) (by omega) (by omega) hlen2 hpa hpv2
        (by
          intro k h1 h2
          by_cases hk : k = b1
          · rw [hk, hv1]
            exact hExc
          · rw [hvo k hk (by omega)]
            by_cases hkb : k < b
            · exact HL k h1 hkb
            · have := A3 k (by omega) (by omega)
              rw [hpv] at this
              exact this)
        (by
          intro k h1 h2
          by_cases hk : k = c1 - 1
          · rw [hk, hv2]
            exact hExb
          · rw [hvo k (by omega) hk]
            by_cases hkc : c ≤ k
            · exact HR k hkc h2
            · have := B3 k (by omega) (by omega)
              rw [hpv] at this
              exact this)
      have hswap_perm : l2.Perm l := by
        rw [hl2]; exact lswap_perm l _ _
      have hswap_out : OutEq l l2 aa hi1 := by
        rw [hl2]
        exact lswap_outEq l b1 (c1 - 1) aa hi1 (by omega) (by omega)
          (by omega) (by omega)
      exact ⟨I1.trans hswap_perm, outEq_comp hswap_out I2,
        I3.trans (by rw [hl2]; exact lswap_length l _ _), I4, by omega,
        by omega, I7, I8⟩

/-- The duplicate-protection loop: gathers the pivot-equal elements of
[a, b) at its right end; on exit everything in [lo1, b') is strictly
below the pivot and everything in [b', B0) equals it. -/
theorem dpProtectLoop_spec (K : α → ℚ) (pivot : Nat) (pv : ℚ)
    (lo1 B0 : Nat) :
    ∀ (fuel : Nat) (l : List α) (a b : Nat),
    b - a ≤ fuel → lo1 ≤ a → lo1 ≤ b → b ≤ B0 → B0 ≤ l.length →
    pivot < lo1 → K (l.getD pivot default) = pv →
    (∀ k, lo1 ≤ k → k < a → k < b → K (l.getD k default) < pv) →
    (∀ k, a ≤ k → k < b → K (l.getD k default) ≤ pv) →
    (∀ k, b ≤ k → k < B0 → K (l.getD k default) = pv) →
    (dpProtectLoop (keyLt K) pivot fuel l a b).1.Perm l ∧
    OutEq l (dpProtectLoop (keyLt K) pivot fuel l a b).1 lo1 B0 ∧
    (dpProtectLoop (keyLt K) pivot fuel l a b).1.length = l.length ∧
    lo1 ≤ (dpProtectLoop (keyLt K) pivot fuel l a b).2.2 ∧
    (dpProtectLoop (keyLt K) pivot fuel l a b).2.2 ≤ B0 ∧
    (∀ k, lo1 ≤ k → k < (dpProtectLoop (keyLt K) pivot fuel l a b).2.2 →
      K ((dpProtectLoop (keyLt K) pivot fuel l a b).1.getD k default) < pv) ∧
    (∀ k, (dpProtectLoop (keyLt K) pivot fuel l a b).2.2 ≤ k → k < B0 →
      K ((dpProtectLoop (keyLt K) pivot fuel l a b).1.getD k default) = pv) := by
  intro fuel
  induction fuel with
  | zero =>
    intro l a b hf hla hlb hbB hlen hpa hpv H1 H2 H3
    simp only [dpProtectLoop]
    exact ⟨List.Perm.refl l, outEq_refl l lo1 B0, trivial, hlb, hbB,
      fun k hk1 hk2 => H1 k hk1 (by omega) hk2, H3⟩
  | succ n ih =>
    intro l a b hf hla hlb hbB hlen hpa hpv H1 H2 H3
    simp only [dpProtectLoop]
    set b1 := dpProtectB (keyLt K) l pivot a (b - a) b with hb1e
    clear_value b1
    set a1 := dpProtectA (keyLt K) l pivot b1 (b1 - a) a with ha1e
    clear_value a1
    obtain ⟨P1, P2, P3, P4, P5⟩ := dpProtectB_spec K l pivot a (b - a) b le_rfl
    rw [← hb1e] at P1 P2 P3 P4 P5
    obtain ⟨Q1, Q2, Q3, Q4, Q5⟩ := dpProtectA_spec K l pivot b1 (b1 - a) a
      le_rfl
    rw [← ha1e] at Q1 Q2 Q3 Q4 Q5
    by_cases hexit : a1 ≥ b1
    · rw [if_pos hexit]
      dsimp only
      have hb1lo : lo1 ≤ b1 := by
        by_cases hab : a ≤ b
        · have := P2 hab
          omega
        · have := P5 (by omega)
          omega
      refine ⟨List.Perm.refl l, outEq_refl l lo1 B0, rfl, hb1lo,
        by omega, ?_, ?_⟩
      · intro k hk1 hk2
        by_cases hka : k < a
        · exact H1 k hk1 hka (by omega)
        · have := Q3 k (by omega) (by omega)
          rw [hpv] at this
          exact this
      · intro k hk1 hk2
        by_cases hkb : b ≤ k
        · exact H3 k hkb hk2
        · -- k in [b1, b): at least pv from the scan, at most pv from H2
          have hge : pv ≤ K (l.getD k default) := by
            have := P3 k hk1 (by omega)
            rw [hpv] at this
            exact this
          have hle : K (l.getD k default) ≤ pv := by
            by_cases hab : a ≤ b
            · exact H2 k (by omega) (by omega)
            · have := P5 (by omega)
              omega
          exact le_antisymm hle hge
    · rw [if_neg hexit]
      have ha1b1 : a1 < b1 := by omega
      have hab : a < b := by
        by_contra h
        have := P5 (by omega)
        have := Q5 (by omega)
        omega
      have hb1a : a ≤ b1 := P2 (by omega)
      have hva1 : K (l.getD a1 default) = pv := by
        have hge : pv ≤ K (l.getD a1 default) := by
          have := Q4 ha1b1
          rw [hpv] at this
          exact this
        have hle : K (l.getD a1 default) ≤ pv :=
          H2 a1 Q1 (by omega)
        exact le_antisymm hle hge
      have hvb1 : K (l.getD (b1 - 1) default) < pv := by
        have := P4 (by omega)
        rw [hpv] at this
        exact this
      have hlt2 : a1 < b1 - 1 := by
        by_contra h
        have hbe : a1 = b1 - 1 := by omega
        rw [hbe] at hva1
        linarith
      set l2 := lswap l a1 (b1 - 1) with hl2
      have hlen2 : B0 ≤ l2.length := by
        rw [hl2, lswap_length]; exact hlen
      have hv1 : l2.getD a1 default = l.getD (b1 - 1) default := by
        rw [hl2]
        exact lswap_getD_left l _ _ (by omega) (by omega)
      have hv2 : l2.getD (b1 - 1) default = l.getD a1 default := by
        rw [hl2]
        exact lswap_getD_right l _ _ (by omega) (by omega)
      have hvo : ∀ t, t ≠ a1 → t ≠ b1 - 1 →
          l2.getD t default = l.getD t default := by
        intro t h1 h2
        rw [hl2]
        exact lswap_getD_other l _ _ t h1 h2
      have hpv2 : K (l2.getD pivot default) = pv := by
        rw [hvo pivot (by omega) (by omega)]
        exact hpv
      obtain ⟨I1, I2, I3, I4, I5, I6, I7⟩ := ih l2 (a1 + 1) (b1 - 1)
        (by omega) (by omega) (by omega) (by omega) hlen2 hpa hpv2
        (by
          intro k hk1 hk2 hk3
          by_cases hk : k = a1
          · rw [hk, hv1]
            exact hvb1
          · rw [hvo k hk (by omega)]
            by_cases hka : k < a
            · exact H1 k hk1 hka (by omega)
            · exact Q3 k (by omega) (by omega) |>.trans_le (by rw [hpv])
        )
        (by
          intro k hk1 hk2
          rw [hvo k (by omega) (by omega)]
          exact H2 k (by omega) (by omega))
        (by
          intro k hk1 hk2
          by_cases hk : k = b1 - 1
          · rw [hk, hv2]
            exact hva1
          · rw [hvo k (by omega) hk]
            by_cases hkb : b ≤ k
            · exact H3 k hkb hk2
            · have hge : pv ≤ K (l.getD k default) := by
                have := P3 k (by omega) (by omega)
                rw [hpv] at this
                exact this
              have hle : K (l.getD k default) ≤ pv :=
                H2 k (by omega) (by omega)
              exact le_antisymm hle hge)
      have hswap_perm : l2.Perm l := by
        rw [hl2]; exact lswap_perm l _ _
      have hswap_out : OutEq l l2 lo1 B0 := by
        rw [hl2]
        exact lswap_outEq l a1 (b1 - 1) lo1 B0 (by omega) (by omega)
          (by omega) (by omega)
      exact ⟨I1.trans hswap_perm, outEq_comp hswap_out I2,
        I3.trans (by rw [hl2]; exact lswap_length l _ _), I4, I5, I6, I7⟩

/-- The final step of doPivot: swapping the pivot into position b4 - 1
yields the three-region partition (midlo, midhi) = (b4 - 1, c3). -/
theorem doPivot_finish (K : α → ℚ) (lo hi : Nat) (pv : ℚ)
    (l3 l4 : List α) (b4 c3 : Nat)
    (hlo1b : lo + 1 ≤ b4) (hb4c : b4 ≤ c3) (hch : c3 ≤ hi)
    (hlen4 : hi ≤ l4.length)
    (hperm : l4.Perm l3) (hout : OutEq l3 l4 lo hi)
    (hlen34 : l4.length = l3.length)
    (hpv4 : K (l4.getD lo default) = pv)
    (HL : ∀ k, lo + 1 ≤ k → k < b4 → K (l4.getD k default) ≤ pv)
    (HM : ∀ k, b4 ≤ k → k < c3 → K (l4.getD k default) = pv)
    (HR : ∀ k, c3 ≤ k → k < hi → pv ≤ K (l4.getD k default)) :
    (lswap l4 lo (b4 - 1)).Perm l3 ∧
    OutEq l3 (lswap l4 lo (b4 - 1)) lo hi ∧
    (lswap l4 lo (b4 - 1)).length = l3.length ∧
    lo ≤ b4 - 1 ∧ b4 - 1 < c3 ∧
    (∀ k, lo ≤ k → k < b4 - 1 →
      K ((lswap l4 lo (b4 - 1)).getD k default) ≤ pv) ∧
    (∀ k, b4 - 1 ≤ k → k < c3 →
      K ((lswap l4 lo (b4 - 1)).getD k default) = pv) ∧
    (∀ k, c3 ≤ k → k < hi →
      pv ≤ K ((lswap l4 lo (b4 - 1)).getD k default)) := by
  have hv1 : (lswap l4 lo (b4 - 1)).getD lo default =
      l4.getD (b4 - 1) default :=
    lswap_getD_left l4 lo (b4 - 1) (by omega) (by omega)
  have hv2 : (lswap l4 lo (b4 - 1)).getD (b4 - 1) default =
      l4.getD lo default :=
    lswap_getD_right l4 lo (b4 - 1) (by omega) (by omega)
  have hvo : ∀ t, t ≠ lo → t ≠ b4 - 1 →
      (lswap l4 lo (b4 - 1)).getD t default = l4.getD t default := by
    intro t h1 h2
    exact lswap_getD_other l4 lo (b4 - 1) t h1 h2
  have hb41 : K (l4.getD (b4 - 1) default) ≤ pv := by
    by_cases h : b4 - 1 = lo
    · rw [h, hpv4]
    · exact HL (b4 - 1) (by omega) (by omega)
  refine ⟨(lswap_perm l4 lo (b4 - 1)).trans hperm,
    outEq_comp hout (lswap_outEq l4 lo (b4 - 1) lo hi le_rfl (by omega)
      (by omega) (by omega)),
    (lswap_length l4 lo (b4 - 1)).trans hlen34, by omega, by omega,
    ?_, ?_, ?_⟩
  · intro k hk1 hk2
    by_cases hklo : k = lo
    · rw [hklo, hv1]
      exact hb41
    · rw [hvo k hklo (by omega)]
      exact HL k (by omega) (by omega)
  · intro k hk1 hk2
    by_cases hkb : k = b4 - 1
    · rw [hkb, hv2]
      by_cases h : b4 - 1 = lo
      · exact hpv4
      · exact hpv4
    · rw [hvo k (by omega) hkb]
      exact HM k (by omega) hk2
  · intro k hk1 hk2
    rw [hvo k (by omega) (by omega)]
    exact HR k hk1 hk2

/-- The ninther phase is a permutation confined to [lo, hi). -/
theorem doPivotNinther_basic (lt : α → α → Bool) (l : List α) (lo hi : Nat) :
    (doPivotNinther lt l lo hi).Perm l ∧
    OutEq l (doPivotNinther lt l lo hi) lo hi ∧
    (doPivotNinther lt l lo hi).length = l.length := by
  simp only [doPivotNinther]
  split
  · next h40 =>
    obtain ⟨A1, A2, A3⟩ := medianOfThree_basic lt l lo (lo + (hi - lo) / 8)
      (lo + 2 * ((hi - lo) / 8)) lo hi le_rfl (by omega) (by omega)
      (by omega) (by omega) (by omega)
    obtain ⟨B1, B2, B3⟩ := medianOfThree_basic lt
      (medianOfThree lt l lo (lo + (hi - lo) / 8) (lo + 2 * ((hi - lo) / 8)))
      ((lo + hi) / 2) ((lo + hi) / 2 - (hi - lo) / 8)
      ((lo + hi) / 2 + (hi - lo) / 8) lo hi (by omega) (by omega) (by omega)
      (by omega) (by omega) (by omega)
    obtain ⟨C1, C2, C3⟩ := medianOfThree_basic lt
      (medianOfThree lt
        (medianOfThree lt l lo (lo + (hi - lo) / 8) (lo + 2 * ((hi - lo) / 8)))
        ((lo + hi) / 2) ((lo + hi) / 2 - (hi - lo) / 8)
        ((lo + hi) / 2 + (hi - lo) / 8))
      (hi - 1) (hi - 1 - (hi - lo) / 8) (hi - 1 - 2 * ((hi - lo) / 8)) lo hi
      (by omega) (by omega) (by omega) (by omega) (by omega) (by omega)
    exact ⟨C1.trans (B1.trans A1), outEq_comp (outEq_comp A2 B2) C2,
      C3.trans (B3.trans A3)⟩
  · exact ⟨List.Perm.refl l, outEq_refl l lo hi, rfl⟩

/-- The duplicate heuristics block: starting from a partition with b = c,
it yields a possibly wider pivot-equal middle [b3, c3) while preserving
the other three regions, permuting only [lo, hi). -/
theorem doPivotDups_spec (K : α → ℚ) (lo hi a : Nat) (pv : ℚ)
    (l2 : List α) (b c : Nat) (hsz : hi - lo > 12)
    (ha : lo + 1 ≤ a) (hab : a ≤ b) (hbc : b = c) (hch : c ≤ hi - 1)
    (hlen : hi ≤ l2.length)
    (hpv : K (l2.getD lo default) = pv)
    (HL1 : ∀ k, lo + 1 ≤ k → k < a → K (l2.getD k default) < pv)
    (HL2 : ∀ k, a ≤ k → k < b → K (l2.getD k default) ≤ pv)
    (HR : ∀ k, c ≤ k → k < hi - 1 → pv < K (l2.getD k default))
    (HRhi : pv ≤ K (l2.getD (hi - 1) default)) :
    (doPivotDups (keyLt K) ((lo + hi) / 2) lo hi l2 b c).1.Perm l2 ∧
    OutEq l2 (doPivotDups (keyLt K) ((lo + hi) / 2) lo hi l2 b c).1 lo hi ∧
    (doPivotDups (keyLt K) ((lo + hi) / 2) lo hi l2 b c).1.length =
      l2.length ∧
    K ((doPivotDups (keyLt K) ((lo + hi) / 2) lo hi l2 b c).1.getD lo
      default) = pv ∧
    a ≤ (doPivotDups (keyLt K) ((lo + hi) / 2) lo hi l2 b c).2.1 ∧
    (doPivotDups (keyLt K) ((lo + hi) / 2) lo hi l2 b c).2.1 ≤
      (doPivotDups (keyLt K) ((lo + hi) / 2) lo hi l2 b c).2.2.1 ∧
    (doPivotDups (keyLt K) ((lo + hi) / 2) lo hi l2 b c).2.2.1 ≤ hi ∧
    (∀ k, lo + 1 ≤ k → k < a →
      K ((doPivotDups (keyLt K) ((lo + hi) / 2) lo hi l2 b c).1.getD k
        default) < pv) ∧
    (∀ k, a ≤ k → k < (doPivotDups (keyLt K) ((lo + hi) / 2) lo hi l2 b c).2.1 →
      K ((doPivotDups (keyLt K) ((lo + hi) / 2) lo hi l2 b c).1.getD k
        default) ≤ pv) ∧
    (∀ k, (doPivotDups (keyLt K) ((lo + hi) / 2) lo hi l2 b c).2.1 ≤ k →
      k < (doPivotDups (keyLt K) ((lo + hi) / 2) lo hi l2 b c).2.2.1 →
      K ((doPivotDups (keyLt K) ((lo + hi) / 2) lo hi l2 b c).1.getD k
        default) = pv) ∧
    (∀ k, (doPivotDups (keyLt K) ((lo + hi) / 2) lo hi l2 b c).2.2.1 ≤ k →
      k < hi →
      pv ≤ K ((doPivotDups (keyLt K) ((lo + hi) / 2) lo hi l2 b c).1.getD k
        default)) := by
  simp only [doPivotDups]
  by_cases hdups : ¬ (hi - c < 5) ∧ hi - c < (hi - lo) / 4
  · rw [if_pos hdups]
    have hclo : lo + 9 ≤ c := by omega
    set s1T := if ¬ keyLt K (l2.getD lo default) (l2.getD (hi - 1) default) =
        true then (lswap l2 c (hi - 1), c + 1, 1) else (l2, c, 0) with hs1e
    clear_value s1T
    have HS1 : s1T.1.Perm l2 ∧ OutEq l2 s1T.1 lo hi ∧
        s1T.1.length = l2.length ∧
        K (s1T.1.getD lo default) = pv ∧
        c ≤ s1T.2.1 ∧ s1T.2.1 ≤ hi ∧
        (∀ k, lo + 1 ≤ k → k < a → K (s1T.1.getD k default) < pv) ∧
        (∀ k, a ≤ k → k < b → K (s1T.1.getD k default) ≤ pv) ∧
        (∀ k, b ≤ k → k < s1T.2.1 → K (s1T.1.getD k default) = pv) ∧
        (∀ k, s1T.2.1 ≤ k → k < hi → pv ≤ K (s1T.1.getD k default)) := by
      rw [hs1e]
      split
      · next hc1 =>
        have hhv : K (l2.getD (hi - 1) default) = pv := by
          have h1 := keyLt_not_true hc1
          rw [hpv] at h1
          exact le_antisymm h1 HRhi
        dsimp only
        have hv_c : (lswap l2 c (hi - 1)).getD c default =
            l2.getD (hi - 1) default :=
          lswap_getD_left l2 c (hi - 1) (by omega) (by omega)
        have hv_h : (lswap l2 c (hi - 1)).getD (hi - 1) default =
            l2.getD c default :=
          lswap_getD_right l2 c (hi - 1) (by omega) (by omega)
        have hv_o : ∀ t, t ≠ c → t ≠ hi - 1 →
            (lswap l2 c (hi - 1)).getD t default = l2.getD t default :=
          fun t h1 h2 => lswap_getD_other l2 c (hi - 1) t h1 h2
        refine ⟨lswap_perm l2 c (hi - 1),
          lswap_outEq l2 c (hi - 1) lo hi (by omega) (by omega) (by omega)
            (by omega),
          lswap_length l2 c (hi - 1), ?_, by omega, by omega, ?_, ?_, ?_, ?_⟩
        · rw [hv_o lo (by omega) (by omega)]
          exact hpv
        · intro k h1 h2
          rw [hv_o k (by omega) (by omega)]
          exact HL1 k h1 h2
        · intro k h1 h2
          rw [hv_o k (by omega) (by omega)]
          exact HL2 k h1 h2
        · intro k h1 h2
          have hk : k = c := by omega
          rw [hk, hv_c]
          exact hhv
        · intro k h1 h2
          by_cases hk : k = hi - 1
          · rw [hk, hv_h]
            have := HR c (le_rfl) (by omega)
            exact le_of_lt this
          · rw [hv_o k (by omega) hk]
            exact le_of_lt (HR k (by omega) (by omega))
      · next hc1 =>
        dsimp only
        refine ⟨List.Perm.refl l2, outEq_refl l2 lo hi, rfl, hpv, le_rfl,
          by omega, HL1, HL2, ?_, ?_⟩
        · intro k h1 h2
          exfalso
          omega
        · intro k h1 h2
          by_cases hk : k = hi - 1
          · rw [hk]
            exact HRhi
          · exact le_of_lt (HR k h1 (by omega))
    obtain ⟨S1p, S1o, S1l, S1pv, S1c1, S1c2, S1L1, S1L2, S1M, S1R⟩ := HS1
    set s2T := if ¬ keyLt K (s1T.1.getD (b - 1) default)
        (s1T.1.getD lo default) = true then (b - 1, s1T.2.2 + 1)
      else (b, s1T.2.2) with hs2e
    clear_value s2T
    have HS2 : a ≤ s2T.1 ∧ b - 1 ≤ s2T.1 ∧ s2T.1 ≤ b ∧
        (∀ k, s2T.1 ≤ k → k < s1T.2.1 → K (s1T.1.getD k default) = pv) := by
      rw [hs2e]
      split
      · next hc2 =>
        have hbv : pv ≤ K (s1T.1.getD (b - 1) default) := by
          have h1 := keyLt_not_true hc2
          rw [S1pv] at h1
          exact h1
        dsimp only
        have hb1a : a ≤ b - 1 := by
          by_contra h
          have hblo : lo + 1 ≤ b - 1 := by omega
          have := S1L1 (b - 1) hblo (by omega)
          linarith
        refine ⟨hb1a, by omega, by omega, ?_⟩
        intro k h1 h2
        by_cases hk : k = b - 1
        · rw [hk]
          exact le_antisymm (S1L2 (b - 1) hb1a (by omega)) hbv
        · exact S1M k (by omega) h2
      · next hc2 =>
        dsimp only
        exact ⟨hab, by omega, le_rfl, S1M⟩
    obtain ⟨S2a, S2b1, S2b, S2M⟩ := HS2
    set s3T := if ¬ keyLt K (s1T.1.getD ((lo + hi) / 2) default)
        (s1T.1.getD lo default) = true then
        (lswap s1T.1 ((lo + hi) / 2) (s2T.1 - 1), s2T.1 - 1, s2T.2 + 1)
      else (s1T.1, s2T.1, s2T.2) with hs3e
    clear_value s3T
    have HS3 : s3T.1.Perm s1T.1 ∧ OutEq s1T.1 s3T.1 lo hi ∧
        s3T.1.length = s1T.1.length ∧
        K (s3T.1.getD lo default) = pv ∧
        a ≤ s3T.2.1 ∧ s3T.2.1 ≤ s2T.1 ∧
        (∀ k, lo + 1 ≤ k → k < a → K (s3T.1.getD k default) < pv) ∧
        (∀ k, a ≤ k → k < s3T.2.1 → K (s3T.1.getD k default) ≤ pv) ∧
        (∀ k, s3T.2.1 ≤ k → k < s1T.2.1 → K (s3T.1.getD k default) = pv) ∧
        (∀ k, s1T.2.1 ≤ k → k < hi → pv ≤ K (s3T.1.getD k default)) := by
      rw [hs3e]
      split
      · next hc3 =>
        have hmv : pv ≤ K (s1T.1.getD ((lo + hi) / 2) default) := by
          have h1 := keyLt_not_true hc3
          rw [S1pv] at h1
          exact h1
        have hma : a ≤ (lo + hi) / 2 := by
          by_contra h
          have := S1L1 ((lo + hi) / 2) (by omega) (by omega)
          linarith
        have hmb : (lo + hi) / 2 < b := by omega
        have hmv2 : K (s1T.1.getD ((lo + hi) / 2) default) = pv :=
          le_antisymm (S1L2 _ hma hmb) hmv
        have hmt : (lo + hi) / 2 ≤ s2T.1 - 1 := by omega
        have hta : a ≤ s2T.1 - 1 := by omega
        have htb : s2T.1 - 1 < b := by omega
        dsimp only
        have hs1len : hi ≤ s1T.1.length := by omega
        have hv_t : (lswap s1T.1 ((lo + hi) / 2) (s2T.1 - 1)).getD
            (s2T.1 - 1) default = s1T.1.getD ((lo + hi) / 2) default :=
          lswap_getD_right s1T.1 _ _ (by omega) (by omega)
        have hv_m : (lswap s1T.1 ((lo + hi) / 2) (s2T.1 - 1)).getD
            ((lo + hi) / 2) default = s1T.1.getD (s2T.1 - 1) default :=
          lswap_getD_left s1T.1 _ _ (by omega) (by omega)
        have hv_o : ∀ t, t ≠ (lo + hi) / 2 → t ≠ s2T.1 - 1 →
            (lswap s1T.1 ((lo + hi) / 2) (s2T.1 - 1)).getD t default =
              s1T.1.getD t default :=
          fun t h1 h2 => lswap_getD_other s1T.1 _ _ t h1 h2
        refine ⟨lswap_perm _ _ _,
          lswap_outEq s1T.1 _ _ lo hi (by omega) (by omega) (by omega)
            (by omega),
          lswap_length _ _ _, ?_, by omega, by omega, ?_, ?_, ?_, ?_⟩
        · rw [hv_o lo (by omega) (by omega)]
          exact S1pv
        · intro k h1 h2
          rw [hv_o k (by omega) (by omega)]
          exact S1L1 k h1 h2
        · intro k h1 h2
          by_cases hk : k = (lo + hi) / 2
          · rw [hk, hv_m]
            exact S1L2 _ hta htb
          · rw [hv_o k hk (by omega)]
            exact S1L2 k h1 (by omega)
        · intro k h1 h2
          by_cases hk : k = s2T.1 - 1
          · rw [hk, hv_t]
            exact hmv2
          · rw [hv_o k (by omega) hk]
            exact S2M k (by omega) h2
        · intro k h1 h2
          rw [hv_o k (by omega) (by omega)]
          exact S1R k h1 h2
      · next hc3 =>
        dsimp only
        refine ⟨List.Perm.refl _, outEq_refl _ lo hi, rfl, S1pv, S2a,
          le_rfl, S1L1, ?_, S2M, S1R⟩
        intro k h1 h2
        exact S1L2 k h1 (by omega)
    obtain ⟨T1, T2, T3, T4, T5, T6, T7, T8, T9, T10⟩ := HS3
    dsimp only
    exact ⟨T1.trans S1p, outEq_comp S1o T2, T3.trans S1l, T4, T5,
      by omega, by omega, T7, T8, T9, T10⟩
  · rw [if_neg hdups]
    dsimp only
    refine ⟨List.Perm.refl l2, outEq_refl l2 lo hi, rfl, hpv, hab,
      by omega, by omega, HL1, HL2, ?_, ?_⟩
    · intro k h1 h2
      exfalso
      omega
    · intro k h1 h2
      by_cases hk : k = hi - 1
      · rw [hk]
        exact HRhi
      · exact le_of_lt (HR k h1 (by omega))

/-- The optional protect phase: for any protect flag it returns a state
(l4, b4) with everything in [lo+1, b4) at most the pivot, [b4, b3) equal
to it, and everything from b3 on untouched. -/
theorem doPivotFin_spec (K : α → ℚ) (lo hi a : Nat) (pv : ℚ)
    (l3 : List α) (b3 : Nat) (protect : Bool)
    (ha : lo + 1 ≤ a) (hab : a ≤ b3) (hbh : b3 ≤ hi)
    (hlen : hi ≤ l3.length)
    (hpv : K (l3.getD lo default) = pv)
    (HL1 : ∀ k, lo + 1 ≤ k → k < a → K (l3.getD k default) < pv)
    (HL2 : ∀ k, a ≤ k → k < b3 → K (l3.getD k default) ≤ pv) :
    (doPivotFin (keyLt K) lo a l3 b3 protect).1.Perm l3 ∧
    OutEq l3 (doPivotFin (keyLt K) lo a l3 b3 protect).1 lo hi ∧
    (doPivotFin (keyLt K) lo a l3 b3 protect).1.length = l3.length ∧
    K ((doPivotFin (keyLt K) lo a l3 b3 protect).1.getD lo default) = pv ∧
    lo + 1 ≤ (doPivotFin (keyLt K) lo a l3 b3 protect).2 ∧
    (doPivotFin (keyLt K) lo a l3 b3 protect).2 ≤ b3 ∧
    (∀ k, lo + 1 ≤ k → k < (doPivotFin (keyLt K) lo a l3 b3 protect).2 →
      K ((doPivotFin (keyLt K) lo a l3 b3 protect).1.getD k default) ≤ pv) ∧
    (∀ k, (doPivotFin (keyLt K) lo a l3 b3 protect).2 ≤ k → k < b3 →
      K ((doPivotFin (keyLt K) lo a l3 b3 protect).1.getD k default) = pv) ∧
    (∀ t, b3 ≤ t →
      (doPivotFin (keyLt K) lo a l3 b3 protect).1.getD t default =
        l3.getD t default) := by
  simp only [doPivotFin]
  split
  · obtain ⟨P1, P2, P3, P4, P5, P6, P7⟩ := dpProtectLoop_spec K lo pv
      (lo + 1) b3 (b3 - a) l3 a b3 le_rfl ha (by omega) le_rfl (by omega)
      (by omega) hpv
      (fun k h1 h2 h3 => HL1 k h1 h2) HL2
      (by intro k h1 h2; exfalso; omega)
    dsimp only
    refine ⟨P1, outEq_mono (by omega) hbh P2, P3, ?_, P4, P5, ?_, P7, ?_⟩
    · rw [P2.2 lo (Or.inl (by omega))]
      exact hpv
    · intro k h1 h2
      exact le_of_lt (P6 k h1 h2)
    · intro t ht
      exact P2.2 t (Or.inr ht)
  · dsimp only
    refine ⟨List.Perm.refl l3, outEq_refl l3 lo hi, rfl, hpv, by omega,
      le_rfl, ?_, ?_, fun t ht => rfl⟩
    · intro k h1 h2
      by_cases hk : k < a
      · exact le_of_lt (HL1 k h1 hk)
      · exact HL2 k (by omega) h2
    · intro k h1 h2
      exfalso
      omega

/-- doPivot(data, lo, hi): a permutation confined to [lo, hi) together
with a nonempty pivot-equal middle (midlo, midhi) separating the at-most
region [lo, midlo) from the at-least region [midhi, hi). -/
theorem doPivotGo_spec (K : α → ℚ) (l : List α) (lo hi : Nat)
    (hlen : hi ≤ l.length) (hsz : hi - lo > 12) :
    ∃ pv : ℚ,
    (doPivotGo (keyLt K) l lo hi).1.Perm l ∧
    OutEq l (doPivotGo (keyLt K) l lo hi).1 lo hi ∧
    (doPivotGo (keyLt K) l lo hi).1.length = l.length ∧
    lo ≤ (doPivotGo (keyLt K) l lo hi).2.1 ∧
    (doPivotGo (keyLt K) l lo hi).2.1 < (doPivotGo (keyLt K) l lo hi).2.2 ∧
    (doPivotGo (keyLt K) l lo hi).2.2 ≤ hi ∧
    (∀ k, lo ≤ k → k < (doPivotGo (keyLt K) l lo hi).2.1 →
      K ((doPivotGo (keyLt K) l lo hi).1.getD k default) ≤ pv) ∧
    (∀ k, (doPivotGo (keyLt K) l lo hi).2.1 ≤ k →
      k < (doPivotGo (keyLt K) l lo hi).2.2 →
      K ((doPivotGo (keyLt K) l lo hi).1.getD k default) = pv) ∧
    (∀ k, (doPivotGo (keyLt K) l lo hi).2.2 ≤ k → k < hi →
      pv ≤ K ((doPivotGo (keyLt K) l lo hi).1.getD k default)) := by
  simp only [doPivotGo]
  obtain ⟨N1, N2, N3⟩ := doPivotNinther_basic (keyLt K) l lo hi
  set l1 := medianOfThree (keyLt K) (doPivotNinther (keyLt K) l lo hi) lo
    ((lo + hi) / 2) (hi - 1) with hl1e
  clear_value l1
  obtain ⟨B1, B2, B3⟩ := medianOfThree_basic (keyLt K)
    (doPivotNinther (keyLt K) l lo hi) lo ((lo + hi) / 2) (hi - 1) lo hi
    le_rfl (by omega) (by omega) (by omega) (by omega) (by omega)
  rw [← hl1e] at B1 B2 B3
  obtain ⟨O1, O2⟩ := medianOfThree_order K
    (doPivotNinther (keyLt K) l lo hi) lo ((lo + hi) / 2) (hi - 1)
    (by omega) (by omega) (by omega) (by omega) (by omega) (by omega)
  rw [← hl1e] at O1 O2
  have hl1len : l1.length = l.length := B3.trans N3
  set pv := K (l1.getD lo default) with hpve
  clear_value pv
  set a := dpAdvanceA (keyLt K) l1 lo (hi - 1) (hi - 1 - (lo + 1)) (lo + 1)
    with hae
  clear_value a
  obtain ⟨A1, A2, A3, A4⟩ := dpAdvanceA_spec K l1 lo (hi - 1)
    (hi - 1 - (lo + 1)) (lo + 1) le_rfl
  rw [← hae] at A1 A2 A3 A4
  have haub : a ≤ hi - 1 := A2 (by omega)
  set r := dpMainLoop (keyLt K) lo (hi - 1 - a) l1 a (hi - 1) with hre
  clear_value r
  obtain ⟨M1, M2, M3, M4, M5, M6, M7, M8⟩ := dpMainLoop_spec K lo pv a
    (hi - 1) (hi - 1 - a) l1 a (hi - 1) le_rfl le_rfl haub le_rfl
    (by omega) (by omega) hpve.symm
    (by intro k h1 h2; exfalso; omega)
    (by intro k h1 h2; exfalso; omega)
  rw [← hre] at M1 M2 M3 M4 M5 M6 M7 M8
  have hvr_lo : r.1.getD lo default = l1.getD lo default :=
    M2.2 lo (Or.inl (by omega))
  have hvr_hi : r.1.getD (hi - 1) default = l1.getD (hi - 1) default :=
    M2.2 (hi - 1) (Or.inr le_rfl)
  have hr_pv : K (r.1.getD lo default) = pv := by
    rw [hvr_lo]
    exact hpve.symm
  have hr_L1 : ∀ k, lo + 1 ≤ k → k < a → K (r.1.getD k default) < pv := by
    intro k h1 h2
    rw [M2.2 k (Or.inl h2), hpve]
    exact A3 k h1 h2
  have hr_Rhi : pv ≤ K (r.1.getD (hi - 1) default) := by
    rw [hvr_hi]
    exact O2
  have hr_len : r.1.length = l.length := M3.trans hl1len
  obtain ⟨D1, D2, D3, D4, D5, D6, D7, D8, D9, D10, D11⟩ :=
    doPivotDups_spec K lo hi a pv r.1 r.2.1 r.2.2 hsz (by omega) M5 M4
      (by omega) (by omega) hr_pv hr_L1 M7 M8 hr_Rhi
  set d := doPivotDups (keyLt K) ((lo + hi) / 2) lo hi r.1 r.2.1 r.2.2
    with hde
  clear_value d
  obtain ⟨F1, F2, F3, F4, F5, F6, F7, F8, F9⟩ := doPivotFin_spec K lo hi a
    pv d.1 d.2.1 d.2.2.2 (by omega) D5 (by omega) (by omega) D4 D8 D9
  set f := doPivotFin (keyLt K) lo a d.1 d.2.1 d.2.2.2 with hfe
  clear_value f
  obtain ⟨G1, G2, G3, G4, G5, G6, G7, G8⟩ := doPivot_finish K lo hi pv d.1
    f.1 f.2 d.2.2.1 F5 (by omega) D7 (by omega) F1 F2 F3 F4 F7
    (by
      intro k h1 h2
      by_cases hk : k < d.2.1
      · exact F8 k h1 hk
      · rw [F9 k (by omega)]
        exact D10 k (by omega) h2)
    (by
      intro k h1 h2
      rw [F9 k (by omega)]
      exact D11 k h1 h2)
  refine ⟨pv, ?_, ?_, ?_, G4, G5, D7, G6, G7, G8⟩
  · exact G1.trans (D1.trans (M1.trans (B1.trans N1)))
  · exact outEq_comp
      (outEq_comp (outEq_comp (outEq_comp N2 B2)
        (outEq_mono (by omega) (by omega) M2)) D2) G2
  · exact G3.trans (D3.trans hr_len)

/-! ### quickSort and sort.Sort -/

/-- quickSort(data, a, b, maxDepth): for every depth budget, a
permutation confined to [a, b) that sorts [a, b). -/
theorem quickSortGo_spec (K : α → ℚ) :
    ∀ (depth : Nat) (l : List α) (a b : Nat), b ≤ l.length →
    (quickSortGo (keyLt K) depth l a b).Perm l ∧
    OutEq l (quickSortGo (keyLt K) depth l a b) a b ∧
    SortedSeg K (quickSortGo (keyLt K) depth l a b) a b ∧
    (quickSortGo (keyLt K) depth l a b).length = l.length := by
  intro depth
  induction depth with
  | zero =>
    intro l a b hb
    rw [quickSortGo]
    by_cases h12 : b - a > 12
    · rw [if_pos h12]
      exact heapSortGo_spec K l a b hb (by omega)
    · rw [if_neg h12]
      by_cases h1 : b - a > 1
      · rw [if_pos h1]
        exact smallSortGo_spec K l a b hb
      · rw [if_neg h1]
        refine ⟨List.Perm.refl l, outEq_refl l a b, ?_, rfl⟩
        intro i j hij1 hij2 hij3
        exfalso
        omega
  | succ n ih =>
    intro l a b hb
    rw [quickSortGo]
    by_cases h12 : b - a > 12
    · rw [if_pos h12]
      obtain ⟨pv, V1, V2, V3, V4, V5, V6, V7, V8, V9⟩ :=
        doPivotGo_spec K l a b hb h12
      set P := doPivotGo (keyLt K) l a b with hPe
      clear_value P
      by_cases hside : P.2.1 - a < b - P.2.2
      · rw [if_pos hside]
        obtain ⟨I1, I2, I3, I4⟩ := ih P.1 a P.2.1 (by omega)
        set w := quickSortGo (keyLt K) n P.1 a P.2.1 with hwe
        clear_value w
        obtain ⟨J1, J2, J3, J4⟩ := ih w P.2.2 b (by omega)
        set z := quickSortGo (keyLt K) n w P.2.2 b with hze
        clear_value z
        have hzlen : z.length = l.length := by omega
        have hwL : ∀ k, a ≤ k → k < P.2.1 → K (w.getD k default) ≤ pv :=
          bound_transport (fun x => K x ≤ pv)
            (show P.2.1 ≤ P.1.length from by omega) (by omega) I1 I2 V7
        have hzM : ∀ k, P.2.1 ≤ k → k < P.2.2 →
            K (z.getD k default) = pv := by
          intro k hk1 hk2
          rw [J2.2 k (Or.inl hk2), I2.2 k (Or.inr hk1)]
          exact V8 k hk1 hk2
        have hzL : ∀ k, a ≤ k → k < P.2.1 → K (z.getD k default) ≤ pv := by
          intro k hk1 hk2
          rw [J2.2 k (Or.inl (by omega))]
          exact hwL k hk1 hk2
        have hwR : ∀ k, P.2.2 ≤ k → k < b → pv ≤ K (w.getD k default) := by
          intro k hk1 hk2
          rw [I2.2 k (Or.inr (by omega))]
          exact V9 k hk1 hk2
        have hzR : ∀ k, P.2.2 ≤ k → k < b → pv ≤ K (z.getD k default) :=
          bound_transport (fun x => pv ≤ K x)
            (show b ≤ w.length from by omega) (by omega) J1 J2 hwR
        have hzS1 : SortedSeg K z a P.2.1 :=
          sortedSeg_congr (fun k hk1 hk2 => J2.2 k (Or.inl (by omega))) I3
        have hzS : SortedSeg K z a b :=
          sortedSeg_glue (by omega) (by omega) (by omega) hzS1 J3 hzL hzM hzR
        exact ⟨(J1.trans I1).trans V1,
          outEq_comp V2 (outEq_comp (outEq_mono le_rfl (by omega) I2)
            (outEq_mono (by omega) le_rfl J2)), hzS, hzlen⟩
      · rw [if_neg hside]
        obtain ⟨I1, I2, I3, I4⟩ := ih P.1 P.2.2 b (by omega)
        set w := quickSortGo (keyLt K) n P.1 P.2.2 b with hwe
        clear_value w
        obtain ⟨J1, J2, J3, J4⟩ := ih w a P.2.1 (by omega)
        set z := quickSortGo (keyLt K) n w a P.2.1 with hze
        clear_value z
        have hzlen : z.length = l.length := by omega
        have hwR : ∀ k, P.2.2 ≤ k → k < b → pv ≤ K (w.getD k default) :=
          bound_transport (fun x => pv ≤ K x)
            (show b ≤ P.1.length from by omega) (by omega) I1 I2 V9
        have hzR : ∀ k, P.2.2 ≤ k → k < b → pv ≤ K (z.getD k default) := by
          intro k hk1 hk2
          rw [J2.2 k (Or.inr (by omega))]
          exact hwR k hk1 hk2
        have hwL : ∀ k, a ≤ k → k < P.2.1 → K (w.getD k default) ≤ pv := by
          intro k hk1 hk2
          rw [I2.2 k (Or.inl (by omega))]
          exact V7 k hk1 hk2
        have hzL : ∀ k, a ≤ k → k < P.2.1 → K (z.getD k default) ≤ pv :=
          bound_transport (fun x => K x ≤ pv)
            (show P.2.1 ≤ w.length from by omega) (by omega) J1 J2 hwL
        have hzM : ∀ k, P.2.1 ≤ k → k < P.2.2 →
            K (z.getD k default) = pv := by
          intro k hk1 hk2
          rw [J2.2 k (Or.inr hk1), I2.2 k (Or.inl hk2)]
          exact V8 k hk1 hk2
        have hzS2 : SortedSeg K z P.2.2 b :=
          sortedSeg_congr (fun k hk1 hk2 => J2.2 k (Or.inr (by omega))) I3
        have hzS : SortedSeg K z a b :=
          sortedSeg_glue (by omega) (by omega) (by omega) J3 hzS2 hzL hzM hzR
        exact ⟨(J1.trans I1).trans V1,
          outEq_comp V2 (outEq_comp (outEq_mono (by omega) le_rfl I2)
            (outEq_mono le_rfl (by omega) J2)), hzS, hzlen⟩
    · rw [if_neg h12]
      by_cases h1 : b - a > 1
      · rw [if_pos h1]
        exact smallSortGo_spec K l a b hb
      · rw [if_neg h1]
        refine ⟨List.Perm.refl l, outEq_refl l a b, ?_, rfl⟩
        intro i j hij1 hij2 hij3
        exfalso
        omega

/-- sort.Sort(data): a permutation of the input sorted by the key. -/
theorem goSort_spec (K : α → ℚ) (l : List α) :
    (goSort (keyLt K) l).Perm l ∧
    SortedSeg K (goSort (keyLt K) l) 0 l.length ∧
    (goSort (keyLt K) l).length = l.length := by
  unfold goSort
  obtain ⟨Q1, Q2, Q3, Q4⟩ := quickSortGo_spec K (2 * maxDepthLoop l.length)
    l 0 l.length le_rfl
  exact ⟨Q1, Q3, Q4⟩

/-- The Actions Less relation is the comparator of the negated-Weight
key. -/
theorem actionLess_eq_keyLt :
    actionLess = keyLt (fun x : Action => -x.Weight) := by
  funext x y
  simp [actionLess, keyLt]

end SortProofs

/-- C1: counterexample to the stability clause of the sort claim. On this
seven-action list (weights 1, 5, 2, 2, 2, 2, 5) Actions.Sort exchanges the
relative order of the two equal-weight actions B and G (the gap-6 shell
pass of the underlying unstable sort.Sort swaps positions 0 and 6), so the
output, although a weight-sorted permutation, does not keep every
per-weight fiber in input order. -/
theorem C1_sort_not_stable :
    ¬ StableWeightSorted cexActions (Actions.SortL cexActions) := by
  decide

/-- C1 (amended): for every Actions list, Sort() produces a permutation of
the input in non-increasing Weight order. The stability clause of the
original claim is dropped: the code calls the unstable sort.Sort, so
equal-weight actions may be reordered. -/
theorem C1_sort_weight_ordered (apl : List Action) :
    (Actions.SortL apl).Perm apl ∧
    (Actions.SortL apl).Pairwise (fun x y => y.Weight ≤ x.Weight) := by
  obtain ⟨H1, H2, H3⟩ := goSort_spec (fun x : Action => -x.Weight) apl
  have he : Actions.SortL apl =
      goSort (keyLt (fun x : Action => -x.Weight)) apl := by
    unfold Actions.SortL
    rw [actionLess_eq_keyLt]
  rw [he]
  refine ⟨H1, ?_⟩
  rw [List.pairwise_iff_getElem]
  intro i j hi hj hij
  have h2 := H2 i j (Nat.zero_le i) hij (by omega)
  rw [List.getD_eq_getElem _ _ hi, List.getD_eq_getElem _ _ hj] at h2
  dsimp only at h2 ⊢
  linarith

end CGRE
